import Mathlib

/-!
Verification of the Oh My CV Obsidian plugin core pipeline.

This file shallowly embeds the data model and operations of the plugin
(`src/core/types.ts`, `src/core/templates.ts`, `src/core/constants.ts`,
`src/services/settings-service.ts`, `src/services/export-service.ts`,
`src/ui/export-modal.ts`) as executable Lean definitions, and proves or
refutes the specification claims about them.

Conventions:
- JavaScript numbers are modelled as rationals (`ℚ`); every numeric literal
  in the embedded code is a small decimal, so this is exact.
- TypeScript optional fields (`x?: T`) are modelled as `Option T`.
- Strings are Lean `String`s; where a claim needs character-level reasoning
  we work on `List Char` via `String.data`.
- Methods that mutate `this.settings` / `this.plugin.data` are modelled as
  pure state-passing functions returning the new state.
-/

namespace OhMyCV

/-- JavaScript `a || b` on strings: `""` is falsy. -/
def jsOrStr (a b : String) : String := if a = "" then b else a

/-- JavaScript `a || b` where `a` is an optional string (`undefined` and `""`
are falsy). -/
def jsOrOptStr (a : Option String) (b : String) : String :=
  match a with
  | none => b
  | some s => if s = "" then b else s

/-- JavaScript `a || b` on numbers: `0` is falsy (`NaN` is not modelled; no
embedded value is `NaN`). -/
def jsOrNum (a b : ℚ) : ℚ := if a = 0 then b else a

/-- JavaScript `a || b` where `a` is an optional number. -/
def jsOrOptNum (a : Option ℚ) (b : ℚ) : ℚ :=
  match a with
  | none => b
  | some q => if q = 0 then b else q

/-- JavaScript `a || b` on booleans. -/
def jsOrOptBool (a : Option Bool) (b : Bool) : Bool :=
  match a with
  | none => b
  | some x => x || b

/-! ## Core data model (`src/core/types.ts`) -/

/-- Page sizes (`'A4' | 'LETTER' | 'LEGAL' | 'TABLOID'`). -/
inductive PageSize where
  | A4 | LETTER | LEGAL | TABLOID
deriving DecidableEq

/-- Page orientations (`'portrait' | 'landscape'`). -/
inductive PageOrient where
  | portrait | landscape
deriving DecidableEq

/-- Margins in mm (`{top, right, bottom, left}`). -/
structure Margins where
  top : ℚ
  right : ℚ
  bottom : ℚ
  left : ℚ
deriving DecidableEq

/-- `CVTheme`: only `primaryColor` is required. -/
structure CVTheme where
  primaryColor : String
  secondaryColor : Option String := none
  accentColor : Option String := none
  textColor : Option String := none
  linkColor : Option String := none
  backgroundColor : Option String := none
  headingFont : Option String := none
  bodyFont : Option String := none
  fontSize : Option String := none
  lineHeight : Option String := none
deriving DecidableEq

/-- `CVTemplateStyle`. -/
structure CVTemplateStyle where
  theme : CVTheme
  margins : Margins
  spacing : ℚ
  customCSS : Option String := none
deriving DecidableEq

/-- `CVTemplate`. -/
structure CVTemplate where
  id : String
  name : String
  description : String
  content : String
  style : CVTemplateStyle
  previewImage : Option String := none
  category : Option String := none
  tags : Option (List String) := none
deriving DecidableEq

/-- `CVMetadata` (document frontmatter). -/
structure CVMetadata where
  title : String
  lastModified : ℚ
  pageSize : PageSize
  orient : Option PageOrient := none
  margins : Margins
  themeColor : String
  fontFamily : String
  fontSize : ℚ
  lineHeight : ℚ
  customCss : Option String := none
  tags : Option (List String) := none
deriving DecidableEq

/-- `CVDocument`. -/
structure CVDocument where
  path : String
  metadata : CVMetadata
  content : String
deriving DecidableEq

/-- `PDFExportOptions` (the full shape; `embedFonts` and `imageQuality` are
optional in the interface). -/
structure PDFExportOptions where
  filename : String
  pageSize : PageSize
  orient : PageOrient
  margins : Margins
  includeHeader : Bool
  headerContent : Option String := none
  includeFooter : Bool
  footerContent : Option String := none
  includePageNumbers : Bool
  embedFonts : Option Bool := none
  imageQuality : Option ℚ := none
deriving DecidableEq

/-- `Partial<PDFExportOptions>`: every field possibly absent. -/
structure PartialPDFExportOptions where
  filename : Option String := none
  pageSize : Option PageSize := none
  orient : Option PageOrient := none
  margins : Option Margins := none
  includeHeader : Option Bool := none
  headerContent : Option String := none
  includeFooter : Option Bool := none
  footerContent : Option String := none
  includePageNumbers : Option Bool := none
  embedFonts : Option Bool := none
  imageQuality : Option ℚ := none
deriving DecidableEq

/-- `OhMyCVSettings` (the settings aggregate). -/
structure OhMyCVSettings where
  defaultPageSize : PageSize
  defaultMargins : Margins
  defaultThemeColor : String
  defaultFontFamily : String
  defaultFontSize : ℚ
  defaultLineHeight : ℚ
  enableCustomCss : Bool
  defaultCustomCss : String
  autoCasing : Bool
  texSupport : Bool
  showPageBreaks : Bool
  iconSupport : Bool
  googleFontsApiKey : Option String := none
  recentlyUsedFonts : List String
  templates : List CVTemplate
deriving DecidableEq

/-! ## Builtin templates (`src/core/templates.ts`)

`DEFAULT_THEMES` and `DEFAULT_MARGINS` are records; each entry is embedded as
its own definition. Template `content` strings are transcribed verbatim
(literal braces are written `\x7b`/`\x7d`, apostrophes `\x27`). -/

def DEFAULT_THEMES_classic : CVTheme :=
  { primaryColor := "#4051b5", secondaryColor := some "#4051b580",
    textColor := some "#333333", linkColor := some "#4051b5",
    backgroundColor := some "#ffffff", headingFont := some "Roboto",
    bodyFont := some "Roboto", fontSize := some "11pt", lineHeight := some "1.5" }

def DEFAULT_THEMES_modern : CVTheme :=
  { primaryColor := "#2d3748", secondaryColor := some "#4a5568",
    accentColor := some "#3182ce", textColor := some "#1a202c",
    linkColor := some "#3182ce", backgroundColor := some "#ffffff",
    headingFont := some "Inter", bodyFont := some "Inter",
    fontSize := some "11pt", lineHeight := some "1.6" }

def DEFAULT_THEMES_minimal : CVTheme :=
  { primaryColor := "#000000", secondaryColor := some "#555555",
    textColor := some "#000000", linkColor := some "#000000",
    backgroundColor := some "#ffffff", headingFont := some "Inter",
    bodyFont := some "Inter", fontSize := some "10.5pt", lineHeight := some "1.4" }

def DEFAULT_THEMES_academic : CVTheme :=
  { primaryColor := "#861f41", secondaryColor := some "#861f4180",
    textColor := some "#333333", linkColor := some "#861f41",
    backgroundColor := some "#ffffff", headingFont := some "Merriweather",
    bodyFont := some "Source Sans Pro", fontSize := some "11pt",
    lineHeight := some "1.5" }

def DEFAULT_THEMES_creative : CVTheme :=
  { primaryColor := "#e53e3e", secondaryColor := some "#e53e3e80",
    accentColor := some "#38a169", textColor := some "#2d3748",
    linkColor := some "#e53e3e", backgroundColor := some "#ffffff",
    headingFont := some "Poppins", bodyFont := some "Nunito",
    fontSize := some "11pt", lineHeight := some "1.6" }

def DEFAULT_MARGINS_standard : Margins := { top := 20, right := 20, bottom := 20, left := 20 }

def DEFAULT_MARGINS_narrow : Margins := { top := 15, right := 15, bottom := 15, left := 15 }

def DEFAULT_MARGINS_wide : Margins := { top := 25, right := 25, bottom := 25, left := 25 }

def DEFAULT_MARGINS_academic : Margins := { top := 25, right := 25, bottom := 25, left := 25 }

def CLASSIC_PROFESSIONAL_TEMPLATE : CVTemplate :=
  { id := "classic-professional", name := "Classic Professional",
    description := "A clean, traditional CV template suitable for most professional fields",
    category := some "Professional", tags := some ["classic", "formal", "traditional"],
    style := { theme := DEFAULT_THEMES_classic, margins := DEFAULT_MARGINS_standard, spacing := 115/100 },
    content := "# Your Name\n## Professional Title\n\nExperienced professional with a passion for excellence and a track record of delivering results. Skilled in [your key skills] with [X] years of experience in [your industry].\n\n## Skills\n\n- **Technical Skills:** Skill 1, Skill 2, Skill 3\n- **Soft Skills:** Communication, Leadership, Problem-solving\n- **Languages:** English (Fluent), [Other Languages]\n- **Certifications:** [Your Certifications]\n\n## Experience\n\n### Job Title at Company Name\n\\daterange\x7bMonth Year\x7d\x7bPresent or End Month Year\x7d\n\n- Accomplishment 1 that demonstrates your skills and impact\n- Accomplishment 2 with measurable results (e.g., increased efficiency by X%)\n- Accomplishment 3 showing leadership or innovation\n\n### Previous Job Title at Company Name\n\\daterange\x7bMonth Year\x7d\x7bMonth Year\x7d\n\n- Key responsibility or achievement with specific examples\n- Notable project or initiative you led or contributed to\n- Relevant accomplishment with quantifiable results\n\n## Education\n\n### Degree Name\n\\daterange\x7bYear\x7d\x7bYear\x7d\nUniversity Name, Location\n\n- Relevant coursework: Course 1, Course 2\n- GPA: X.X/4.0 (if applicable and impressive)\n- Academic awards or honors (if applicable)\n\n## Projects\n\n### Project Name\n- Brief description of the project and your role\n- Technologies or methodologies used\n- Outcome or impact of the project\n\n## Contact Information\n\n- Email: your.email@example.com\n- Phone: (123) 456-7890\n- LinkedIn: linkedin.com/in/yourprofile\n- Portfolio: yourportfolio.com" }

def MODERN_MINIMAL_TEMPLATE : CVTemplate :=
  { id := "modern-minimal", name := "Modern Minimal",
    description := "A sleek, minimalist template with clean typography and streamlined layout",
    category := some "Professional", tags := some ["minimal", "modern", "clean"],
    style := { theme := DEFAULT_THEMES_minimal, margins := DEFAULT_MARGINS_narrow, spacing := 12/10 },
    content := "# Your Name\n\n\\cvtag\x7bEmail\x7d \\cvtag\x7bPhone\x7d \\cvtag\x7bLocation\x7d \\cvtag\x7bLinkedIn\x7d \\cvtag\x7bWebsite\x7d\n\nProfessional with expertise in [key skill areas]. Focused on [your value proposition or professional philosophy].\n\n## Experience\n\n### Senior Position \u00B7 Company Name\n\\daterange\x7b2020\x7d\x7bPresent\x7d\n\n- Key achievement with measurable impact\n- Significant responsibility highlighting leadership\n- Notable project demonstrating technical expertise\n\n### Junior Position \u00B7 Previous Company\n\\daterange\x7b2017\x7d\x7b2020\x7d\n\n- Relevant accomplishment showing growth\n- Project or initiative that delivered results\n- Skill development or recognition received\n\n## Skills\n\n\\cvskill\x7bSkill Category 1\x7d\x7b90\x7d\n\\cvskill\x7bSkill Category 2\x7d\x7b85\x7d\n\\cvskill\x7bSkill Category 3\x7d\x7b75\x7d\n\\cvskill\x7bSkill Category 4\x7d\x7b80\x7d\n\n## Education\n\n### Degree \u00B7 University\n\\daterange\x7b2013\x7d\x7b2017\x7d\n\nRelevant honors, focus areas, or thesis topic.\n\n## Projects\n\n### Key Project 1\nBrief description highlighting your role and impact.\n\n### Key Project 2\nTechnologies used and outcomes achieved.\n\n\\textsc\x7bReferences available upon request\x7d" }

def ACADEMIC_CV_TEMPLATE : CVTemplate :=
  { id := "academic", name := "Academic CV",
    description := "Comprehensive template for academic positions, research roles, and grant applications",
    category := some "Academic", tags := some ["academic", "research", "formal"],
    style := { theme := DEFAULT_THEMES_academic, margins := DEFAULT_MARGINS_academic, spacing := 12/10 },
    content := "# Your Name, Ph.D.\n## Research Area or Academic Position\n\n\\cvtag\x7bDepartment\x7d \\cvtag\x7bInstitution\x7d \\cvtag\x7bEmail\x7d \\cvtag\x7bPhone\x7d \\cvtag\x7bORCID\x7d\n\n## Education\n\n### Ph.D. in Field\n\\daterange\x7bYear\x7d\x7bYear\x7d\nUniversity Name, Location\n- Dissertation: \"Title of Your Dissertation\"\n- Advisor: Professor Name\n- Committee: Professor Names\n\n### Master\x27s in Field\n\\daterange\x7bYear\x7d\x7bYear\x7d\nUniversity Name, Location\n- Thesis: \"Title of Your Thesis\"\n\n### Bachelor\x27s in Field\n\\daterange\x7bYear\x7d\x7bYear\x7d\nUniversity Name, Location\n\n## Research Experience\n\n### Position Title\n\\daterange\x7bYear\x7d\x7bPresent or Year\x7d\nInstitution, Department, Location\n- Research focus and key contributions\n- Methodologies developed or applied\n- Significant findings or outcomes\n\n## Publications\n\n### Peer-Reviewed Journal Articles\n\n1. Author, A., Author, B., & **Your Name**. (Year). Title of the article. *Journal Name*, Volume(Issue), Pages. doi:number\n2. **Your Name**, Author, C., & Author, D. (Year). Title of the article. *Journal Name*, Volume(Issue), Pages. doi:number\n\n### Conference Proceedings\n\n1. **Your Name**, & Author, E. (Year). Title of the paper. In *Proceedings of Conference Name* (pp. Pages). Location: Publisher.\n\n## Teaching Experience\n\n### Course Title\n\\daterange\x7bSemester Year\x7d\x7bSemester Year\x7d\nInstitution, Department\n- Brief description of responsibilities and teaching methods\n- Student evaluations or teaching achievements\n\n## Grants and Funding\n\n- Grant Name, Funding Agency, Amount, Year(s)\n- Fellowship Name, Institution, Year(s)\n\n## Professional Service\n\n- Reviewer for Journal Names\n- Committee memberships\n- Conference organization roles\n\n## Skills\n\n- **Research Methods:** Method 1, Method 2, Method 3\n- **Technical Skills:** Skill 1, Skill 2, Skill 3\n- **Languages:** Language 1 (Proficiency), Language 2 (Proficiency)\n\n\\newpage\n\n## References\n\n1. **Professor Name**  \n   Position  \n   Institution  \n   Email  \n   Phone\n\n2. **Professor Name**  \n   Position  \n   Institution  \n   Email  \n   Phone" }

def CREATIVE_PROFESSIONAL_TEMPLATE : CVTemplate :=
  { id := "creative-professional", name := "Creative Professional",
    description := "A modern template with visual flair for creative industries",
    category := some "Creative", tags := some ["creative", "modern", "colorful"],
    style := { theme := DEFAULT_THEMES_creative, margins := DEFAULT_MARGINS_standard, spacing := 13/10,
               customCSS := some ".oh-my-cv-skill-level \x7b \n      background: linear-gradient(90deg, #e53e3e 0%, #38a169 100%); \n      height: 6px;\n      border-radius: 3px;\n    \x7d\n    .oh-my-cv-tag \x7b\n      background-color: #e53e3e20;\n      border-left: 3px solid #e53e3e;\n    \x7d" },
    content := "# Your Name\n## Creative Professional\n\n\\cvtag\x7bDesign\x7d \\cvtag\x7bBranding\x7d \\cvtag\x7bDigital Media\x7d \\cvtag\x7bUI/UX\x7d \\cvtag\x7bStrategy\x7d\n\nCreative professional with a passion for innovative design and compelling storytelling. Experienced in translating client visions into impactful visual solutions.\n\n## Professional Skills\n\n\\cvskill\x7bDesign Software\x7d\x7b95\x7d\n\\cvskill\x7bVisual Communication\x7d\x7b90\x7d\n\\cvskill\x7bUI/UX Design\x7d\x7b85\x7d\n\\cvskill\x7bBranding Strategy\x7d\x7b80\x7d\n\\cvskill\x7bClient Management\x7d\x7b75\x7d\n\n## Experience\n\n### Senior Designer at Creative Studio\n\\daterange\x7b2019\x7d\x7bPresent\x7d\n\n- Led redesign projects for 5+ major brands, increasing client engagement by 40%\n- Developed comprehensive brand identity systems for startups and established companies\n- Collaborated with cross-functional teams to deliver integrated marketing campaigns\n- Mentored junior designers and facilitated creative workshops\n\n### Designer at Agency Name\n\\daterange\x7b2016\x7d\x7b2019\x7d\n\n- Created digital assets for web, social media, and advertising platforms\n- Contributed to award-winning campaigns for national clients\n- Improved production workflow, reducing turnaround time by 30%\n\n## Education\n\n### BFA in Graphic Design\n\\daterange\x7b2012\x7d\x7b2016\x7d\nArt Institute, Location\n\n- Graduated with honors\n- Specialization in Digital Media\n- Senior Portfolio: \"Project Title\"\n\n## Selected Projects\n\n### Project Name\nClient: Client Name\n- Scope: Rebranding, Website Design, Collateral\n- Role: Lead Designer\n- Outcome: 35% increase in brand recognition metrics\n\n### Project Name\nClient: Client Name\n- Comprehensive campaign across multiple platforms\n- Collaborative project with marketing and development teams\n\n## Awards & Recognition\n\n- Design Award Name, Year\n- Industry Recognition, Year\n- Featured in Publication Name\n\n## Contact\n\nPortfolio: www.yourportfolio.com  \nEmail: your.email@example.com  \nInstagram: @yourhandle" }

/-- `DEFAULT_TEMPLATES`: all builtin templates, in order. -/
def DEFAULT_TEMPLATES : List CVTemplate :=
  [CLASSIC_PROFESSIONAL_TEMPLATE, MODERN_MINIMAL_TEMPLATE,
   ACADEMIC_CV_TEMPLATE, CREATIVE_PROFESSIONAL_TEMPLATE]

/-- `getTemplateById` of `src/core/templates.ts`: lookup among builtin
templates only. -/
def templatesModuleGetTemplateById (id : String) : Option CVTemplate :=
  DEFAULT_TEMPLATES.find? (fun template => template.id == id)

/-! ## Constants (`src/core/constants.ts`) -/

/-- `CASING_RULES`: common terms for auto-casing, in object insertion order
(string keys of a JS object literal preserve insertion order). -/
def CASING_RULES : List (String × String) :=
  [("github", "GitHub"), ("linkedin", "LinkedIn"), ("javascript", "JavaScript"),
   ("typescript", "TypeScript"), ("react.js", "React.js"), ("vue.js", "Vue.js"),
   ("node.js", "Node.js"), ("html5", "HTML5"), ("css3", "CSS3"),
   ("api", "API"), ("apis", "APIs"), ("ui", "UI"), ("ux", "UX"),
   ("cli", "CLI"), ("sql", "SQL"), ("nosql", "NoSQL"), ("php", "PHP"),
   ("graphql", "GraphQL"), ("restful", "RESTful"), ("oauth", "OAuth"),
   ("sass", "Sass"), ("scss", "SCSS"), ("redux", "Redux"),
   ("webpack", "Webpack"), ("tailwindcss", "Tailwind CSS"),
   ("bootstrap", "Bootstrap"), ("json", "JSON"), ("saas", "SaaS"),
   ("paas", "PaaS"), ("iaas", "IaaS"), ("iot", "IoT"), ("ai", "AI"),
   ("ml", "ML"), ("ar", "AR"), ("vr", "VR"), ("aws", "AWS"),
   ("gcp", "GCP"), ("azure", "Azure"), ("git", "Git"), ("npm", "npm"),
   ("mysql", "MySQL"), ("css", "CSS"), ("html", "HTML"),
   ("angularjs", "AngularJS"), ("angular", "Angular"), ("react", "React"),
   ("nodejs", "Node.js"), ("vue", "Vue")]

def DEFAULT_TEMPLATE_STYLES_default : CVTemplateStyle :=
  { theme := { primaryColor := "#4051b5", secondaryColor := some "#4051b580",
               textColor := some "#333333", linkColor := some "#4051b5",
               backgroundColor := some "#ffffff",
               headingFont := some "Roboto, sans-serif",
               bodyFont := some "Roboto, sans-serif", fontSize := some "11pt",
               lineHeight := some "1.5" },
    margins := { top := 20, right := 20, bottom := 20, left := 20 },
    spacing := 115/100, customCSS := some "" }

def DEFAULT_TEMPLATE_STYLES_academic : CVTemplateStyle :=
  { theme := { primaryColor := "#861f41", secondaryColor := some "#861f4180",
               textColor := some "#333333", linkColor := some "#861f41",
               backgroundColor := some "#ffffff",
               headingFont := some "Garamond, serif",
               bodyFont := some "Garamond, serif", fontSize := some "11pt",
               lineHeight := some "1.5" },
    margins := { top := 25, right := 20, bottom := 25, left := 20 },
    spacing := 12/10, customCSS := some "" }

def DEFAULT_TEMPLATE_STYLES_minimal : CVTemplateStyle :=
  { theme := { primaryColor := "#000000", secondaryColor := some "#555555",
               textColor := some "#000000", linkColor := some "#000000",
               backgroundColor := some "#ffffff",
               headingFont := some "Inter, sans-serif",
               bodyFont := some "Inter, sans-serif", fontSize := some "10.5pt",
               lineHeight := some "1.4" },
    margins := { top := 15, right := 15, bottom := 15, left := 15 },
    spacing := 11/10, customCSS := some "" }

/-- `getDefaultTemplates()` of `src/core/constants.ts`. Its template contents
interpolate `Date.now()`; the call time is passed as `now`. -/
def getDefaultTemplates (now : ℕ) : List CVTemplate :=
  [{ id := "default", name := "Default",
     description := "A clean, professional CV template suitable for most job applications.",
     style := DEFAULT_TEMPLATE_STYLES_default,
     content := "---\ntitle: Professional CV\nlastModified: " ++ toString now ++ "\npageSize: A4\nmargins:\n  top: 20\n  right: 20\n  bottom: 20\n  left: 20\nthemeColor: \x27#4051b5\x27\nfontFamily: \x27Inter, sans-serif\x27\nfontSize: 10\nlineHeight: 1.5\ntags: [professional, default]\n---\n\n# John Doe\n\n**Software Engineer** | [john@example.com](mailto:john@example.com) | [LinkedIn](https://linkedin.com/in/johndoe) | [GitHub](https://github.com/johndoe)\n\n## Summary\n\nExperienced software engineer with a passion for building scalable applications and solving complex problems. Over 5 years of professional experience working with JavaScript, TypeScript, and modern web frameworks.\n\n## Skills\n\n- **Programming Languages**: JavaScript, TypeScript, Python, SQL\n- **Frontend**: React.js, Vue.js, HTML5, CSS3\n- **Backend**: Node.js, Express, MongoDB, PostgreSQL\n- **Tools**: Git, Docker, AWS, CI/CD pipelines\n\n## Experience\n\n### Senior Software Engineer | ABC Tech | Jan 2020 - Present\n\n- Led development of a microservices architecture serving 1M+ users\n- Implemented CI/CD pipelines reducing deployment time by 70%\n- Mentored junior developers through code reviews and pair programming\n\n### Software Developer | XYZ Solutions | Mar 2018 - Dec 2019\n\n- Developed responsive web applications using React.js and Redux\n- Optimized database queries resulting in 40% performance improvement\n- Collaborated with design team to implement intuitive user interfaces\n\n## Education\n\n### Bachelor of Science in Computer Science | University of Technology | 2013 - 2017\n\n- GPA: 3.8/4.0\n- Relevant Coursework: Data Structures, Algorithms, Database Systems\n\n## Projects\n\n### Personal Portfolio Website\n- Designed and developed a personal website using React.js and Tailwind CSS\n- Implemented responsive design and accessibility features\n- [View project](https://johndoe.com)\n\n## Certifications\n\n- AWS Certified Developer Associate (2022)\n- MongoDB Certified Developer (2021)\n" },
   { id := "academic", name := "Academic CV",
     description := "A formal template designed for academic and research positions.",
     style := DEFAULT_TEMPLATE_STYLES_academic,
     content := "---\ntitle: Academic CV\nlastModified: " ++ toString now ++ "\npageSize: A4\nmargins:\n  top: 25\n  right: 20\n  bottom: 25\n  left: 20\nthemeColor: \x27#4051b5\x27\nfontFamily: \x27Georgia, serif\x27\nfontSize: 10\nlineHeight: 1.5\ntags: [academic, research]\n---\n\n# Dr. Jane Smith\n\n**Associate Professor of Computer Science** | [jane.smith@university.edu](mailto:jane.smith@university.edu) | [University Profile](https://university.edu/jsmith)\n\n## Research Interests\n\nMachine Learning, Computer Vision, Natural Language Processing, Human-Computer Interaction\n\n## Education\n\n### Ph.D. in Computer Science | Stanford University | 2010 - 2015\n- Dissertation: \"Deep Learning Approaches to Visual Recognition\"\n- Advisor: Prof. John Johnson\n\n### M.S. in Computer Science | MIT | 2008 - 2010\n- Thesis: \"Algorithmic Approaches to Pattern Recognition\"\n\n### B.S. in Computer Science | UC Berkeley | 2004 - 2008\n- Graduated with High Honors\n\n## Academic Positions\n\n### Associate Professor | University of Washington | 2020 - Present\n- Department of Computer Science and Engineering\n- Lead the Machine Learning Research Group\n\n### Assistant Professor | Carnegie Mellon University | 2015 - 2020\n- School of Computer Science\n- Established the Vision and Language Lab\n\n## Publications\n\n### Journal Articles\n\n1. Smith, J., & Johnson, A. (2023). \"Transformers for Visual Recognition Tasks.\" *Journal of Machine Learning Research, 24*(3), 450-475.\n\n2. Smith, J., Brown, B., & Davis, C. (2021). \"Self-Supervised Learning for Computer Vision.\" *IEEE Transactions on Pattern Analysis and Machine Intelligence, 43*(8), 2654-2668.\n\n3. Smith, J., & Wilson, E. (2019). \"Attention Mechanisms in Neural Networks.\" *Neural Computation, 31*(7), 1356-1378.\n\n### Conference Papers\n\n1. Smith, J., & Lee, L. (2022). \"Multi-Modal Learning for Document Understanding.\" In *Proceedings of the Conference on Computer Vision and Pattern Recognition (CVPR)*, 5678-5686.\n\n2. Smith, J., Garcia, M., & Wang, W. (2020). \"Efficient Transformers for NLP Tasks.\" In *Proceedings of the International Conference on Machine Learning (ICML)*, 345-354.\n\n## Grants and Funding\n\n- National Science Foundation, \"Advanced Machine Learning for Scientific Discovery,\" Principal Investigator, $1.2M, 2022-2025\n- Google Research Award, \"Multimodal Learning,\" Principal Investigator, $150K, 2021\n- Microsoft Research Grant, \"Computer Vision Applications,\" Co-Principal Investigator, $200K, 2019-2021\n\n## Teaching\n\n### University of Washington\n- CS 446: Machine Learning (Undergraduate), 2020-Present\n- CS 546: Advanced Computer Vision (Graduate), 2021-Present\n\n### Carnegie Mellon University\n- 15-780: Graduate Artificial Intelligence, 2016-2020\n- 15-462: Computer Vision, 2015-2020\n\n## Professional Service\n\n- Program Committee: CVPR (2018-Present), NeurIPS (2017-Present), ICML (2019-Present)\n- Associate Editor: IEEE Transactions on Pattern Analysis and Machine Intelligence (2021-Present)\n- Reviewer: Journal of Machine Learning Research, IEEE Transactions on Neural Networks\n" },
   { id := "minimal", name := "Minimal",
     description := "A minimalist template with clean typography and balanced whitespace.",
     style := DEFAULT_TEMPLATE_STYLES_minimal,
     content := "---\ntitle: Minimal CV\nlastModified: " ++ toString now ++ "\npageSize: A4\nmargins:\n  top: 25\n  right: 25\n  bottom: 25\n  left: 25\nthemeColor: \x27#000000\x27\nfontFamily: \x27Helvetica, Arial, sans-serif\x27\nfontSize: 10\nlineHeight: 1.4\ntags: [minimal, clean]\n---\n\n# Alex Johnson\n\n[alex@example.com](mailto:alex@example.com) | 555-123-4567 | New York, NY\n\n## Experience\n\n**Senior Product Designer** | Acme Design Co | 2019 - Present\n- Led the redesign of flagship product, increasing user engagement by 35%\n- Managed a team of 4 designers, establishing design system and workflows\n- Conducted user research to inform product decisions\n\n**UX Designer** | Creative Solutions | 2016 - 2019\n- Created wireframes, prototypes, and high-fidelity mockups for web and mobile applications\n- Collaborated with development team to implement designs\n- Improved conversion rates by 22% through iterative design process\n\n## Education\n\n**Bachelor of Fine Arts, Graphic Design** | Rhode Island School of Design | 2012 - 2016\n\n## Skills\n\nProduct Design, User Research, Wireframing, Prototyping, Figma, Sketch, Adobe Creative Suite, HTML/CSS\n" }]

/-- `DEFAULT_SETTINGS` of `src/core/constants.ts`. Note that its `templates`
field is seeded with `getDefaultTemplates()` (NOT with the builtin
`DEFAULT_TEMPLATES` of `src/core/templates.ts`). -/
def DEFAULT_SETTINGS (now : ℕ) : OhMyCVSettings :=
  { defaultPageSize := PageSize.A4,
    defaultMargins := { top := 20, right := 20, bottom := 20, left := 20 },
    defaultThemeColor := "#4051b5",
    defaultFontFamily := "Inter, sans-serif",
    defaultFontSize := 10,
    defaultLineHeight := 15/10,
    enableCustomCss := false,
    defaultCustomCss := "",
    autoCasing := true,
    texSupport := true,
    showPageBreaks := true,
    iconSupport := true,
    googleFontsApiKey := some "",
    recentlyUsedFonts := ["Inter", "Roboto", "Open Sans", "Lato", "Montserrat"],
    templates := getDefaultTemplates now }

/-! ## Settings service (`src/services/settings-service.ts`, `SettingsService`)

The service's mutable `this.settings` is passed explicitly; methods that
mutate it return the new settings value. -/

/-- JavaScript `Array.prototype.findIndex` (with `-1` as `none`). -/
def jsFindIndex (p : α → Bool) : List α → Option ℕ
  | [] => none
  | a :: l => if p a then some 0 else (jsFindIndex p l).map (· + 1)

namespace SettingsService

/-- `getTemplates()`: builtin templates followed by user templates. -/
def getTemplates (s : OhMyCVSettings) : List CVTemplate :=
  DEFAULT_TEMPLATES ++ s.templates

/-- `getUserTemplates()`. -/
def getUserTemplates (s : OhMyCVSettings) : List CVTemplate :=
  s.templates

/-- `getTemplateById(id)`: first check the builtin templates, then the user
templates. -/
def getTemplateById (s : OhMyCVSettings) (id : String) : Option CVTemplate :=
  match templatesModuleGetTemplateById id with
  | some builtInTemplate => some builtInTemplate
  | none => s.templates.find? (fun template => template.id == id)

/-- `addTemplate(template)`: replace the first user entry with the same id in
place, otherwise push at the end. (The `!this.settings.templates` null-guard
is vacuous here since `templates` is always a list.) -/
def addTemplate (s : OhMyCVSettings) (t : CVTemplate) : OhMyCVSettings :=
  match jsFindIndex (fun u => u.id == t.id) s.templates with
  | some existingTemplateIndex => { s with templates := s.templates.set existingTemplateIndex t }
  | none => { s with templates := s.templates ++ [t] }

/-- `deleteTemplate(id)`: filter the user list by id and report whether the
list shrank. The builtin `DEFAULT_TEMPLATES` are never consulted. -/
def deleteTemplate (s : OhMyCVSettings) (id : String) : Bool × OhMyCVSettings :=
  let filtered := s.templates.filter (fun template => !(template.id == id))
  (decide (filtered.length < s.templates.length), { s with templates := filtered })

end SettingsService

/-- The `plugin.data` object used by `get/setLastExportOptions` (only the
field these methods touch is modelled). -/
structure PluginData where
  lastExportOptions : Option PDFExportOptions := none
deriving DecidableEq

/-- `getLastExportOptions()`: read `this.plugin?.data?.lastExportOptions`
(`plugin.data` may still be unset). -/
def SettingsService.getLastExportOptions (data : Option PluginData) : Option PDFExportOptions :=
  match data with
  | none => none
  | some d => d.lastExportOptions

/-- `setLastExportOptions(options)`: initialize `plugin.data` if needed and
store the options there (not in settings). -/
def SettingsService.setLastExportOptions (data : Option PluginData)
    (options : PDFExportOptions) : PluginData :=
  { data.getD {} with lastExportOptions := some options }

/-! ## List helper lemmas -/

theorem length_filter_lt_iff_any (p : α → Bool) (l : List α) :
    ((l.filter p).length < l.length) ↔ (l.any fun x => !p x) = true := by
  induction l with
  | nil => simp
  | cons a l ih =>
    by_cases h : p a = true
    · simp only [List.filter_cons, h, if_pos, List.length_cons, List.any_cons,
        Bool.not_eq_true', h, Bool.false_or]
      rw [Nat.add_lt_add_iff_right]
      simpa using ih
    · simp only [Bool.not_eq_true] at h
      simp only [List.filter_cons, h, Bool.false_eq_true, if_false, List.length_cons,
        List.any_cons, h, Bool.not_false, Bool.true_or, iff_true]
      exact Nat.lt_succ_of_le (List.length_filter_le p l)

theorem jsFindIndex_eq_none (p : α → Bool) (l : List α)
    (h : ∀ x ∈ l, p x = false) : jsFindIndex p l = none := by
  induction l with
  | nil => rfl
  | cons a l ih =>
    have ha := h a (by simp)
    simp only [jsFindIndex, ha, Bool.false_eq_true, if_false]
    rw [ih fun x hx => h x (by simp [hx])]
    rfl

theorem jsFindIndex_eq_some (p : α → Bool) (l : List α) (i : ℕ) (x : α)
    (hget : l[i]? = some x) (hx : p x = true)
    (hbefore : (l.take i).all (fun u => !p u) = true) :
    jsFindIndex p l = some i := by
  induction l generalizing i with
  | nil => simp at hget
  | cons a l ih =>
    cases i with
    | zero =>
      simp only [List.getElem?_cons_zero, Option.some.injEq] at hget
      subst hget
      simp [jsFindIndex, hx]
    | succ i =>
      simp only [List.take_succ_cons, List.all_cons, Bool.and_eq_true,
        Bool.not_eq_true'] at hbefore
      simp only [jsFindIndex, hbefore.1, Bool.false_eq_true, if_false]
      rw [ih i (by simpa using hget) hbefore.2]
      rfl

theorem filter_set_unique_length (p : α → Bool) (l : List α) (i : ℕ) (t : α)
    (hi : i < l.length) (ht : p t = true)
    (hbefore : (l.take i).all (fun u => !p u) = true)
    (hafter : (l.drop (i + 1)).all (fun u => !p u) = true) :
    ((l.set i t).filter p).length = 1 := by
  induction l generalizing i with
  | nil => simp at hi
  | cons a l ih =>
    cases i with
    | zero =>
      simp only [List.set_cons_zero, List.filter_cons, ht, if_pos, List.length_cons]
      simp only [List.drop_succ_cons, List.drop_zero] at hafter
      have : l.filter p = [] := by
        rw [List.filter_eq_nil_iff]
        intro x hx
        have := (List.all_eq_true.mp hafter) x hx
        simpa using this
      simp [this]
    | succ i =>
      simp only [List.take_succ_cons, List.all_cons, Bool.and_eq_true,
        Bool.not_eq_true'] at hbefore
      simp only [List.set_cons_succ, List.filter_cons, hbefore.1, Bool.false_eq_true,
        if_false]
      exact ih i (by simpa using hi) hbefore.2 (by simpa using hafter)

/-! ## Claims C1, C5, C6: the template repository -/

/-- C1 (counterexample): the claim "deleteTemplate on a builtin id returns
false and leaves both lists unchanged in every repository state" is false at
the default settings state with the builtin id `academic`: the default user
template list also contains an entry with id `academic`, so `deleteTemplate`
removes it and returns `true`. -/
theorem deleteTemplate_academic_from_defaults :
    (SettingsService.deleteTemplate (DEFAULT_SETTINGS 0) "academic").1 = true
    ∧ (SettingsService.deleteTemplate (DEFAULT_SETTINGS 0) "academic").2.templates.map CVTemplate.id
        = ["default", "minimal"]
    ∧ (DEFAULT_SETTINGS 0).templates.map CVTemplate.id = ["default", "academic", "minimal"]
    ∧ (DEFAULT_TEMPLATES.map CVTemplate.id).contains "academic" = true := by
  decide

/-- C1 (amended): `deleteTemplate` on a builtin id never touches the builtin
list; it returns `false` and leaves the user list unchanged precisely when no
user entry carries that id, and returns `true` (removing the user entry)
otherwise — which is what happens for `academic` in the default state. -/
theorem deleteTemplate_on_builtin_id (s : OhMyCVSettings) (id : String)
    (_hb : (DEFAULT_TEMPLATES.map CVTemplate.id).contains id = true) :
    ((SettingsService.deleteTemplate s id).1 = true
        ↔ (s.templates.any fun t => t.id == id) = true)
    ∧ ((s.templates.all fun t => !(t.id == id)) = true →
        (SettingsService.deleteTemplate s id).1 = false
        ∧ (SettingsService.deleteTemplate s id).2.templates = s.templates)
    ∧ (SettingsService.getTemplates
        (SettingsService.deleteTemplate s id).2).take DEFAULT_TEMPLATES.length
        = DEFAULT_TEMPLATES := by
  refine ⟨?_, ?_, ?_⟩
  · rw [SettingsService.deleteTemplate]
    simp only [decide_eq_true_eq]
    rw [length_filter_lt_iff_any]
    simp [Bool.not_not]
  · intro hall
    have hfix : s.templates.filter (fun template => !(template.id == id)) = s.templates := by
      rw [List.filter_eq_self]
      exact List.all_eq_true.mp hall
    constructor
    · rw [SettingsService.deleteTemplate]
      simp [hfix]
    · rw [SettingsService.deleteTemplate]
      simpa using hfix
  · rw [SettingsService.getTemplates]
    exact List.take_left _ _

/-- Witness for `deleteTemplate_on_builtin_id` at the builtin id
`classic-professional` (which has no user-tier entry in the default state). -/
theorem deleteTemplate_on_builtin_id_witness :
    (SettingsService.deleteTemplate (DEFAULT_SETTINGS 0) "classic-professional").1 = false
    ∧ (SettingsService.deleteTemplate (DEFAULT_SETTINGS 0) "classic-professional").2.templates
        = (DEFAULT_SETTINGS 0).templates :=
  (deleteTemplate_on_builtin_id (DEFAULT_SETTINGS 0) "classic-professional"
    (by decide)).2.1 (by decide)

/-- C5: `getTemplateById` resolves builtin templates first: whenever the id
denotes a builtin template, that entry is returned even if a user entry shares
the id; the user list is consulted only when the builtin lookup finds
nothing. -/
theorem getTemplateById_builtin_priority :
    (∀ (s : OhMyCVSettings) (id : String) (t : CVTemplate),
        templatesModuleGetTemplateById id = some t →
        (s.templates.any fun u => u.id == id) = true →
        SettingsService.getTemplateById s id = some t)
    ∧ (∀ (s : OhMyCVSettings) (id : String),
        templatesModuleGetTemplateById id = none →
        SettingsService.getTemplateById s id = s.templates.find? fun u => u.id == id) := by
  constructor
  · intro s id t h _
    rw [SettingsService.getTemplateById, h]
  · intro s id h
    rw [SettingsService.getTemplateById, h]

/-- Witness for `getTemplateById_builtin_priority`: `academic` exists in both
tiers of the default state and resolves to the builtin entry. -/
theorem getTemplateById_builtin_priority_witness :
    SettingsService.getTemplateById (DEFAULT_SETTINGS 0) "academic"
      = some ACADEMIC_CV_TEMPLATE :=
  getTemplateById_builtin_priority.1 (DEFAULT_SETTINGS 0) "academic"
    ACADEMIC_CV_TEMPLATE rfl (by decide)

/-- C6: `addTemplate` with an id already present (at its unique index `i`) in
the user list replaces the entry at `i` in place, leaving every other position
unchanged and exactly one entry with that id; with a fresh id it appends. -/
theorem addTemplate_replace_or_append :
    (∀ (s : OhMyCVSettings) (t ti : CVTemplate) (i : ℕ),
        s.templates[i]? = some ti → ti.id = t.id →
        ((s.templates.take i).all fun u => !(u.id == t.id)) = true →
        ((s.templates.drop (i + 1)).all fun u => !(u.id == t.id)) = true →
        (SettingsService.addTemplate s t).templates = s.templates.set i t
        ∧ (((SettingsService.addTemplate s t).templates.filter
              fun u => u.id == t.id).length = 1)
        ∧ (∀ (j : ℕ), j ≠ i →
            (SettingsService.addTemplate s t).templates[j]? = s.templates[j]?))
    ∧ (∀ (s : OhMyCVSettings) (t : CVTemplate),
        (∀ u ∈ s.templates, (u.id == t.id) = false) →
        (SettingsService.addTemplate s t).templates = s.templates ++ [t]) := by
  constructor
  · intro s t ti i hget hid hbefore hafter
    have hi : i < s.templates.length := by
      rcases List.getElem?_eq_some.mp hget with ⟨h, _⟩
      exact h
    have hidx : jsFindIndex (fun u => u.id == t.id) s.templates = some i := by
      refine jsFindIndex_eq_some _ _ i ti hget ?_ hbefore
      simp [hid]
    have hset : (SettingsService.addTemplate s t).templates = s.templates.set i t := by
      rw [SettingsService.addTemplate, hidx]
    refine ⟨hset, ?_, ?_⟩
    · rw [hset]
      exact filter_set_unique_length _ _ i t hi (by simp) hbefore hafter
    · intro j hj
      rw [hset]
      exact List.getElem?_set_ne (fun h => hj h.symm)
  · intro s t hnone
    have hidx : jsFindIndex (fun u => u.id == t.id) s.templates = none :=
      jsFindIndex_eq_none _ _ hnone
    rw [SettingsService.addTemplate, hidx]

/-- Witness for `addTemplate_replace_or_append`: adding a template with id
`academic` to the default state replaces the user entry at index 1. -/
theorem addTemplate_replace_or_append_witness :
    (SettingsService.addTemplate (DEFAULT_SETTINGS 0) ACADEMIC_CV_TEMPLATE).templates
        = (DEFAULT_SETTINGS 0).templates.set 1 ACADEMIC_CV_TEMPLATE
    ∧ (((SettingsService.addTemplate (DEFAULT_SETTINGS 0) ACADEMIC_CV_TEMPLATE).templates.filter
          fun u => u.id == ACADEMIC_CV_TEMPLATE.id).length = 1) := by
  have h := addTemplate_replace_or_append.1 (DEFAULT_SETTINGS 0) ACADEMIC_CV_TEMPLATE
    ((DEFAULT_SETTINGS 0).templates.get ⟨1, by decide⟩) 1
    (List.getElem?_eq_getElem (by decide)) (by decide) (by decide) (by decide)
  exact ⟨h.1, h.2.1⟩

/-! ## Claim C9: `loadSettings`

`loadSettings` runs `this.settings = { ...DEFAULT_SETTINGS, ...(await
this.plugin.loadData()) }`. At runtime this is an untyped object spread: the
stored JSON object's keys override the defaults' keys, and stored keys that
are not settings keys are copied into the result as well. We model settings
objects as association lists of string keys and untyped values. -/

/-- Untyped view of a JS value stored under a settings key. -/
inductive SVal where
  | str (s : String)
  | num (q : ℚ)
  | bool (b : Bool)
  | pageSize (p : PageSize)
  | strList (l : List String)
  | margins (m : Margins)
  | templates (l : List CVTemplate)
deriving DecidableEq

/-- The runtime object view of an `OhMyCVSettings` value: one key per field,
in declaration order (an optional field that is unset has no key). -/
def settingsToObj (s : OhMyCVSettings) : List (String × SVal) :=
  [("defaultPageSize", SVal.pageSize s.defaultPageSize),
   ("defaultMargins", SVal.margins s.defaultMargins),
   ("defaultThemeColor", SVal.str s.defaultThemeColor),
   ("defaultFontFamily", SVal.str s.defaultFontFamily),
   ("defaultFontSize", SVal.num s.defaultFontSize),
   ("defaultLineHeight", SVal.num s.defaultLineHeight),
   ("enableCustomCss", SVal.bool s.enableCustomCss),
   ("defaultCustomCss", SVal.str s.defaultCustomCss),
   ("autoCasing", SVal.bool s.autoCasing),
   ("texSupport", SVal.bool s.texSupport),
   ("showPageBreaks", SVal.bool s.showPageBreaks),
   ("iconSupport", SVal.bool s.iconSupport)]
  ++ (match s.googleFontsApiKey with
      | some k => [("googleFontsApiKey", SVal.str k)]
      | none => [])
  ++ [("recentlyUsedFonts", SVal.strList s.recentlyUsedFonts),
      ("templates", SVal.templates s.templates)]

/-- JS object spread `{ ...a, ...b }`: the keys of `a` in order (values
overridden by `b` where present), followed by the keys of `b` absent from
`a`. -/
def jsSpread (a b : List (String × SVal)) : List (String × SVal) :=
  (a.map fun p => (p.1, (b.lookup p.1).getD p.2))
    ++ b.filter fun p => (a.lookup p.1).isNone

/-- `loadSettings()` on a stored JSON object, at the runtime-object level. -/
def SettingsService.loadSettings (now : ℕ) (stored : List (String × SVal)) :
    List (String × SVal) :=
  jsSpread (settingsToObj (DEFAULT_SETTINGS now)) stored

theorem lookup_append_or (l₁ l₂ : List (String × SVal)) (k : String) :
    (l₁ ++ l₂).lookup k = ((l₁.lookup k).orElse fun _ => l₂.lookup k) := by
  induction l₁ with
  | nil => simp [List.lookup]
  | cons p l ih =>
    obtain ⟨k₁, v₁⟩ := p
    by_cases h : k = k₁
    · simp [List.lookup, h]
    · have hb : (k == k₁) = false := by simpa using h
      simp [List.lookup, hb, ih]

theorem lookup_map_override (a b : List (String × SVal)) (k : String) :
    ((a.map fun p => (p.1, (b.lookup p.1).getD p.2)).lookup k)
      = (a.lookup k).map fun v => (b.lookup k).getD v := by
  induction a with
  | nil => simp [List.lookup]
  | cons p l ih =>
    obtain ⟨k₁, v₁⟩ := p
    by_cases h : k = k₁
    · subst h
      simp [List.lookup]
    · have hb : (k == k₁) = false := by simpa using h
      simp [List.lookup, hb, ih]

theorem lookup_filter_by_key (q : String → Bool) (b : List (String × SVal)) (k : String) :
    ((b.filter fun p => q p.1).lookup k) = if q k then b.lookup k else none := by
  induction b with
  | nil => simp [List.lookup]
  | cons p l ih =>
    obtain ⟨k₁, v₁⟩ := p
    by_cases hq : q k₁ = true
    · by_cases h : k = k₁
      · subst h
        simp [List.filter_cons, hq, List.lookup]
      · have hb : (k == k₁) = false := by simpa using h
        simp [List.filter_cons, hq, List.lookup, hb, ih]
    · have hq' : q k₁ = false := by simpa using hq
      by_cases h : k = k₁
      · subst h
        simp [List.filter_cons, hq', List.lookup, ih]
      · have hb : (k == k₁) = false := by simpa using h
        simp [List.filter_cons, hq', List.lookup, hb, ih]

/-- Key-level semantics of the object spread. -/
theorem jsSpread_lookup (a b : List (String × SVal)) (k : String) :
    (jsSpread a b).lookup k =
      match a.lookup k with
      | some v => some ((b.lookup k).getD v)
      | none => b.lookup k := by
  rw [jsSpread, lookup_append_or, lookup_map_override,
    lookup_filter_by_key (fun x => (a.lookup x).isNone) b k]
  cases h : a.lookup k with
  | none => simp [h]
  | some v => simp [h]

/-- C9 (counterexample): a stored key that is not a settings key is NOT
dropped by `loadSettings`; it is copied into the loaded object (the claim
says it should be absent). -/
theorem loadSettings_keeps_unknown_keys :
    (SettingsService.loadSettings 0 [("someUnknownKey", SVal.num 1)]).lookup "someUnknownKey"
        = some (SVal.num 1)
    ∧ (settingsToObj (DEFAULT_SETTINGS 0)).lookup "someUnknownKey" = none := by
  constructor
  · rw [SettingsService.loadSettings, jsSpread_lookup]
    decide
  · decide

/-- C9 (amended): on load, keys missing from the stored object are filled
from `DEFAULT_SETTINGS`, and every stored key — known or unknown — keeps its
stored value in the loaded object (unknown keys are retained, not dropped). -/
theorem loadSettings_merges_defaults (now : ℕ) (stored : List (String × SVal))
    (k : String) :
    (stored.lookup k = none →
      (SettingsService.loadSettings now stored).lookup k
        = (settingsToObj (DEFAULT_SETTINGS now)).lookup k)
    ∧ (∀ v, stored.lookup k = some v →
      (SettingsService.loadSettings now stored).lookup k = some v) := by
  constructor
  · intro h
    rw [SettingsService.loadSettings, jsSpread_lookup, h]
    cases hd : (settingsToObj (DEFAULT_SETTINGS now)).lookup k <;> simp
  · intro v h
    rw [SettingsService.loadSettings, jsSpread_lookup, h]
    cases hd : (settingsToObj (DEFAULT_SETTINGS now)).lookup k <;> simp

/-- Witness for `loadSettings_merges_defaults`: one missing key filled from
defaults, one stored key keeping its stored value. -/
theorem loadSettings_merges_defaults_witness :
    (SettingsService.loadSettings 0 [("defaultThemeColor", SVal.str "#112233")]).lookup "defaultFontSize"
        = (settingsToObj (DEFAULT_SETTINGS 0)).lookup "defaultFontSize"
    ∧ (SettingsService.loadSettings 0 [("defaultThemeColor", SVal.str "#112233")]).lookup "defaultThemeColor"
        = some (SVal.str "#112233") :=
  ⟨(loadSettings_merges_defaults 0 [("defaultThemeColor", SVal.str "#112233")] "defaultFontSize").1
      (by decide),
   (loadSettings_merges_defaults 0 [("defaultThemeColor", SVal.str "#112233")] "defaultThemeColor").2
      (SVal.str "#112233") (by decide)⟩

/-! ## DOM model

A detached DOM tree: element nodes carry tag, class list, inline style
declarations (`el.style`), other attributes, and children. `innerHTML`
assignments from strings are modelled as a single text child (HTML parsing
is the browser's, an external component). -/

/-- A DOM node. -/
inductive Dom where
  | text (s : String)
  | el (tag : String) (classes : List String) (style : List (String × String))
      (attrs : List (String × String)) (children : List Dom)

/-- `CSSStyleDeclaration.setProperty` / property assignment and
`setAttribute` on a non-style attribute: update the first occurrence of the
key in place if it exists, else append. -/
def upsertPair : List (String × String) → String → String → List (String × String)
  | [], k, v => [(k, v)]
  | p :: t, k, v => if p.1 == k then (k, v) :: t else p :: upsertPair t k v

/-- `classList.add`. -/
def jsClassAdd (cs : List String) (c : String) : List String :=
  if cs.contains c then cs else cs ++ [c]

/-- Is this node an element with the given class? -/
def hasClassB (c : String) : Dom → Bool
  | .text _ => false
  | .el _ classes _ _ _ => classes.contains c

mutual

/-- The link styling/rewriting pass of `applyExportStyling`
(`element.querySelectorAll('a')`): style every anchor with the resolved link
color, drop underlines, and prefix `https://` onto relative non-anchor,
non-mailto targets. -/
def styleLinksAll (linkColor : String) : Dom → Dom
  | .text s => .text s
  | .el tag classes style attrs children =>
    if tag == "a" then
      .el tag classes
        (upsertPair (upsertPair style "color" linkColor) "text-decoration" "none")
        (match attrs.lookup "href" with
         | some href =>
           if href ≠ "" && !(href.startsWith "http") && !(href.startsWith "mailto:")
               && !(href.startsWith "#") then
             upsertPair attrs "href" ("https://" ++ href)
           else attrs
         | none => attrs)
        (styleLinksList linkColor children)
    else
      .el tag classes style attrs (styleLinksList linkColor children)

def styleLinksList (linkColor : String) : List Dom → List Dom
  | [] => []
  | d :: ds => styleLinksAll linkColor d :: styleLinksList linkColor ds

end

mutual

/-- The page-break pass of `applyExportStyling`: every
`.oh-my-cv-page-break` element gets its `style` attribute overwritten with
the forced-break declarations, and every `.oh-my-cv-page-break-indicator`
element that is a descendant of a page-break element is removed. The
`insidePB` flag records whether an ancestor is a page-break element; `none`
means the node was removed. -/
def stylePageBreaksGo (insidePB : Bool) : Dom → Option Dom
  | .text s => some (.text s)
  | .el tag classes style attrs children =>
    if insidePB && classes.contains "oh-my-cv-page-break-indicator" then
      none
    else
      some (.el tag classes
        (if classes.contains "oh-my-cv-page-break" then
          [("page-break-after", "always"), ("break-after", "page")]
         else style) attrs
        (stylePageBreaksList (insidePB || classes.contains "oh-my-cv-page-break") children))

def stylePageBreaksList (insidePB : Bool) : List Dom → List Dom
  | [] => []
  | d :: ds =>
    match stylePageBreaksGo insidePB d with
    | some d' => d' :: stylePageBreaksList insidePB ds
    | none => stylePageBreaksList insidePB ds

end

mutual

/-- The heading pass of `applyExportStyling`
(`element.querySelectorAll('h2, h3')`). -/
def styleHeadingsAll : Dom → Dom
  | .text s => .text s
  | .el tag classes style attrs children =>
    .el tag classes
      (if tag == "h2" || tag == "h3" then
        upsertPair (upsertPair (upsertPair (upsertPair style
          "page-break-after" "avoid") "break-after" "avoid")
          "page-break-before" "auto") "break-before" "auto"
       else style) attrs (styleHeadingsList children)

def styleHeadingsList : List Dom → List Dom
  | [] => []
  | d :: ds => styleHeadingsAll d :: styleHeadingsList ds

end

mutual

/-- The list-item pass of `applyExportStyling`
(`element.querySelectorAll('li')`). -/
def styleListItemsAll : Dom → Dom
  | .text s => .text s
  | .el tag classes style attrs children =>
    .el tag classes
      (if tag == "li" then
        upsertPair (upsertPair style "page-break-inside" "avoid") "break-inside" "avoid"
       else style) attrs (styleListItemsList children)

def styleListItemsList : List Dom → List Dom
  | [] => []
  | d :: ds => styleListItemsAll d :: styleListItemsList ds

end

/-- JS template-literal rendering of a number. Every number reaching this in
the embedded code is a terminating decimal with denominator dividing 100,
rendered exactly as JS would. -/
def jsNumToString (q : ℚ) : String :=
  if q.den = 1 then toString q.num
  else
    let n := (q * 100).num
    let intPart := n / 100
    let fracPart := (n % 100).natAbs
    if fracPart % 10 = 0 then
      toString intPart ++ "." ++ toString (fracPart / 10)
    else if fracPart < 10 then
      toString intPart ++ ".0" ++ toString fracPart
    else
      toString intPart ++ "." ++ toString fracPart

/-- The theme used by `applyExportStyling`: the template's own theme if one
is supplied, otherwise the inline fallback object built from the document
metadata. -/
def exportTheme (metadata : CVMetadata) (templateStyle : Option CVTemplateStyle) : CVTheme :=
  match templateStyle with
  | some ts => ts.theme
  | none =>
    { primaryColor := jsOrStr metadata.themeColor "#4051b5",
      textColor := some "#000000",
      backgroundColor := some "#ffffff",
      headingFont := some (jsOrStr metadata.fontFamily "Arial, sans-serif"),
      bodyFont := some (jsOrStr metadata.fontFamily "Arial, sans-serif"),
      fontSize := some (jsNumToString (jsOrNum metadata.fontSize 11) ++ "pt"),
      lineHeight := some (jsNumToString (jsOrNum metadata.lineHeight (15/10))) }

/-- The six root style assignments of `applyExportStyling`. -/
def exportRootStyle (style : List (String × String)) (metadata : CVMetadata)
    (templateStyle : Option CVTemplateStyle) : List (String × String) :=
  let theme := exportTheme metadata templateStyle
  let fontFamily := jsOrOptStr theme.bodyFont (jsOrStr metadata.fontFamily "Arial, sans-serif")
  let fontSize := jsOrOptStr theme.fontSize (jsNumToString (jsOrNum metadata.fontSize 11) ++ "pt")
  let lineHeight := jsOrOptStr theme.lineHeight (jsNumToString (jsOrNum metadata.lineHeight (15/10)))
  let textColor := jsOrOptStr theme.textColor "#000"
  let bgColor := jsOrOptStr theme.backgroundColor "#fff"
  let themeColor := jsOrOptStr (some theme.primaryColor) (jsOrStr metadata.themeColor "#4051b5")
  let style := upsertPair style "font-family" fontFamily
  let style := upsertPair style "font-size" fontSize
  let style := upsertPair style "line-height" lineHeight
  let style := upsertPair style "color" textColor
  let style := upsertPair style "background-color" bgColor
  upsertPair style "--theme-color" themeColor

/-- The custom CSS `<style>` element appended by `applyExportStyling` when
`metadata.customCss` is truthy. -/
def customCssChildren (metadata : CVMetadata) : List Dom :=
  match metadata.customCss with
  | some css => if css = "" then [] else [Dom.el "style" [] [] [] [Dom.text css]]
  | none => []

/-- The anchor color resolved by the link pass:
`templateStyle?.theme.linkColor || templateStyle?.theme.primaryColor ||
metadata.themeColor`. -/
def resolvedLinkColor (metadata : CVMetadata) (templateStyle : Option CVTemplateStyle) : String :=
  match templateStyle with
  | some ts => jsOrOptStr ts.theme.linkColor (jsOrStr ts.theme.primaryColor metadata.themeColor)
  | none => metadata.themeColor

/-- `applyExportStyling(element, metadata, template?)`: inline the resolved
theme on the root, append the custom CSS `<style>` element, then run the
link, page-break, heading and list-item passes over the descendants, in
source order. -/
def applyExportStyling (element : Dom) (metadata : CVMetadata)
    (template : Option CVTemplate) : Dom :=
  match element with
  | .text s => .text s
  | .el tag classes style attrs children =>
    .el tag (jsClassAdd classes "oh-my-cv-export")
      (exportRootStyle style metadata (template.map CVTemplate.style)) attrs
      (((((children ++ customCssChildren metadata).map
            (styleLinksAll (resolvedLinkColor metadata (template.map CVTemplate.style)))).filterMap
          (stylePageBreaksGo false)).map styleHeadingsAll).map styleListItemsAll)

/-! ### Unfolding and induction helpers for the DOM passes -/

theorem styleLinksList_eq_map (linkColor : String) (ch : List Dom) :
    styleLinksList linkColor ch = ch.map (styleLinksAll linkColor) := by
  induction ch with
  | nil => rfl
  | cons d ds ih => rw [styleLinksList, List.map_cons, ih]

theorem stylePageBreaksList_eq_filterMap (b : Bool) (ch : List Dom) :
    stylePageBreaksList b ch = ch.filterMap (stylePageBreaksGo b) := by
  induction ch with
  | nil => rfl
  | cons d ds ih =>
    rw [stylePageBreaksList, List.filterMap_cons]
    cases stylePageBreaksGo b d <;> simp [ih]

theorem styleHeadingsList_eq_map (ch : List Dom) :
    styleHeadingsList ch = ch.map styleHeadingsAll := by
  induction ch with
  | nil => rfl
  | cons d ds ih => rw [styleHeadingsList, List.map_cons, ih]

theorem styleListItemsList_eq_map (ch : List Dom) :
    styleListItemsList ch = ch.map styleListItemsAll := by
  induction ch with
  | nil => rfl
  | cons d ds ih => rw [styleListItemsList, List.map_cons, ih]

/-- Induction over DOM trees with the members-of-children hypothesis. -/
def Dom.induct {P : Dom → Prop} (ht : ∀ s, P (.text s))
    (he : ∀ t c st a ch, (∀ d ∈ ch, P d) → P (.el t c st a ch)) : ∀ d, P d
  | .text s => ht s
  | .el t c st a ch => he t c st a ch fun d hd =>
      have := List.sizeOf_lt_of_mem hd
      Dom.induct ht he d
termination_by d => sizeOf d
decreasing_by
  simp_wf
  omega

theorem styleLinksAll_text (linkColor s : String) :
    styleLinksAll linkColor (.text s) = .text s := by
  rw [styleLinksAll]

theorem styleLinksAll_el (linkColor t : String) (c : List String)
    (st a : List (String × String)) (ch : List Dom) :
    styleLinksAll linkColor (.el t c st a ch) =
      if t == "a" then
        .el t c (upsertPair (upsertPair st "color" linkColor) "text-decoration" "none")
          (match a.lookup "href" with
           | some href =>
             if href ≠ "" && !(href.startsWith "http") && !(href.startsWith "mailto:")
                 && !(href.startsWith "#") then
               upsertPair a "href" ("https://" ++ href)
             else a
           | none => a)
          (ch.map (styleLinksAll linkColor))
      else .el t c st a (ch.map (styleLinksAll linkColor)) := by
  rw [styleLinksAll, styleLinksList_eq_map]

theorem stylePageBreaksGo_text (b : Bool) (s : String) :
    stylePageBreaksGo b (.text s) = some (.text s) := by
  rw [stylePageBreaksGo]

theorem stylePageBreaksGo_el (b : Bool) (t : String) (c : List String)
    (st a : List (String × String)) (ch : List Dom) :
    stylePageBreaksGo b (.el t c st a ch) =
      if b && c.contains "oh-my-cv-page-break-indicator" then none
      else
        some (.el t c
          (if c.contains "oh-my-cv-page-break" then
            [("page-break-after", "always"), ("break-after", "page")]
           else st) a
          (ch.filterMap (stylePageBreaksGo (b || c.contains "oh-my-cv-page-break")))) := by
  rw [stylePageBreaksGo, stylePageBreaksList_eq_filterMap]

theorem styleHeadingsAll_text (s : String) : styleHeadingsAll (.text s) = .text s := by
  rw [styleHeadingsAll]

theorem styleHeadingsAll_el (t : String) (c : List String)
    (st a : List (String × String)) (ch : List Dom) :
    styleHeadingsAll (.el t c st a ch) =
      .el t c
        (if t == "h2" || t == "h3" then
          upsertPair (upsertPair (upsertPair (upsertPair st
            "page-break-after" "avoid") "break-after" "avoid")
            "page-break-before" "auto") "break-before" "auto"
         else st) a
        (ch.map styleHeadingsAll) := by
  rw [styleHeadingsAll, styleHeadingsList_eq_map]

theorem styleListItemsAll_text (s : String) : styleListItemsAll (.text s) = .text s := by
  rw [styleListItemsAll]

theorem styleListItemsAll_el (t : String) (c : List String)
    (st a : List (String × String)) (ch : List Dom) :
    styleListItemsAll (.el t c st a ch) =
      .el t c
        (if t == "li" then
          upsertPair (upsertPair st "page-break-inside" "avoid") "break-inside" "avoid"
         else st) a
        (ch.map styleListItemsAll) := by
  rw [styleListItemsAll, styleListItemsList_eq_map]

/-! ### Tree predicates for the pagination claims -/

mutual

/-- Every element of the tree (root included) satisfies the node predicate
`p tag classes style attrs`. -/
def allElsB (p : String → List String → List (String × String) → List (String × String) → Bool) :
    Dom → Bool
  | .text _ => true
  | .el t c st a ch => p t c st a && allElsList p ch

def allElsList (p : String → List String → List (String × String) → List (String × String) → Bool) :
    List Dom → Bool
  | [] => true
  | d :: ds => allElsB p d && allElsList p ds

end

mutual

/-- Some element of the tree satisfies the node predicate. -/
def existsElB (p : String → List String → List (String × String) → List (String × String) → Bool) :
    Dom → Bool
  | .text _ => false
  | .el t c st a ch => p t c st a || existsElList p ch

def existsElList (p : String → List String → List (String × String) → List (String × String) → Bool) :
    List Dom → Bool
  | [] => false
  | d :: ds => existsElB p d || existsElList p ds

end

mutual

/-- Every `.oh-my-cv-page-break-indicator` element lies strictly inside some
`.oh-my-cv-page-break` element (`insidePB`: an ancestor is a page break). -/
def indicatorsOnlyGo (insidePB : Bool) : Dom → Bool
  | .text _ => true
  | .el _ c _ _ ch =>
    (insidePB || !(c.contains "oh-my-cv-page-break-indicator"))
    && indicatorsOnlyList (insidePB || c.contains "oh-my-cv-page-break") ch

def indicatorsOnlyList (insidePB : Bool) : List Dom → Bool
  | [] => true
  | d :: ds => indicatorsOnlyGo insidePB d && indicatorsOnlyList insidePB ds

end

theorem allElsList_eq_all (p : String → List String → List (String × String) → List (String × String) → Bool)
    (ch : List Dom) : allElsList p ch = ch.all (allElsB p) := by
  induction ch with
  | nil => rfl
  | cons d ds ih => rw [allElsList, List.all_cons, ih]

theorem indicatorsOnlyList_eq_all (b : Bool) (ch : List Dom) :
    indicatorsOnlyList b ch = ch.all (indicatorsOnlyGo b) := by
  induction ch with
  | nil => rfl
  | cons d ds ih => rw [indicatorsOnlyList, List.all_cons, ih]

theorem allElsB_text (p : String → List String → List (String × String) → List (String × String) → Bool)
    (s : String) : allElsB p (.text s) = true := by
  rw [allElsB]

theorem allElsB_el (p : String → List String → List (String × String) → List (String × String) → Bool)
    (t : String) (c : List String) (st a : List (String × String)) (ch : List Dom) :
    allElsB p (.el t c st a ch) = (p t c st a && ch.all (allElsB p)) := by
  rw [allElsB, allElsList_eq_all]

theorem indicatorsOnlyGo_text (b : Bool) (s : String) :
    indicatorsOnlyGo b (.text s) = true := by
  simp only [indicatorsOnlyGo]

theorem indicatorsOnlyGo_el (b : Bool) (t : String) (c : List String)
    (st a : List (String × String)) (ch : List Dom) :
    indicatorsOnlyGo b (.el t c st a ch) =
      ((b || !(c.contains "oh-my-cv-page-break-indicator"))
        && ch.all (indicatorsOnlyGo (b || c.contains "oh-my-cv-page-break"))) := by
  rw [indicatorsOnlyGo, indicatorsOnlyList_eq_all]

/-- Node predicate: an `h2`/`h3` carries the avoid-break-after hints. -/
def pHeadHint (t : String) (_c : List String) (st : List (String × String))
    (_a : List (String × String)) : Bool :=
  !(t == "h2" || t == "h3")
  || ((st.lookup "page-break-after" == some "avoid")
      && (st.lookup "break-after" == some "avoid"))

/-- Node predicate: an `li` carries the avoid-break-inside hints. -/
def pLiHint (t : String) (_c : List String) (st : List (String × String))
    (_a : List (String × String)) : Bool :=
  !(t == "li")
  || ((st.lookup "page-break-inside" == some "avoid")
      && (st.lookup "break-inside" == some "avoid"))

/-- Node predicate: a `.oh-my-cv-page-break` carries the forced-break
declarations. -/
def pPBForced (_t : String) (c : List String) (st : List (String × String))
    (_a : List (String × String)) : Bool :=
  !(c.contains "oh-my-cv-page-break")
  || ((st.lookup "page-break-after" == some "always")
      && (st.lookup "break-after" == some "page"))

/-- Node predicate: no page-break indicator element. -/
def pNoIndicator (_t : String) (c : List String) (_st : List (String × String))
    (_a : List (String × String)) : Bool :=
  !(c.contains "oh-my-cv-page-break-indicator")

/-- Node predicate: no page-break element is an `h2`/`h3` heading. -/
def pPBNotHeading (t : String) (c : List String) (_st : List (String × String))
    (_a : List (String × String)) : Bool :=
  !(c.contains "oh-my-cv-page-break") || (!(t == "h2") && !(t == "h3"))

/-! ### Upsert lookup lemmas -/

theorem lookup_upsert_self (l : List (String × String)) (k v : String) :
    (upsertPair l k v).lookup k = some v := by
  induction l with
  | nil => simp [upsertPair, List.lookup]
  | cons p t ih =>
    obtain ⟨k1, v1⟩ := p
    by_cases hk : (k1 == k) = true
    · simp [upsertPair, hk, List.lookup]
    · have hk1 : (k1 == k) = false := by simpa using hk
      have hk' : (k == k1) = false := by
        simp only [beq_eq_false_iff_ne, ne_eq] at hk1 ⊢
        exact fun h => hk1 h.symm
      simp only [upsertPair, hk1, Bool.false_eq_true, if_false, List.lookup, hk']
      exact ih

theorem lookup_upsert_other (l : List (String × String)) (k v k' : String)
    (hne : k' ≠ k) : (upsertPair l k v).lookup k' = l.lookup k' := by
  induction l with
  | nil =>
    have hk' : (k' == k) = false := by simpa using hne
    simp [upsertPair, List.lookup, hk']
  | cons p t ih =>
    obtain ⟨k1, v1⟩ := p
    by_cases hk : (k1 == k) = true
    · have e1 : k1 = k := by simpa using hk
      have hk' : (k' == k) = false := by simpa using hne
      subst e1
      simp [upsertPair, List.lookup, hk']
    · have hk1 : (k1 == k) = false := by simpa using hk
      simp only [upsertPair, hk1, Bool.false_eq_true, if_false, List.lookup]
      by_cases hkk : (k' == k1) = true
      · simp [hkk]
      · have hkk' : (k' == k1) = false := by simpa using hkk
        simp only [hkk', Bool.false_eq_true, if_false]
        exact ih

/-! ### Pagination pass lemmas -/

theorem all_map_of_mem (l : List Dom) (f : Dom → Dom) (p : Dom → Bool)
    (h : ∀ d ∈ l, p (f d) = true) : (l.map f).all p = true := by
  rw [List.all_eq_true]
  intro x hx
  rcases List.mem_map.mp hx with ⟨d, hd, rfl⟩
  exact h d hd

theorem all_filterMap_of_mem (l : List Dom) (g : Dom → Option Dom) (p : Dom → Bool)
    (h : ∀ d ∈ l, ∀ d', g d = some d' → p d' = true) : (l.filterMap g).all p = true := by
  rw [List.all_eq_true]
  intro x hx
  rcases List.mem_filterMap.mp hx with ⟨d, hd, hgd⟩
  exact h d hd x hgd

theorem all_map_congr (l : List Dom) (f : Dom → Dom) (p : Dom → Bool)
    (h : ∀ d ∈ l, p (f d) = p d) : (l.map f).all p = l.all p := by
  induction l with
  | nil => simp
  | cons a t ih =>
    simp only [List.map_cons, List.all_cons, h a (by simp)]
    rw [ih fun d hd => h d (by simp [hd])]

/-- The heading pass establishes the heading hints everywhere. -/
theorem headings_hinted_after_pass (d : Dom) :
    allElsB pHeadHint (styleHeadingsAll d) = true := by
  induction d using Dom.induct with
  | ht s => rw [styleHeadingsAll_text, allElsB_text]
  | he t c st a ch ih =>
    rw [styleHeadingsAll_el, allElsB_el]
    rw [Bool.and_eq_true]
    refine ⟨?_, all_map_of_mem ch _ _ fun d hd => ih d hd⟩
    by_cases hh : (t == "h2" || t == "h3") = true
    · rw [if_pos hh, pHeadHint]
      rw [lookup_upsert_other _ _ _ _ (by decide), lookup_upsert_other _ _ _ _ (by decide),
        lookup_upsert_other _ _ _ _ (by decide), lookup_upsert_self]
      rw [lookup_upsert_other _ _ _ _ (by decide), lookup_upsert_other _ _ _ _ (by decide),
        lookup_upsert_self]
      simp
    · rw [if_neg hh, pHeadHint]
      simp only [Bool.not_eq_true] at hh
      simp [hh]

/-- The list-item pass preserves the heading hints. -/
theorem headings_hinted_li_pass (d : Dom) (h : allElsB pHeadHint d = true) :
    allElsB pHeadHint (styleListItemsAll d) = true := by
  induction d using Dom.induct with
  | ht s => rw [styleListItemsAll_text, allElsB_text]
  | he t c st a ch ih =>
    rw [allElsB_el, Bool.and_eq_true, List.all_eq_true] at h
    rw [styleListItemsAll_el, allElsB_el]
    rw [Bool.and_eq_true]
    refine ⟨?_, all_map_of_mem ch _ _ fun d hd => ih d hd (h.2 d hd)⟩
    by_cases hli : (t == "li") = true
    · have ht2 : t = "li" := by simpa using hli
      rw [if_pos hli, pHeadHint]
      simp [ht2]
    · rw [if_neg hli]
      exact h.1

/-- The list-item pass establishes the list-item hints everywhere. -/
theorem listitems_hinted_after_pass (d : Dom) :
    allElsB pLiHint (styleListItemsAll d) = true := by
  induction d using Dom.induct with
  | ht s => rw [styleListItemsAll_text, allElsB_text]
  | he t c st a ch ih =>
    rw [styleListItemsAll_el, allElsB_el]
    rw [Bool.and_eq_true]
    refine ⟨?_, all_map_of_mem ch _ _ fun d hd => ih d hd⟩
    by_cases hli : (t == "li") = true
    · rw [if_pos hli, pLiHint]
      rw [lookup_upsert_other _ _ _ _ (by decide), lookup_upsert_self, lookup_upsert_self]
      simp
    · rw [if_neg hli, pLiHint]
      simp only [Bool.not_eq_true] at hli
      simp [hli]

/-- The page-break pass forces the break declarations on every surviving
page-break element. -/
theorem pagebreaks_forced_after_pass (d : Dom) :
    ∀ (b : Bool) (d' : Dom), stylePageBreaksGo b d = some d' →
      allElsB pPBForced d' = true := by
  induction d using Dom.induct with
  | ht s =>
    intro b d' h
    rw [stylePageBreaksGo_text] at h
    cases h
    rw [allElsB_text]
  | he t c st a ch ih =>
    intro b d' h
    rw [stylePageBreaksGo_el] at h
    by_cases hrem : (b && c.contains "oh-my-cv-page-break-indicator") = true
    · rw [if_pos hrem] at h
      cases h
    · rw [if_neg hrem] at h
      injection h with h
      subst h
      rw [allElsB_el, Bool.and_eq_true]
      refine ⟨?_, all_filterMap_of_mem ch _ _ fun d hd d' hgd => ih d hd _ d' hgd⟩
      by_cases hpb : c.contains "oh-my-cv-page-break" = true
      · rw [pPBForced, if_pos hpb, hpb]
        simp [List.lookup]
      · have hpb' : c.contains "oh-my-cv-page-break" = false := by simpa using hpb
        rw [pPBForced, hpb']
        simp

/-- The heading pass preserves the forced-break declarations, provided no
page-break element is a heading. -/
theorem pagebreaks_forced_heading_pass (d : Dom)
    (hnh : allElsB pPBNotHeading d = true) (h : allElsB pPBForced d = true) :
    allElsB pPBForced (styleHeadingsAll d) = true := by
  induction d using Dom.induct with
  | ht s => rw [styleHeadingsAll_text, allElsB_text]
  | he t c st a ch ih =>
    rw [allElsB_el, Bool.and_eq_true, List.all_eq_true] at hnh h
    rw [styleHeadingsAll_el, allElsB_el, Bool.and_eq_true]
    refine ⟨?_, all_map_of_mem ch _ _ fun d hd => ih d hd (hnh.2 d hd) (h.2 d hd)⟩
    by_cases hh : (t == "h2" || t == "h3") = true
    · rw [if_pos hh]
      by_cases hpb : c.contains "oh-my-cv-page-break" = true
      · exfalso
        have := hnh.1
        rw [pPBNotHeading, hpb] at this
        rcases (by simpa using hh : (t == "h2") = true ∨ (t == "h3") = true) with h2 | h3
        · simp [h2] at this
        · simp [h3] at this
      · have hpb' : c.contains "oh-my-cv-page-break" = false := by simpa using hpb
        rw [pPBForced, hpb']
        simp
    · rw [if_neg hh]
      exact h.1

/-- The list-item pass preserves the forced-break declarations. -/
theorem pagebreaks_forced_li_pass (d : Dom) (h : allElsB pPBForced d = true) :
    allElsB pPBForced (styleListItemsAll d) = true := by
  induction d using Dom.induct with
  | ht s => rw [styleListItemsAll_text, allElsB_text]
  | he t c st a ch ih =>
    rw [allElsB_el, Bool.and_eq_true, List.all_eq_true] at h
    rw [styleListItemsAll_el, allElsB_el, Bool.and_eq_true]
    refine ⟨?_, all_map_of_mem ch _ _ fun d hd => ih d hd (h.2 d hd)⟩
    by_cases hli : (t == "li") = true
    · rw [if_pos hli]
      by_cases hpb : c.contains "oh-my-cv-page-break" = true
      · have := h.1
        rw [pPBForced, hpb] at this ⊢
        simp only [Bool.not_true, Bool.false_or] at this ⊢
        rw [lookup_upsert_other _ _ _ _ (by decide), lookup_upsert_other _ _ _ _ (by decide),
          lookup_upsert_other _ _ _ _ (by decide), lookup_upsert_other _ _ _ _ (by decide)]
        exact this
      · have hpb' : c.contains "oh-my-cv-page-break" = false := by simpa using hpb
        rw [pPBForced, hpb']
        simp
    · rw [if_neg hli]
      exact h.1

/-- The page-break pass removes every indicator when indicators only occur
inside page-break elements. -/
theorem no_indicator_after_pass (d : Dom) :
    ∀ (b : Bool) (d' : Dom), stylePageBreaksGo b d = some d' →
      indicatorsOnlyGo b d = true → allElsB pNoIndicator d' = true := by
  induction d using Dom.induct with
  | ht s =>
    intro b d' h _
    rw [stylePageBreaksGo_text] at h
    cases h
    rw [allElsB_text]
  | he t c st a ch ih =>
    intro b d' h hio
    rw [stylePageBreaksGo_el] at h
    rw [indicatorsOnlyGo_el, Bool.and_eq_true, List.all_eq_true] at hio
    by_cases hrem : (b && c.contains "oh-my-cv-page-break-indicator") = true
    · rw [if_pos hrem] at h
      cases h
    · rw [if_neg hrem] at h
      injection h with h
      subst h
      rw [allElsB_el, Bool.and_eq_true]
      refine ⟨?_, all_filterMap_of_mem ch _ _ fun d hd d' hgd => ih d hd _ d' hgd (hio.2 d hd)⟩
      rw [pNoIndicator]
      by_cases hind : c.contains "oh-my-cv-page-break-indicator" = true
      · exfalso
        have hb : b = false := by
          cases hb : b
          · rfl
          · exact absurd (by rw [hb, hind]; rfl) hrem
        have := hio.1
        rw [hb, hind] at this
        simp at this
      · simpa using hind

/-- The heading pass touches only styles, so indicator classes are
untouched. -/
theorem no_indicator_heading_pass (d : Dom) (h : allElsB pNoIndicator d = true) :
    allElsB pNoIndicator (styleHeadingsAll d) = true := by
  induction d using Dom.induct with
  | ht s => rw [styleHeadingsAll_text, allElsB_text]
  | he t c st a ch ih =>
    rw [allElsB_el, Bool.and_eq_true, List.all_eq_true] at h
    rw [styleHeadingsAll_el, allElsB_el, Bool.and_eq_true]
    exact ⟨h.1, all_map_of_mem ch _ _ fun d hd => ih d hd (h.2 d hd)⟩

/-- The list-item pass touches only styles, so indicator classes are
untouched. -/
theorem no_indicator_li_pass (d : Dom) (h : allElsB pNoIndicator d = true) :
    allElsB pNoIndicator (styleListItemsAll d) = true := by
  induction d using Dom.induct with
  | ht s => rw [styleListItemsAll_text, allElsB_text]
  | he t c st a ch ih =>
    rw [allElsB_el, Bool.and_eq_true, List.all_eq_true] at h
    rw [styleListItemsAll_el, allElsB_el, Bool.and_eq_true]
    exact ⟨h.1, all_map_of_mem ch _ _ fun d hd => ih d hd (h.2 d hd)⟩

/-- The link pass changes only styles and attributes, so any predicate that
ignores them is invariant. -/
theorem allElsB_links_invariant
    (p : String → List String → List (String × String) → List (String × String) → Bool)
    (hp : ∀ t c st a st' a', p t c st a = p t c st' a') (color : String) (d : Dom) :
    allElsB p (styleLinksAll color d) = allElsB p d := by
  induction d using Dom.induct with
  | ht s => rw [styleLinksAll_text]
  | he t c st a ch ih =>
    rw [styleLinksAll_el]
    by_cases hta : (t == "a") = true
    · rw [if_pos hta, allElsB_el, allElsB_el,
        all_map_congr ch _ _ fun d hd => ih d hd, hp t c _ _ st a]
    · rw [if_neg hta, allElsB_el, allElsB_el,
        all_map_congr ch _ _ fun d hd => ih d hd]

/-- The link pass preserves the indicator-placement invariant. -/
theorem indicatorsOnlyGo_links_invariant (color : String) (d : Dom) :
    ∀ b : Bool, indicatorsOnlyGo b (styleLinksAll color d) = indicatorsOnlyGo b d := by
  induction d using Dom.induct with
  | ht s =>
    intro b
    rw [styleLinksAll_text]
  | he t c st a ch ih =>
    intro b
    rw [styleLinksAll_el]
    by_cases hta : (t == "a") = true
    · rw [if_pos hta, indicatorsOnlyGo_el, indicatorsOnlyGo_el,
        all_map_congr ch _ _ fun d hd => ih d hd _]
    · rw [if_neg hta, indicatorsOnlyGo_el, indicatorsOnlyGo_el,
        all_map_congr ch _ _ fun d hd => ih d hd _]

/-- The page-break pass preserves "no page-break element is a heading" on the
surviving tree. -/
theorem pbNotHeading_pagebreak_pass (d : Dom) :
    ∀ (b : Bool) (d' : Dom), stylePageBreaksGo b d = some d' →
      allElsB pPBNotHeading d = true → allElsB pPBNotHeading d' = true := by
  induction d using Dom.induct with
  | ht s =>
    intro b d' h _
    rw [stylePageBreaksGo_text] at h
    cases h
    rw [allElsB_text]
  | he t c st a ch ih =>
    intro b d' h hnh
    rw [stylePageBreaksGo_el] at h
    rw [allElsB_el, Bool.and_eq_true, List.all_eq_true] at hnh
    by_cases hrem : (b && c.contains "oh-my-cv-page-break-indicator") = true
    · rw [if_pos hrem] at h
      cases h
    · rw [if_neg hrem] at h
      injection h with h
      subst h
      rw [allElsB_el, Bool.and_eq_true]
      exact ⟨hnh.1,
        all_filterMap_of_mem ch _ _ fun d hd d' hgd => ih d hd _ d' hgd (hnh.2 d hd)⟩

theorem jsClassAdd_contains_other (cs : List String) (c y : String)
    (h : (y == c) = false) : (jsClassAdd cs c).contains y = cs.contains y := by
  rw [jsClassAdd]
  by_cases hc : cs.contains c = true
  · rw [if_pos hc]
  · rw [if_neg hc]
    induction cs with
    | nil => simp [List.contains, List.elem, h]
    | cons a t ih =>
      simp only [List.cons_append, List.contains_cons] at ih ⊢
      by_cases ha : (y == a) = true
      · simp [ha]
      · have ha' : (y == a) = false := by simpa using ha
        simp only [ha', Bool.false_or]
        exact ih (by
          intro hct
          exact hc (by simpa [List.contains_cons, hct] using Or.inr hct))

theorem customCssChildren_shape (m : CVMetadata) :
    ∀ c ∈ customCssChildren m, ∃ css, c = Dom.el "style" [] [] [] [Dom.text css] := by
  intro c hc
  rw [customCssChildren] at hc
  rcases hcss : m.customCss with _ | css
  · rw [hcss] at hc
    simp at hc
  · rw [hcss] at hc
    by_cases he : css = ""
    · simp [he] at hc
    · simp only [he, if_false] at hc
      rw [List.mem_singleton] at hc
      exact ⟨css, hc⟩

theorem customCss_pbNotHeading (m : CVMetadata) :
    ∀ c ∈ customCssChildren m, allElsB pPBNotHeading c = true := by
  intro c hc
  rcases customCssChildren_shape m c hc with ⟨css, rfl⟩
  rw [allElsB_el]
  simp [pPBNotHeading, allElsB_text]

theorem customCss_indicatorsOnly (m : CVMetadata) :
    ∀ c ∈ customCssChildren m, indicatorsOnlyGo false c = true := by
  intro c hc
  rcases customCssChildren_shape m c hc with ⟨css, rfl⟩
  rw [indicatorsOnlyGo_el]
  simp [indicatorsOnlyGo_text]

/-- C8 (amended): after `applyExportStyling` runs on a rendered tree (a
neutral container root), every `h2`/`h3` heading carries the
avoid-break-after hints (an `h1` does not — see the counterexample), every
list item carries the avoid-break-inside hints, every `\newpage` marker node
(`.oh-my-cv-page-break`) carries the force-break-after declarations, and —
whenever indicators occur only inside page-break nodes, as the preview
decorator guarantees — no preview-only indicator element remains. -/
theorem applyExportStyling_pagination_hints (metadata : CVMetadata)
    (template : Option CVTemplate) (rt : String) (rc : List String)
    (rst ra : List (String × String)) (rch : List Dom)
    (hrt2 : (rt == "h2") = false) (hrt3 : (rt == "h3") = false)
    (hrtli : (rt == "li") = false)
    (hrootpb : rc.contains "oh-my-cv-page-break" = false)
    (hrootind : rc.contains "oh-my-cv-page-break-indicator" = false)
    (hpbnh : allElsB pPBNotHeading (.el rt rc rst ra rch) = true) :
    allElsB pHeadHint (applyExportStyling (.el rt rc rst ra rch) metadata template) = true
    ∧ allElsB pLiHint (applyExportStyling (.el rt rc rst ra rch) metadata template) = true
    ∧ allElsB pPBForced (applyExportStyling (.el rt rc rst ra rch) metadata template) = true
    ∧ (indicatorsOnlyGo false (.el rt rc rst ra rch) = true →
        allElsB pNoIndicator (applyExportStyling (.el rt rc rst ra rch) metadata template) = true) := by
  rw [allElsB_el, Bool.and_eq_true, List.all_eq_true] at hpbnh
  have hchnh : ∀ c ∈ rch ++ customCssChildren metadata, allElsB pPBNotHeading c = true := by
    intro c hc
    rcases List.mem_append.mp hc with hc | hc
    · exact hpbnh.2 c hc
    · exact customCss_pbNotHeading metadata c hc
  rw [applyExportStyling]
  refine ⟨?_, ?_, ?_, ?_⟩
  · rw [allElsB_el, Bool.and_eq_true]
    constructor
    · rw [pHeadHint, hrt2, hrt3]
      simp
    · apply all_map_of_mem
      intro x hx
      apply headings_hinted_li_pass
      rcases List.mem_map.mp hx with ⟨m, _, rfl⟩
      exact headings_hinted_after_pass m
  · rw [allElsB_el, Bool.and_eq_true]
    constructor
    · rw [pLiHint, hrtli]
      simp
    · apply all_map_of_mem
      intro x hx
      exact listitems_hinted_after_pass x
  · rw [allElsB_el, Bool.and_eq_true]
    constructor
    · rw [pPBForced, jsClassAdd_contains_other _ _ _ (by decide), hrootpb]
      simp
    · apply all_map_of_mem
      intro x hx
      apply pagebreaks_forced_li_pass
      rcases List.mem_map.mp hx with ⟨m, hm, rfl⟩
      rcases List.mem_filterMap.mp hm with ⟨lm, hlm, hgo⟩
      rcases List.mem_map.mp hlm with ⟨c, hc, rfl⟩
      have hlmnh : allElsB pPBNotHeading
          (styleLinksAll (resolvedLinkColor metadata (template.map CVTemplate.style)) c) = true := by
        rw [allElsB_links_invariant pPBNotHeading (fun _ _ _ _ _ _ => rfl)]
        exact hchnh c hc
      exact pagebreaks_forced_heading_pass m
        (pbNotHeading_pagebreak_pass _ false m hgo hlmnh)
        (pagebreaks_forced_after_pass _ false m hgo)
  · intro hio
    rw [indicatorsOnlyGo_el, Bool.and_eq_true, List.all_eq_true] at hio
    have hioch : ∀ c ∈ rch ++ customCssChildren metadata, indicatorsOnlyGo false c = true := by
      intro c hc
      rcases List.mem_append.mp hc with hc | hc
      · have := hio.2 c hc
        rwa [hrootpb, Bool.or_false] at this
      · exact customCss_indicatorsOnly metadata c hc
    rw [allElsB_el, Bool.and_eq_true]
    constructor
    · rw [pNoIndicator, jsClassAdd_contains_other _ _ _ (by decide), hrootind]
      simp
    · apply all_map_of_mem
      intro x hx
      apply no_indicator_li_pass
      rcases List.mem_map.mp hx with ⟨m, hm, rfl⟩
      apply no_indicator_heading_pass
      rcases List.mem_filterMap.mp hm with ⟨lm, hlm, hgo⟩
      rcases List.mem_map.mp hlm with ⟨c, hc, rfl⟩
      have hioc : indicatorsOnlyGo false
          (styleLinksAll (resolvedLinkColor metadata (template.map CVTemplate.style)) c) = true := by
        rw [indicatorsOnlyGo_links_invariant]
        exact hioch c hc
      exact no_indicator_after_pass _ false m hgo hioc

/-- A small concrete document metadata value used by concrete runs. -/
def sampleMetadata : CVMetadata :=
  { title := "Test CV", lastModified := 0, pageSize := PageSize.A4,
    margins := { top := 20, right := 20, bottom := 20, left := 20 },
    themeColor := "#4051b5", fontFamily := "Inter, sans-serif",
    fontSize := 10, lineHeight := 15/10 }

/-- C8 (counterexample): the claim "every heading carries an
avoid-break-after pagination hint" is false for level-1 headings: after
`applyExportStyling` the `h1` below carries no `page-break-after`
declaration at all (the pass only selects `h2, h3`), while the sibling `h2`
does. -/
theorem applyExportStyling_h1_unhinted :
    existsElB (fun t _ st _ => t == "h1" && (st.lookup "page-break-after").isNone)
      (applyExportStyling
        (Dom.el "div" [] [] [] [Dom.el "h1" [] [] [] [Dom.text "Name"],
          Dom.el "h2" [] [] [] [Dom.text "Skills"]])
        sampleMetadata none) = true
    ∧ existsElB (fun t _ st _ => t == "h2" && (st.lookup "page-break-after" == some "avoid"))
      (applyExportStyling
        (Dom.el "div" [] [] [] [Dom.el "h1" [] [] [] [Dom.text "Name"],
          Dom.el "h2" [] [] [] [Dom.text "Skills"]])
        sampleMetadata none) = true := by
  decide

/-- The concrete rendered tree used to witness the amended pagination claim:
a heading, a list with one item, and a `\newpage` marker carrying a
preview indicator. -/
def samplePaginationChildren : List Dom :=
  [Dom.el "h2" [] [] [] [Dom.text "Experience"],
   Dom.el "ul" ["oh-my-cv-list"] [] [] [Dom.el "li" ["oh-my-cv-list-item"] [] [] [Dom.text "item"]],
   Dom.el "div" ["oh-my-cv-page-break"] [] []
     [Dom.el "div" ["oh-my-cv-page-break-indicator"] [] [] [Dom.text "Page Break"]]]

/-- Witness for `applyExportStyling_pagination_hints` on a concrete tree. -/
theorem applyExportStyling_pagination_hints_witness :
    allElsB pHeadHint (applyExportStyling (.el "div" [] [] [] samplePaginationChildren)
        sampleMetadata none) = true
    ∧ allElsB pLiHint (applyExportStyling (.el "div" [] [] [] samplePaginationChildren)
        sampleMetadata none) = true
    ∧ allElsB pPBForced (applyExportStyling (.el "div" [] [] [] samplePaginationChildren)
        sampleMetadata none) = true
    ∧ allElsB pNoIndicator (applyExportStyling (.el "div" [] [] [] samplePaginationChildren)
        sampleMetadata none) = true := by
  have h := applyExportStyling_pagination_hints sampleMetadata none "div" [] [] []
    samplePaginationChildren (by decide) (by decide) (by decide) (by decide) (by decide)
    (by decide)
  exact ⟨h.1, h.2.1, h.2.2.1, h.2.2.2 (by decide)⟩

/-! ## Export driver (`src/services/export-service.ts`, `ExportService`)

`exportToPDF` clones the content element, styles the clone, merges the
export options, optionally adds header/footer/page numbers, and builds the
html2pdf configuration. The rasterizer call itself is the external
collaborator; the run record below captures everything the service computes
and the plugin data afterwards. -/

/-- JS truthiness of an optional string. -/
def jsTruthyStr : Option String → Bool
  | none => false
  | some s => s ≠ ""

/-- `html2pdf` image configuration. -/
structure H2PImage where
  type : String
  quality : ℚ
deriving DecidableEq

/-- `html2canvas` configuration. -/
structure H2PCanvas where
  scale : ℚ
  logging : Bool
  dpi : ℚ
  letterRendering : Bool
deriving DecidableEq

/-- `jsPDF` configuration. -/
structure H2PJsPDF where
  unit : String
  format : PageSize
  orient : PageOrient
deriving DecidableEq

/-- The full `html2pdfOptions` object built by `exportToPDF`. -/
structure Html2PdfOptions where
  margin : List ℚ
  filename : String
  image : H2PImage
  html2canvas : H2PCanvas
  jsPDF : H2PJsPDF
  fontFaces : Bool
deriving DecidableEq

/-- The merged `exportOptions` object of `exportToPDF`: the defaults literal
(filename from title, metadata page setup, `includePageNumbers: true`,
`embedFonts: true`, `imageQuality: 90`) overridden by the caller's partial
options. -/
def mergeExportOptions (doc : CVDocument) (options : PartialPDFExportOptions) :
    PDFExportOptions :=
  { filename := options.filename.getD (jsOrStr doc.metadata.title "CV" ++ ".pdf"),
    pageSize := options.pageSize.getD doc.metadata.pageSize,
    orient := options.orient.getD (doc.metadata.orient.getD PageOrient.portrait),
    margins := options.margins.getD doc.metadata.margins,
    includeHeader := options.includeHeader.getD false,
    headerContent := options.headerContent,
    includeFooter := options.includeFooter.getD false,
    footerContent := options.footerContent,
    includePageNumbers := options.includePageNumbers.getD true,
    embedFonts := some (options.embedFonts.getD true),
    imageQuality := some (options.imageQuality.getD 90) }

/-- The `html2pdfOptions` literal of `exportToPDF`. (`orientation` in the
merged options is always set, so its `|| 'portrait'` is the identity.) -/
def buildHtml2PdfOptions (exportOptions : PDFExportOptions) : Html2PdfOptions :=
  { margin := [exportOptions.margins.top, exportOptions.margins.right,
               exportOptions.margins.bottom, exportOptions.margins.left],
    filename := exportOptions.filename,
    image := { type := "jpeg",
               quality := jsOrOptNum exportOptions.imageQuality 90 / 100 },
    html2canvas := { scale := 2, logging := false, dpi := 192, letterRendering := true },
    jsPDF := { unit := "mm", format := exportOptions.pageSize,
               orient := exportOptions.orient },
    fontFaces := exportOptions.embedFonts.getD false }

/-- `addHeader`: prepend a `div.oh-my-cv-header` whose innerHTML is the
caller's verbatim header content. -/
def addHeader (element : Dom) (headerContent : String) : Dom :=
  match element with
  | .text s => .text s
  | .el t c st a ch =>
    .el t c st a (Dom.el "div" ["oh-my-cv-header"] [] [] [Dom.text headerContent] :: ch)

/-- `addFooter`: append a `div.oh-my-cv-footer`. -/
def addFooter (element : Dom) (footerContent : String) : Dom :=
  match element with
  | .text s => .text s
  | .el t c st a ch =>
    .el t c st a (ch ++ [Dom.el "div" ["oh-my-cv-footer"] [] [] [Dom.text footerContent]])

/-- The page-number CSS injected by `addPageNumbers`. -/
def pageNumberCss : String :=
  "\n      .oh-my-cv-page-number::after \x7b\n        content: counter(page);\n        counter-increment: page;\n      \x7d\n    "

mutual

/-- `element.querySelector('.oh-my-cv-footer')` followed by `appendChild`:
append `pn` to the first footer in document order; the flag reports whether
one was found. -/
def appendToFirstFooter (pn : Dom) : Dom → (Dom × Bool)
  | .text s => (.text s, false)
  | .el t c st a ch =>
    if c.contains "oh-my-cv-footer" then (.el t c st a (ch ++ [pn]), true)
    else
      let r := appendToFirstFooterList pn ch
      (.el t c st a r.1, r.2)

def appendToFirstFooterList (pn : Dom) : List Dom → (List Dom × Bool)
  | [] => ([], false)
  | d :: ds =>
    let r := appendToFirstFooter pn d
    if r.2 then (r.1 :: ds, true)
    else
      let rs := appendToFirstFooterList pn ds
      (d :: rs.1, rs.2)

end

/-- `addPageNumbers`: append the page-number style element, then put the
`Page ` placeholder into the first footer, or append a fresh footer holding
it. -/
def addPageNumbers (element : Dom) : Dom :=
  match element with
  | .text s => .text s
  | .el t c st a ch =>
    let ch := ch ++ [Dom.el "style" [] [] [] [Dom.text pageNumberCss]]
    let pn := Dom.el "div" ["oh-my-cv-page-number"] [] [] [Dom.text "Page "]
    let r := appendToFirstFooterList pn ch
    if r.2 then .el t c st a r.1
    else .el t c st a (r.1 ++ [Dom.el "div" ["oh-my-cv-footer"] [] [] [pn]])

/-- Everything one `exportToPDF` call computes, plus the plugin data
afterwards. -/
structure ExportToPDFRun where
  clone : Dom
  exportOptions : PDFExportOptions
  html2pdfOptions : Html2PdfOptions
  data : Option PluginData

/-- `exportToPDF(contentElement, document, options?)`. Note that it never
calls `setLastExportOptions`: the plugin data is returned unchanged. -/
def ExportService.exportToPDF (data : Option PluginData) (contentElement : Dom)
    (doc : CVDocument) (options : PartialPDFExportOptions) : ExportToPDFRun :=
  let clone := applyExportStyling contentElement doc.metadata none
  let exportOptions := mergeExportOptions doc options
  let clone :=
    if exportOptions.includeHeader && jsTruthyStr exportOptions.headerContent then
      addHeader clone (exportOptions.headerContent.getD "")
    else clone
  let clone :=
    if exportOptions.includeFooter && jsTruthyStr exportOptions.footerContent then
      addFooter clone (exportOptions.footerContent.getD "")
    else clone
  let clone := if exportOptions.includePageNumbers then addPageNumbers clone else clone
  { clone := clone, exportOptions := exportOptions,
    html2pdfOptions := buildHtml2PdfOptions exportOptions, data := data }

/-- View a full options object as the `Partial<PDFExportOptions>` argument
it is passed as. -/
def partialOfFull (o : PDFExportOptions) : PartialPDFExportOptions :=
  { filename := some o.filename, pageSize := some o.pageSize, orient := some o.orient,
    margins := some o.margins, includeHeader := some o.includeHeader,
    headerContent := o.headerContent, includeFooter := some o.includeFooter,
    footerContent := o.footerContent, includePageNumbers := some o.includePageNumbers,
    embedFonts := o.embedFonts, imageQuality := o.imageQuality }

/-- The export modal's Export button handler (`src/ui/export-modal.ts`):
run `exportPDF()` — which calls `exportToPDF` on a container built from
`generateHTML` with the modal's options — and then persist the modal's own
options object via `setLastExportOptions`. The container is passed in here;
its content does not affect persistence. -/
def PDFExportOptionsModal.exportClick (data : Option PluginData) (doc : CVDocument)
    (modalOptions : PDFExportOptions) (containerEl : Dom) : ExportToPDFRun × PluginData :=
  let run := ExportService.exportToPDF data containerEl doc (partialOfFull modalOptions)
  (run, SettingsService.setLastExportOptions run.data modalOptions)

/-- A small concrete document used by concrete runs. -/
def sampleDoc : CVDocument :=
  { path := "CVs/test.cv.md", metadata := sampleMetadata, content := "# Name" }

/-- C3 (counterexample): after a completed `exportToPDF` run from a state
with no stored options, reading the last-used export options still returns
`none`, not the merged options of that export (whose filename is shown to be
well-defined), so the claim fails at this input. -/
theorem exportToPDF_lastOptions_not_updated :
    SettingsService.getLastExportOptions
        (ExportService.exportToPDF none (Dom.el "div" [] [] [] []) sampleDoc {}).data = none
    ∧ (ExportService.exportToPDF none (Dom.el "div" [] [] [] [])
        sampleDoc {}).exportOptions.filename = "Test CV.pdf" := by
  constructor
  · rfl
  · rfl

/-- C3 (amended): `exportToPDF` itself never persists anything — the plugin
data it returns is its input — and the persisted "last used" value written by
the export modal's button handler is the modal's own options object (which is
saved independently of the merge). -/
theorem exportToPDF_persistence :
    (∀ (data : Option PluginData) (tree : Dom) (doc : CVDocument)
        (options : PartialPDFExportOptions),
        (ExportService.exportToPDF data tree doc options).data = data)
    ∧ (∀ (data : Option PluginData) (doc : CVDocument) (modalOptions : PDFExportOptions)
        (containerEl : Dom),
        (PDFExportOptionsModal.exportClick data doc modalOptions containerEl).2.lastExportOptions
          = some modalOptions) := by
  constructor
  · intro data tree doc options
    rfl
  · intro data doc modalOptions containerEl
    rfl

/-- C10: a caller-supplied `imageQuality` of `0` is falsy, so the renderer
configuration falls back to `0.9` (= 90/100); any nonzero `imageQuality` `n`
yields `n / 100`. -/
theorem exportToPDF_imageQuality :
    (∀ (data : Option PluginData) (tree : Dom) (doc : CVDocument)
        (options : PartialPDFExportOptions),
        options.imageQuality = some 0 →
        (ExportService.exportToPDF data tree doc options).html2pdfOptions.image.quality = 9/10)
    ∧ (∀ (data : Option PluginData) (tree : Dom) (doc : CVDocument)
        (options : PartialPDFExportOptions) (n : ℚ),
        n ≠ 0 → options.imageQuality = some n →
        (ExportService.exportToPDF data tree doc options).html2pdfOptions.image.quality = n / 100) := by
  constructor
  · intro data tree doc options h
    show jsOrOptNum (mergeExportOptions doc options).imageQuality 90 / 100 = 9/10
    rw [mergeExportOptions]
    simp only [h, Option.getD_some, jsOrOptNum]
    norm_num
  · intro data tree doc options n hn h
    show jsOrOptNum (mergeExportOptions doc options).imageQuality 90 / 100 = n / 100
    rw [mergeExportOptions]
    simp only [h, Option.getD_some, jsOrOptNum, if_neg hn]

/-- Witness for `exportToPDF_imageQuality` at `imageQuality = 0` and `75`. -/
theorem exportToPDF_imageQuality_witness :
    (ExportService.exportToPDF none (Dom.el "div" [] [] [] []) sampleDoc
        { imageQuality := some 0 }).html2pdfOptions.image.quality = 9/10
    ∧ (ExportService.exportToPDF none (Dom.el "div" [] [] [] []) sampleDoc
        { imageQuality := some 75 }).html2pdfOptions.image.quality = 75/100 :=
  ⟨exportToPDF_imageQuality.1 none (Dom.el "div" [] [] [] []) sampleDoc
      { imageQuality := some 0 } rfl,
   exportToPDF_imageQuality.2 none (Dom.el "div" [] [] [] []) sampleDoc
      { imageQuality := some 75 } 75 (by norm_num) rfl⟩

/-! ## String rewriting machinery

The markdown services chain JavaScript `String.prototype.replace` calls with
global regexes. Each regex used by the code has the shape
"literal prefix, then lazily captured arguments with fixed closing
delimiters", so each is embedded as a dedicated scanner over `List Char`.
`replace` finds matches left-to-right in the original string and never
rescans its own output; the scanners below do the same, consuming at least
one character per step (a fuel argument bounded by the string length keeps
the recursion structural, so everything evaluates in the kernel). -/

/-- The characters JS `.` does not match (line terminators). -/
def isJsLineTerm (c : Char) : Bool :=
  c = '\n' || c = '\r' || c = '\u2028' || c = '\u2029'

/-- JS `\s` whitespace (the common subset; the exotic Unicode spaces never
occur in this pipeline). -/
def isJsWhitespace (c : Char) : Bool :=
  c = ' ' || c = '\t' || c = '\n' || c = '\r' || c = '\x0b' || c = '\x0c'
  || c = '\u00a0' || c = '\u2028' || c = '\u2029' || c = '\ufeff'

/-- Scan `(.*?)c` (`noNl = true`) or `([^c]*)c` (`noNl = false`): shortest
capture up to the closing character, returning (capture, rest after the
close). -/
def scanToClose (close : Char) (noNl : Bool) : List Char → Option (List Char × List Char)
  | [] => none
  | c :: cs =>
    if c = close then some ([], cs)
    else if noNl && isJsLineTerm c then none
    else
      match scanToClose close noNl cs with
      | some (cap, rest) => some (c :: cap, rest)
      | none => none

/-- Scan `(.*?)seq`: shortest non-line-terminator capture up to the closing
character sequence. -/
def scanToSeq (seq : List Char) : List Char → Option (List Char × List Char)
  | [] => none
  | c :: cs =>
    if seq.isPrefixOf (c :: cs) then some ([], (c :: cs).drop seq.length)
    else if isJsLineTerm c then none
    else
      match scanToSeq seq cs with
      | some (cap, rest) => some (c :: cap, rest)
      | none => none

/-- Scan `([^}]+)\}`: nonempty capture of non-`}` characters (newlines
allowed) up to the closing brace. -/
def scanArg1 (s : List Char) : Option (List Char × List Char) :=
  match scanToClose '\x7d' false s with
  | some ([], _) => none
  | r => r

/-- Global replace of a fixed literal pattern (`pat` nonempty). -/
def replaceLitGo (pat repl : List Char) : ℕ → List Char → List Char
  | 0, s => s
  | _ + 1, [] => []
  | fuel + 1, c :: cs =>
    if pat.isPrefixOf (c :: cs) then
      repl ++ replaceLitGo pat repl fuel ((c :: cs).drop pat.length)
    else c :: replaceLitGo pat repl fuel cs

def replaceLit (pat repl : List Char) (s : List Char) : List Char :=
  replaceLitGo pat repl s.length s

/-- Global replace of "prefix `pre` then one scanned argument". When the
prefix matches but the argument scan fails, the regex fails at this start
position and the scan resumes one character later, exactly like the JS
engine. -/
def replaceCmd1Go (pre : List Char) (scan : List Char → Option (List Char × List Char))
    (build : List Char → List Char) : ℕ → List Char → List Char
  | 0, s => s
  | _ + 1, [] => []
  | fuel + 1, c :: cs =>
    if pre.isPrefixOf (c :: cs) then
      match scan ((c :: cs).drop pre.length) with
      | some (arg, rest) => build arg ++ replaceCmd1Go pre scan build fuel rest
      | none => c :: replaceCmd1Go pre scan build fuel cs
    else c :: replaceCmd1Go pre scan build fuel cs

def replaceCmd1 (pre : List Char) (scan : List Char → Option (List Char × List Char))
    (build : List Char → List Char) (s : List Char) : List Char :=
  replaceCmd1Go pre scan build s.length s

/-- Global replace of "prefix matched by `preMatch`, then two scanned
arguments separated by `\x7b`". `preMatch` returns the rest after the
matched prefix (this also covers the mis-escaped regexes whose first
pattern item is a character class such as `\d`). -/
def replaceCmd2Go (preMatch : List Char → Option (List Char))
    (scan1 scan2 : List Char → Option (List Char × List Char))
    (build : List Char → List Char → List Char) : ℕ → List Char → List Char
  | 0, s => s
  | _ + 1, [] => []
  | fuel + 1, c :: cs =>
    match preMatch (c :: cs) with
    | some afterPre =>
      (match scan1 afterPre with
       | some (arg1, rest1) =>
         (match rest1 with
          | '\x7b' :: rest2 =>
            (match scan2 rest2 with
             | some (arg2, rest3) => build arg1 arg2 ++ replaceCmd2Go preMatch scan1 scan2 build fuel rest3
             | none => c :: replaceCmd2Go preMatch scan1 scan2 build fuel cs)
          | _ => c :: replaceCmd2Go preMatch scan1 scan2 build fuel cs)
       | none => c :: replaceCmd2Go preMatch scan1 scan2 build fuel cs)
    | none => c :: replaceCmd2Go preMatch scan1 scan2 build fuel cs

def replaceCmd2 (preMatch : List Char → Option (List Char))
    (scan1 scan2 : List Char → Option (List Char × List Char))
    (build : List Char → List Char → List Char) (s : List Char) : List Char :=
  replaceCmd2Go preMatch scan1 scan2 build s.length s

/-- Literal-prefix matcher. -/
def litPre (pat : List Char) (s : List Char) : Option (List Char) :=
  if pat.isPrefixOf s then some (s.drop pat.length) else none

/-- Does `pat` occur as a substring? -/
def containsSub (pat : List Char) : List Char → Bool
  | [] => decide (pat = [])
  | c :: cs => pat.isPrefixOf (c :: cs) || containsSub pat cs

/-- Split on `'\n'` (the JS multiline `^`/`$` anchors as used here; no
embedded input uses `\r`). -/
def splitOnNl : List Char → List (List Char)
  | [] => [[]]
  | c :: cs =>
    if c = '\n' then [] :: splitOnNl cs
    else
      match splitOnNl cs with
      | line :: rest => (c :: line) :: rest
      | [] => [[c]]

def joinNl : List (List Char) → List Char
  | [] => []
  | [l] => l
  | l :: ls => l ++ '\n' :: joinNl ls

/-- Apply a per-line rewrite (for the `/^.../gm` and `/...$/gm` rules). -/
def mapLines (f : List Char → List Char) (s : List Char) : List Char :=
  joinNl ((splitOnNl s).map f)

/-- `^# (.*$)` → `<h1>$1</h1>` on one line (and the `##`/`###` variants). -/
def headingLine (hashes : List Char) (openTag closeTag : List Char) (line : List Char) :
    List Char :=
  if hashes.isPrefixOf line then openTag ++ line.drop hashes.length ++ closeTag
  else line

/-- Find the first occurrence of `pat`, splitting the string around it. -/
def splitFirstSub (pat : List Char) : List Char → Option (List Char × List Char)
  | [] => none
  | c :: cs =>
    if pat.isPrefixOf (c :: cs) then some ([], (c :: cs).drop pat.length)
    else
      match splitFirstSub pat cs with
      | some (before, rest) => some (c :: before, rest)
      | none => none

/-- `- (.*$)` → `<li>$1</li>` on one line: the pattern is not anchored, so
the first `"- "` anywhere in the line starts the match, which then runs to
the end of the line. -/
def liLine (line : List Char) : List Char :=
  match splitFirstSub ('-' :: ' ' :: []) line with
  | some (before, after) => before ++ "<li>".data ++ after ++ "</li>".data
  | none => line

/-! ## Markup transformation

`MarkdownService.processLatexStyleCommands` (the Markup Transformer of the
live path) and `ExportService.processMarkdown` (the export path's
"simplified" processor). The export path's directive regexes are written
with single backslashes inside regex literals, so `\c`, `\d` and `\t` are
control-character / class escapes: `/\cvtag\{...}/` matches `U+0016`
(ctrl-V) followed by `tag{...}`, `/\daterange\{...}/` matches a digit
followed by `aterange{...}`, and `/\textbf\{...}/` matches a tab followed by
`extbf{...}`. Only `/\\newpage/` is escaped correctly. -/

def parseNatDigits (ds : List Char) : ℕ :=
  ds.foldl (fun acc c => 10 * acc + (c.toNat - 48)) 0

/-- The optional `\[(\d+)px\]` group of the custom-spacing rule. -/
def scanSpacingOpt : List Char → Option (ℕ × List Char)
  | '[' :: rest =>
    let ds := rest.takeWhile Char.isDigit
    if ds = [] then none
    else if "px]".data.isPrefixOf (rest.drop ds.length) then
      some (parseNatDigits ds, (rest.drop ds.length).drop 3)
    else none
  | _ => none

def spacingDiv (px : ℕ) : List Char :=
  ("<div style=\"height: " ++ toString px ++ "px;\"></div>").data

/-- `/\\\\(\[(\d+)px\])?/g`: two literal backslashes with an optional
pixel-count suffix; the replacement callback defaults to 10px. -/
def replaceSpacingGo : ℕ → List Char → List Char
  | 0, s => s
  | _ + 1, [] => []
  | fuel + 1, c :: cs =>
    if c = '\\' then
      match cs with
      | '\\' :: rest =>
        (match scanSpacingOpt rest with
         | some (px, rest2) => spacingDiv px ++ replaceSpacingGo fuel rest2
         | none => spacingDiv 10 ++ replaceSpacingGo fuel rest)
      | _ => c :: replaceSpacingGo fuel cs
    else c :: replaceSpacingGo fuel cs

def replaceSpacing (s : List Char) : List Char :=
  replaceSpacingGo s.length s

def pageBreakDivHtml : List Char := "<div class=\"oh-my-cv-page-break\"></div>".data

def skillBuild (name pct : List Char) : List Char :=
  "<div class=\"oh-my-cv-skill\"><div class=\"oh-my-cv-skill-name\">".data ++ name
  ++ "</div><div class=\"oh-my-cv-skill-level\" style=\"width: ".data ++ pct
  ++ "%;\"></div></div>".data

/-- The preview date-range replacement. The separator in the source file is
the bytes `\u00e2 \u20ac \u201c` (a mojibake en dash). -/
def daterangeBuildPreview (a b : List Char) : List Char :=
  "<div class=\"oh-my-cv-date-range\"><span class=\"oh-my-cv-date-start\">".data ++ a
  ++ "</span> \u00e2\u20ac\u201c <span class=\"oh-my-cv-date-end\">".data ++ b
  ++ "</span></div>".data

/-- The export date-range replacement (a proper `\u2013` en dash). -/
def daterangeBuildExport (a b : List Char) : List Char :=
  "<div class=\"oh-my-cv-date-range\"><span class=\"oh-my-cv-date-start\">".data ++ a
  ++ "</span> \u2013 <span class=\"oh-my-cv-date-end\">".data ++ b
  ++ "</span></div>".data

/-- `MarkdownService.processLatexStyleCommands`: the chained `replace` calls,
in source order. -/
def MarkdownService.processLatexStyleCommands (content : String) : String :=
  let p := content.data
  let p := replaceLit "\\newpage".data pageBreakDivHtml p
  let p := replaceSpacing p
  let p := replaceCmd1 "\\textbf\x7b".data scanArg1
      (fun a => "<strong>".data ++ a ++ "</strong>".data) p
  let p := replaceCmd1 "\\textit\x7b".data scanArg1
      (fun a => "<em>".data ++ a ++ "</em>".data) p
  let p := replaceCmd1 "\\underline\x7b".data scanArg1
      (fun a => "<u>".data ++ a ++ "</u>".data) p
  let p := replaceCmd1 "\\textsc\x7b".data scanArg1
      (fun a => "<span class=\"small-caps\">".data ++ a ++ "</span>".data) p
  let p := replaceCmd1 "\\cvtag\x7b".data scanArg1
      (fun a => "<span class=\"oh-my-cv-tag\">".data ++ a ++ "</span>".data) p
  let p := replaceCmd2 (litPre "\\cvskill\x7b".data) scanArg1 scanArg1 skillBuild p
  let p := replaceCmd2 (litPre "\\daterange\x7b".data) scanArg1 scanArg1 daterangeBuildPreview p
  ⟨p⟩

/-- The mis-escaped `/\daterange\{(.*?)\}\{(.*?)\}/` prefix: any digit
followed by `aterange{`. -/
def digitDaterangePre (s : List Char) : Option (List Char) :=
  match s with
  | c :: rest =>
    if c.isDigit && "aterange\x7b".data.isPrefixOf rest then some (rest.drop 9)
    else none
  | [] => none

/-- One li-run item: `<li>.*?<\/li>` (lazy, `.` excludes line
terminators). -/
def parseLi (s : List Char) : Option (List Char × List Char) :=
  if "<li>".data.isPrefixOf s then
    match scanToSeq "</li>".data (s.drop 4) with
    | some (cap, rest) => some ("<li>".data ++ cap ++ "</li>".data, rest)
    | none => none
  else none

/-- The greedy `(\s*<li>.*?<\/li>)*` continuation of the list-wrapping
regex. -/
def parseLiRunGo : ℕ → List Char → (List Char × List Char)
  | 0, s => ([], s)
  | fuel + 1, s =>
    let ws := s.takeWhile isJsWhitespace
    match parseLi (s.drop ws.length) with
    | some (m, rest2) =>
      let r := parseLiRunGo fuel rest2
      (ws ++ m ++ r.1, r.2)
    | none => ([], s)

/-- `/<li>.*?<\/li>(\s*<li>.*?<\/li>)*/g` → wrap each run of adjacent list
items in a `ul.oh-my-cv-list`. -/
def wrapListsGo : ℕ → List Char → List Char
  | 0, s => s
  | _ + 1, [] => []
  | fuel + 1, c :: cs =>
    match parseLi (c :: cs) with
    | some (m, rest) =>
      let r := parseLiRunGo fuel rest
      "<ul class=\"oh-my-cv-list\">".data ++ m ++ r.1 ++ "</ul>".data ++ wrapListsGo fuel r.2
    | none => c :: wrapListsGo fuel cs

def wrapLists (s : List Char) : List Char :=
  wrapListsGo s.length s

/-- `ExportService.processMarkdown`: the export path's chained `replace`
calls, in source order, including the mis-escaped directive regexes. -/
def ExportService.processMarkdown (markdown : String) : String :=
  let p := markdown.data
  let p := mapLines (headingLine "# ".data "<h1>".data "</h1>".data) p
  let p := mapLines (headingLine "## ".data "<h2>".data "</h2>".data) p
  let p := mapLines (headingLine "### ".data "<h3>".data "</h3>".data) p
  let p := replaceCmd1 "**".data (scanToSeq "**".data)
      (fun a => "<strong>".data ++ a ++ "</strong>".data) p
  let p := replaceCmd1 "*".data (scanToClose '*' true)
      (fun a => "<em>".data ++ a ++ "</em>".data) p
  let p := mapLines liLine p
  let p := replaceCmd1 ('\x16' :: "tag\x7b".data) (scanToClose '\x7d' true)
      (fun a => "<span class=\"oh-my-cv-tag\">".data ++ a ++ "</span>".data) p
  let p := replaceCmd2 (litPre ('\x16' :: "skill\x7b".data)) (scanToClose '\x7d' true)
      (scanToClose '\x7d' true) skillBuild p
  let p := replaceCmd2 digitDaterangePre (scanToClose '\x7d' true) (scanToClose '\x7d' true)
      daterangeBuildExport p
  let p := replaceLit "\\newpage".data pageBreakDivHtml p
  let p := replaceCmd1 ('\t' :: "extbf\x7b".data) (scanToClose '\x7d' true)
      (fun a => "<strong>".data ++ a ++ "</strong>".data) p
  let p := replaceCmd1 ('\t' :: "extit\x7b".data) (scanToClose '\x7d' true)
      (fun a => "<em>".data ++ a ++ "</em>".data) p
  let p := replaceCmd1 ('\t' :: "extsc\x7b".data) (scanToClose '\x7d' true)
      (fun a => "<span class=\"small-caps\">".data ++ a ++ "</span>".data) p
  let p := wrapLists p
  ⟨p⟩

/-- Modelled from the spec: the live path hands the processed string to
Obsidian's `MarkdownRenderer` (an external collaborator outside this
repository); per spec section 4.2 a `# text` line becomes a level-1 heading
node, and other lines are taken as already-rendered fragments. Only the
fragment shapes needed by the claims are modelled. -/
def specRenderLines (s : String) : List Dom :=
  (splitOnNl s.data).map fun line =>
    if "# ".data.isPrefixOf line then
      Dom.el "h1" [] [] [] [Dom.text (String.mk (line.drop 2))]
    else Dom.text (String.mk line)

/-- C2 (counterexample): the export path's HTML differs from the Markup
Transformer's on the content `\cvtag{Go}`: the transformer emits the tag
span, while the export path's mis-escaped regex (`\c` is a control escape)
leaves the directive untouched. -/
theorem exportPath_cvtag_divergence :
    MarkdownService.processLatexStyleCommands "\\cvtag\x7bGo\x7d"
        = "<span class=\"oh-my-cv-tag\">Go</span>"
    ∧ ExportService.processMarkdown "\\cvtag\x7bGo\x7d" = "\\cvtag\x7bGo\x7d"
    ∧ MarkdownService.processLatexStyleCommands "\\cvtag\x7bGo\x7d"
        ≠ ExportService.processMarkdown "\\cvtag\x7bGo\x7d" := by
  exact ⟨by decide, by decide, by decide⟩

set_option maxRecDepth 40000 in
/-- C2 (amended): the two entry points agree on `\newpage` (both emit the
page-break div), but on every other directive they differ: the export path's
regexes for `\cvtag`, `\cvskill`, `\daterange`, `\textbf`, `\textit`,
`\textsc` are mis-escaped (`\c`/`\d`/`\t` are control/class escapes), so
those backslash directives pass through the export path unchanged while the
Markup Transformer converts them; the export regexes fire only on their
mis-escaped shapes (e.g. ctrl-V + `tag{...}`), and even the date-range
replacements use different dash bytes. -/
theorem export_preview_markup_comparison :
    ExportService.processMarkdown "\\newpage"
        = MarkdownService.processLatexStyleCommands "\\newpage"
    ∧ ExportService.processMarkdown "\\cvskill\x7bX\x7d\x7b50\x7d" = "\\cvskill\x7bX\x7d\x7b50\x7d"
    ∧ ExportService.processMarkdown "\\daterange\x7b2020\x7d\x7bPresent\x7d"
        = "\\daterange\x7b2020\x7d\x7bPresent\x7d"
    ∧ ExportService.processMarkdown "\\textbf\x7bHi\x7d" = "\\textbf\x7bHi\x7d"
    ∧ ExportService.processMarkdown "\\textit\x7bHi\x7d" = "\\textit\x7bHi\x7d"
    ∧ ExportService.processMarkdown "\\textsc\x7bHi\x7d" = "\\textsc\x7bHi\x7d"
    ∧ MarkdownService.processLatexStyleCommands "\\cvskill\x7bX\x7d\x7b50\x7d"
        ≠ "\\cvskill\x7bX\x7d\x7b50\x7d"
    ∧ MarkdownService.processLatexStyleCommands "\\daterange\x7b2020\x7d\x7bPresent\x7d"
        ≠ "\\daterange\x7b2020\x7d\x7bPresent\x7d"
    ∧ MarkdownService.processLatexStyleCommands "\\textbf\x7bHi\x7d" ≠ "\\textbf\x7bHi\x7d"
    ∧ MarkdownService.processLatexStyleCommands "\\textit\x7bHi\x7d" ≠ "\\textit\x7bHi\x7d"
    ∧ MarkdownService.processLatexStyleCommands "\\textsc\x7bHi\x7d" ≠ "\\textsc\x7bHi\x7d"
    ∧ ExportService.processMarkdown "\x16tag\x7bGo\x7d"
        = "<span class=\"oh-my-cv-tag\">Go</span>" := by
  exact ⟨by decide, by decide, by decide, by decide, by decide, by decide, by decide,
    by decide, by decide, by decide, by decide, by decide⟩

/-! ### Identity lemmas for the replace machinery -/

theorem replaceLitGo_id (pat repl : List Char) (fuel : ℕ) (s : List Char)
    (h : ∀ t, t <:+ s → pat.isPrefixOf t = false) :
    replaceLitGo pat repl fuel s = s := by
  induction fuel generalizing s with
  | zero => rfl
  | succ fuel ih =>
    cases s with
    | nil => rfl
    | cons c cs =>
      rw [replaceLitGo]
      rw [h (c :: cs) (List.suffix_refl _)]
      simp only [Bool.false_eq_true, if_false]
      rw [ih cs fun t ht => h t (ht.trans (List.suffix_cons c cs))]

theorem replaceLit_id (pat repl : List Char) (s : List Char)
    (h : ∀ t, t <:+ s → pat.isPrefixOf t = false) : replaceLit pat repl s = s :=
  replaceLitGo_id pat repl s.length s h

theorem replaceCmd1Go_id (pre : List Char)
    (scan : List Char → Option (List Char × List Char)) (build : List Char → List Char)
    (fuel : ℕ) (s : List Char)
    (h : ∀ t, t <:+ s → pre.isPrefixOf t = false) :
    replaceCmd1Go pre scan build fuel s = s := by
  induction fuel generalizing s with
  | zero => rfl
  | succ fuel ih =>
    cases s with
    | nil => rfl
    | cons c cs =>
      rw [replaceCmd1Go]
      rw [h (c :: cs) (List.suffix_refl _)]
      simp only [Bool.false_eq_true, if_false]
      rw [ih cs fun t ht => h t (ht.trans (List.suffix_cons c cs))]

theorem replaceCmd1_id (pre : List Char)
    (scan : List Char → Option (List Char × List Char)) (build : List Char → List Char)
    (s : List Char) (h : ∀ t, t <:+ s → pre.isPrefixOf t = false) :
    replaceCmd1 pre scan build s = s :=
  replaceCmd1Go_id pre scan build s.length s h

theorem replaceCmd2Go_id (preMatch : List Char → Option (List Char))
    (scan1 scan2 : List Char → Option (List Char × List Char))
    (build : List Char → List Char → List Char) (fuel : ℕ) (s : List Char)
    (h : ∀ t, t <:+ s → preMatch t = none) :
    replaceCmd2Go preMatch scan1 scan2 build fuel s = s := by
  induction fuel generalizing s with
  | zero => rfl
  | succ fuel ih =>
    cases s with
    | nil => rfl
    | cons c cs =>
      rw [replaceCmd2Go]
      rw [h (c :: cs) (List.suffix_refl _)]
      rw [ih cs fun t ht => h t (ht.trans (List.suffix_cons c cs))]

theorem replaceCmd2_id (preMatch : List Char → Option (List Char))
    (scan1 scan2 : List Char → Option (List Char × List Char))
    (build : List Char → List Char → List Char) (s : List Char)
    (h : ∀ t, t <:+ s → preMatch t = none) :
    replaceCmd2 preMatch scan1 scan2 build s = s :=
  replaceCmd2Go_id preMatch scan1 scan2 build s.length s h

theorem replaceSpacingGo_nil (fuel : ℕ) : replaceSpacingGo fuel [] = [] := by
  cases fuel <;> rfl

/-- When no two consecutive backslashes start here, one step of
`replaceSpacingGo` just keeps the head character. -/
theorem replaceSpacingGo_no_bs (fuel : ℕ) (c : Char) (cs : List Char)
    (hnb : (('\\' :: '\\' :: []).isPrefixOf (c :: cs)) = false) :
    replaceSpacingGo (fuel + 1) (c :: cs) = c :: replaceSpacingGo fuel cs := by
  cases cs with
  | nil =>
    have he := replaceSpacingGo.eq_4 fuel c [] (by intro rest hr; cases hr)
    rw [he]
    split <;> rfl
  | cons c2 cs2 =>
    by_cases hc2 : c2 = '\\'
    · subst hc2
      have hc : ¬ c = '\\' := by
        intro hcc
        subst hcc
        simp [List.isPrefixOf] at hnb
      have he := replaceSpacingGo.eq_3 fuel c cs2
      rw [if_neg hc] at he
      exact he
    · have he := replaceSpacingGo.eq_4 fuel c (c2 :: cs2)
        (fun rest hr => hc2 (congrArg List.headI hr))
      rw [he]
      split <;> rfl

theorem replaceSpacingGo_id (fuel : ℕ) (s : List Char)
    (h : ∀ t, t <:+ s → ('\\' :: '\\' :: []).isPrefixOf t = false) :
    replaceSpacingGo fuel s = s := by
  induction fuel generalizing s with
  | zero => rfl
  | succ fuel ih =>
    cases s with
    | nil => rfl
    | cons c cs =>
      rw [replaceSpacingGo_no_bs fuel c cs (h (c :: cs) (List.suffix_refl _)),
        ih cs fun t ht => h t (ht.trans (List.suffix_cons c cs))]

theorem replaceSpacing_id (s : List Char)
    (h : ∀ t, t <:+ s → ('\\' :: '\\' :: []).isPrefixOf t = false) :
    replaceSpacing s = s :=
  replaceSpacingGo_id s.length s h

theorem isPrefixOf_false_of_head_notMem (h0 : Char) (pt : List Char) (s : List Char)
    (hmem : h0 ∉ s) : ∀ t, t <:+ s → ((h0 :: pt).isPrefixOf t) = false := by
  intro t hsuf
  cases t with
  | nil => rfl
  | cons c cs =>
    by_cases hc : (h0 == c) = true
    · exfalso
      have : h0 = c := by simpa using hc
      subst this
      exact hmem (hsuf.subset (List.mem_cons_self h0 cs))
    · have hc' : (h0 == c) = false := by simpa using hc
      simp [List.isPrefixOf, hc']

/-- For a string of the shape `'\\' :: R` where `R` contains no backslash
and the pattern tail does not match at position 0, a backslash-headed
pattern matches nowhere. -/
theorem prefix_false_on_bs_string (ptail R : List Char)
    (hR : '\\' ∉ R) (h0 : ptail.isPrefixOf R = false) :
    ∀ t, t <:+ ('\\' :: R) → (('\\' :: ptail).isPrefixOf t) = false := by
  intro t hsuf
  rcases List.suffix_cons_iff.mp hsuf with rfl | hsuf'
  · simp [List.isPrefixOf, h0]
  · exact isPrefixOf_false_of_head_notMem '\\' ptail R hR t hsuf'

theorem litPre_none (pat t : List Char) (h : pat.isPrefixOf t = false) :
    litPre pat t = none := by
  simp [litPre, h]

theorem litPre_append (pat t : List Char) : litPre pat (pat ++ t) = some t := by
  rw [litPre, if_pos (List.isPrefixOf_iff_prefix.mpr (List.prefix_append pat t)),
    List.drop_left]

theorem scanToClose_notin_concat (close : Char) (xs rest : List Char)
    (hx : ∀ c ∈ xs, (c == close) = false) :
    scanToClose close false (xs ++ close :: rest) = some (xs, rest) := by
  induction xs with
  | nil =>
    rw [List.nil_append, scanToClose, if_pos rfl]
  | cons x xs ih =>
    have hxc : ¬ x = close := by
      have := hx x (List.mem_cons_self x xs)
      simpa using this
    rw [List.cons_append, scanToClose, if_neg hxc]
    simp only [Bool.false_and, Bool.false_eq_true, if_false]
    rw [ih fun c hc => hx c (List.mem_cons_of_mem x hc)]

theorem scanArg1_concat (xs rest : List Char) (hne : xs ≠ [])
    (hx : ∀ c ∈ xs, (c == '\x7d') = false) :
    scanArg1 (xs ++ '\x7d' :: rest) = some (xs, rest) := by
  rw [scanArg1, scanToClose_notin_concat _ _ _ hx]
  rcases xs with _ | ⟨x, xs⟩
  · exact absurd rfl hne
  · rfl

theorem replaceCmd2Go_nil (preMatch : List Char → Option (List Char))
    (scan1 scan2 : List Char → Option (List Char × List Char))
    (build : List Char → List Char → List Char) (fuel : ℕ) :
    replaceCmd2Go preMatch scan1 scan2 build fuel [] = [] := by
  cases fuel <;> rfl

/-- One step of `replaceCmd2Go` when the prefix matches and both argument
scans succeed. -/
theorem replaceCmd2Go_cons_matched {preMatch : List Char → Option (List Char)}
    {scan1 scan2 : List Char → Option (List Char × List Char)}
    (build : List Char → List Char → List Char) (f : ℕ)
    {c : Char} {cs afterPre arg1 arg2 rest1 rest3 : List Char}
    (h1 : preMatch (c :: cs) = some afterPre)
    (h2 : scan1 afterPre = some (arg1, '\x7b' :: rest1))
    (h3 : scan2 rest1 = some (arg2, rest3)) :
    replaceCmd2Go preMatch scan1 scan2 build (f + 1) (c :: cs)
      = build arg1 arg2 ++ replaceCmd2Go preMatch scan1 scan2 build f rest3 := by
  rw [replaceCmd2Go]
  simp only [h1, h2, h3]

/-- A single full match of the two-argument command at the start of the
string (with nothing after it). -/
theorem replaceCmd2Go_full_match (pre name pct : List Char) (p0 : Char) (pre' : List Char)
    (hpre : pre = p0 :: pre')
    (build : List Char → List Char → List Char)
    (hscan1 : scanArg1 (name ++ ('\x7d' :: ('\x7b' :: (pct ++ ['\x7d']))))
        = some (name, '\x7b' :: (pct ++ ['\x7d'])))
    (hscan2 : scanArg1 (pct ++ ['\x7d']) = some (pct, []))
    (f : ℕ) :
    replaceCmd2Go (litPre pre) scanArg1 scanArg1 build (f + 1)
        (pre ++ (name ++ ('\x7d' :: ('\x7b' :: (pct ++ ['\x7d'])))))
      = build name pct := by
  subst hpre
  have hpm : litPre (p0 :: pre')
      (p0 :: (pre' ++ (name ++ ('\x7d' :: ('\x7b' :: (pct ++ ['\x7d']))))))
      = some (name ++ ('\x7d' :: ('\x7b' :: (pct ++ ['\x7d'])))) := by
    have hx := litPre_append (p0 :: pre')
      (name ++ ('\x7d' :: ('\x7b' :: (pct ++ ['\x7d']))))
    rw [List.cons_append] at hx
    exact hx
  rw [List.cons_append, replaceCmd2Go_cons_matched build f hpm hscan1 hscan2,
    replaceCmd2Go_nil, List.append_nil]

theorem clean_not_mem (bad : Char) (hbad : bad.isAlphanum = false) (hbad2 : bad ≠ ' ')
    (l : List Char) (hc : ∀ c ∈ l, c.isAlphanum = true ∨ c = ' ') : bad ∉ l := by
  intro hmem
  rcases hc bad hmem with h | h
  · rw [h] at hbad
    simp at hbad
  · exact hbad2 h

theorem clean_beq_false (bad : Char) (hbad : bad.isAlphanum = false) (hbad2 : bad ≠ ' ')
    (l : List Char) (hc : ∀ c ∈ l, c.isAlphanum = true ∨ c = ' ') :
    ∀ c ∈ l, (c == bad) = false := by
  intro c hmem
  rcases hc c hmem with h | h
  · by_contra hb
    have : c = bad := by simpa using hb
    subst this
    rw [h] at hbad
    simp at hbad
  · subst h
    by_contra hb
    have : ' ' = bad := by simpa using hb
    exact hbad2 this.symm

/-- The Markup Transformer's let-chain, written out (definitional). -/
theorem processLatex_eq_chain (l : List Char) :
    MarkdownService.processLatexStyleCommands ⟨l⟩
      = ⟨replaceCmd2 (litPre "\\daterange\x7b".data) scanArg1 scanArg1 daterangeBuildPreview
         (replaceCmd2 (litPre "\\cvskill\x7b".data) scanArg1 scanArg1 skillBuild
          (replaceCmd1 "\\cvtag\x7b".data scanArg1
            (fun a => "<span class=\"oh-my-cv-tag\">".data ++ a ++ "</span>".data)
           (replaceCmd1 "\\textsc\x7b".data scanArg1
             (fun a => "<span class=\"small-caps\">".data ++ a ++ "</span>".data)
            (replaceCmd1 "\\underline\x7b".data scanArg1
              (fun a => "<u>".data ++ a ++ "</u>".data)
             (replaceCmd1 "\\textit\x7b".data scanArg1
               (fun a => "<em>".data ++ a ++ "</em>".data)
              (replaceCmd1 "\\textbf\x7b".data scanArg1
                (fun a => "<strong>".data ++ a ++ "</strong>".data)
               (replaceSpacing
                (replaceLit "\\newpage".data pageBreakDivHtml l))))))))⟩ := rfl

/-- When no directive except `\cvskill` can match anywhere, the Markup
Transformer computes exactly the `\cvskill` replacement. -/
theorem processLatex_only_cvskill (S O : List Char)
    (hnp : ∀ t, t <:+ S → (("\\newpage".data : List Char).isPrefixOf t) = false)
    (hsp : ∀ t, t <:+ S → ((['\\', '\\'] : List Char).isPrefixOf t) = false)
    (hbf : ∀ t, t <:+ S → (("\\textbf\x7b".data : List Char).isPrefixOf t) = false)
    (hit : ∀ t, t <:+ S → (("\\textit\x7b".data : List Char).isPrefixOf t) = false)
    (hul : ∀ t, t <:+ S → (("\\underline\x7b".data : List Char).isPrefixOf t) = false)
    (hsc : ∀ t, t <:+ S → (("\\textsc\x7b".data : List Char).isPrefixOf t) = false)
    (htg : ∀ t, t <:+ S → (("\\cvtag\x7b".data : List Char).isPrefixOf t) = false)
    (hskill : replaceCmd2 (litPre "\\cvskill\x7b".data) scanArg1 scanArg1 skillBuild S = O)
    (hdr : ∀ t, t <:+ O → (("\\daterange\x7b".data : List Char).isPrefixOf t) = false) :
    MarkdownService.processLatexStyleCommands ⟨S⟩ = ⟨O⟩ := by
  rw [processLatex_eq_chain,
    replaceLit_id _ _ _ hnp,
    replaceSpacing_id _ hsp,
    replaceCmd1_id _ _ _ _ hbf,
    replaceCmd1_id _ _ _ _ hit,
    replaceCmd1_id _ _ _ _ hul,
    replaceCmd1_id _ _ _ _ hsc,
    replaceCmd1_id _ _ _ _ htg,
    hskill,
    replaceCmd2_id _ _ _ _ _ (fun t ht => litPre_none _ t (hdr t ht))]

theorem replaceCmd2_full_match (pre name pct : List Char) (p0 : Char) (pre' : List Char)
    (hpre : pre = p0 :: pre')
    (build : List Char → List Char → List Char)
    (hscan1 : scanArg1 (name ++ ('\x7d' :: ('\x7b' :: (pct ++ ['\x7d']))))
        = some (name, '\x7b' :: (pct ++ ['\x7d'])))
    (hscan2 : scanArg1 (pct ++ ['\x7d']) = some (pct, [])) :
    replaceCmd2 (litPre pre) scanArg1 scanArg1 build
        (pre ++ (name ++ ('\x7d' :: ('\x7b' :: (pct ++ ['\x7d'])))))
      = build name pct := by
  rw [replaceCmd2]
  subst hpre
  rw [List.cons_append, List.length_cons]
  exact replaceCmd2Go_full_match (p0 :: pre') name pct p0 pre' rfl build hscan1 hscan2 _

/-- On a pure `\cvskill\x7bname\x7d\x7bpct\x7d` input whose arguments are
nonempty and built from alphanumerics and spaces, the Markup Transformer
emits exactly the skill markup with the percent taken literally. -/
theorem processLatex_cvskill_value (name pct : List Char)
    (hname : name ≠ []) (hpct : pct ≠ [])
    (hcn : ∀ c ∈ name, c.isAlphanum = true ∨ c = ' ')
    (hcp : ∀ c ∈ pct, c.isAlphanum = true ∨ c = ' ') :
    MarkdownService.processLatexStyleCommands
        ⟨"\\cvskill\x7b".data ++ (name ++ ('\x7d' :: ('\x7b' :: (pct ++ ['\x7d']))))⟩
      = ⟨skillBuild name pct⟩ := by
  have hRbs : '\\' ∉ "cvskill\x7b".data ++ (name ++ ('\x7d' :: ('\x7b' :: (pct ++ ['\x7d'])))) := by
    intro hmem
    rcases List.mem_append.mp hmem with hm | hm
    · exact absurd hm (by decide)
    · rcases List.mem_append.mp hm with hm2 | hm2
      · exact clean_not_mem '\\' (by decide) (by decide) name hcn hm2
      · rcases List.mem_cons.mp hm2 with he | hm3
        · exact absurd he (by decide)
        · rcases List.mem_cons.mp hm3 with he | hm4
          · exact absurd he (by decide)
          · rcases List.mem_append.mp hm4 with hm5 | hm5
            · exact clean_not_mem '\\' (by decide) (by decide) pct hcp hm5
            · exact absurd hm5 (by decide)
  have hRexp : "cvskill\x7b".data ++ (name ++ ('\x7d' :: ('\x7b' :: (pct ++ ['\x7d']))))
      = 'c' :: 'v' :: 's' :: 'k' :: 'i' :: 'l' :: 'l' :: '\x7b' ::
          (name ++ ('\x7d' :: ('\x7b' :: (pct ++ ['\x7d'])))) := by
    simp [show ("cvskill\x7b".data : List Char)
      = ['c', 'v', 's', 'k', 'i', 'l', 'l', '\x7b'] from by decide]
  have hnp : (('n' :: "ewpage".data).isPrefixOf
      ("cvskill\x7b".data ++ (name ++ ('\x7d' :: ('\x7b' :: (pct ++ ['\x7d'])))))) = false := by
    rw [hRexp]; simp [List.isPrefixOf]
  have hsp : ((['\\'] : List Char).isPrefixOf
      ("cvskill\x7b".data ++ (name ++ ('\x7d' :: ('\x7b' :: (pct ++ ['\x7d'])))))) = false := by
    rw [hRexp]; simp [List.isPrefixOf]
  have hbf : (('t' :: "extbf\x7b".data).isPrefixOf
      ("cvskill\x7b".data ++ (name ++ ('\x7d' :: ('\x7b' :: (pct ++ ['\x7d'])))))) = false := by
    rw [hRexp]; simp [List.isPrefixOf]
  have hit : (('t' :: "extit\x7b".data).isPrefixOf
      ("cvskill\x7b".data ++ (name ++ ('\x7d' :: ('\x7b' :: (pct ++ ['\x7d'])))))) = false := by
    rw [hRexp]; simp [List.isPrefixOf]
  have hul : (('u' :: "nderline\x7b".data).isPrefixOf
      ("cvskill\x7b".data ++ (name ++ ('\x7d' :: ('\x7b' :: (pct ++ ['\x7d'])))))) = false := by
    rw [hRexp]; simp [List.isPrefixOf]
  have hsc : (('t' :: "extsc\x7b".data).isPrefixOf
      ("cvskill\x7b".data ++ (name ++ ('\x7d' :: ('\x7b' :: (pct ++ ['\x7d'])))))) = false := by
    rw [hRexp]; simp [List.isPrefixOf]
  have htg : (('c' :: ('v' :: ('t' :: "ag\x7b".data))).isPrefixOf
      ("cvskill\x7b".data ++ (name ++ ('\x7d' :: ('\x7b' :: (pct ++ ['\x7d'])))))) = false := by
    rw [hRexp]; simp [List.isPrefixOf]
  have hObs : '\\' ∉ skillBuild name pct := by
    intro hmem
    rw [skillBuild] at hmem
    rcases List.mem_append.mp hmem with hmem | hm
    · rcases List.mem_append.mp hmem with hmem | hm
      · rcases List.mem_append.mp hmem with hmem | hm
        · rcases List.mem_append.mp hmem with hm | hm
          · exact absurd hm (by decide)
          · exact clean_not_mem '\\' (by decide) (by decide) name hcn hm
        · exact absurd hm (by decide)
      · exact clean_not_mem '\\' (by decide) (by decide) pct hcp hm
    · exact absurd hm (by decide)
  have hskill : replaceCmd2 (litPre "\\cvskill\x7b".data) scanArg1 scanArg1 skillBuild
      ("\\cvskill\x7b".data ++ (name ++ ('\x7d' :: ('\x7b' :: (pct ++ ['\x7d'])))))
      = skillBuild name pct :=
    replaceCmd2_full_match "\\cvskill\x7b".data name pct '\\' "cvskill\x7b".data
      (by decide) skillBuild
      (scanArg1_concat name ('\x7b' :: (pct ++ ['\x7d'])) hname
        (clean_beq_false '\x7d' (by decide) (by decide) name hcn))
      (scanArg1_concat pct [] hpct
        (clean_beq_false '\x7d' (by decide) (by decide) pct hcp))
  exact processLatex_only_cvskill _ _
    (prefix_false_on_bs_string ('n' :: "ewpage".data) _ hRbs hnp)
    (prefix_false_on_bs_string ['\\'] _ hRbs hsp)
    (prefix_false_on_bs_string ('t' :: "extbf\x7b".data) _ hRbs hbf)
    (prefix_false_on_bs_string ('t' :: "extit\x7b".data) _ hRbs hit)
    (prefix_false_on_bs_string ('u' :: "nderline\x7b".data) _ hRbs hul)
    (prefix_false_on_bs_string ('t' :: "extsc\x7b".data) _ hRbs hsc)
    (prefix_false_on_bs_string ('c' :: ('v' :: ('t' :: "ag\x7b".data))) _ hRbs htg)
    hskill
    (fun t ht => isPrefixOf_false_of_head_notMem '\\' "daterange\x7b".data
      (skillBuild name pct) hObs t ht)

set_option maxRecDepth 40000 in
/-- C7: transforming `# Name\n\cvskill\x7bX\x7d\x7b50\x7d` yields a tree
with a level-1 heading holding text "Name" and a skill element whose bar
width style is exactly "50%"; and in general, for every
`\cvskill\x7bname\x7d\x7bpct\x7d` directive with nonempty arguments made of
alphanumerics and spaces, the Markup Transformer emits the percent value
literally as the bar width (output `skillBuild name pct`, whose style is
`width: pct%;`) with no clamping to [0,100]. -/
theorem cvskill_percent_literal :
    (specRenderLines
        (MarkdownService.processLatexStyleCommands "# Name\n\\cvskill\x7bX\x7d\x7b50\x7d")
      = [Dom.el "h1" [] [] [] [Dom.text "Name"],
         Dom.text "<div class=\"oh-my-cv-skill\"><div class=\"oh-my-cv-skill-name\">X</div><div class=\"oh-my-cv-skill-level\" style=\"width: 50%;\"></div></div>"])
    ∧ (∀ name pct : List Char, name ≠ [] → pct ≠ [] →
        (∀ c ∈ name, c.isAlphanum = true ∨ c = ' ') →
        (∀ c ∈ pct, c.isAlphanum = true ∨ c = ' ') →
        MarkdownService.processLatexStyleCommands
            ⟨"\\cvskill\x7b".data ++ (name ++ ('\x7d' :: ('\x7b' :: (pct ++ ['\x7d']))))⟩
          = ⟨skillBuild name pct⟩) :=
  ⟨by rfl, fun name pct hname hpct hcn hcp =>
    processLatex_cvskill_value name pct hname hpct hcn hcp⟩

set_option maxRecDepth 40000 in
/-- Witness for C7: at `name = "X"` and `pct = "150"` the hypotheses hold
and the emitted bar width is the literal, unclamped `150%`. -/
theorem cvskill_percent_literal_witness :
    MarkdownService.processLatexStyleCommands "\\cvskill\x7bX\x7d\x7b150\x7d"
      = "<div class=\"oh-my-cv-skill\"><div class=\"oh-my-cv-skill-name\">X</div><div class=\"oh-my-cv-skill-level\" style=\"width: 150%;\"></div></div>" := by
  have h := cvskill_percent_literal.2 "X".data "150".data (by decide) (by decide)
    (by decide) (by decide)
  rw [show ("\\cvskill\x7bX\x7d\x7b150\x7d" : String)
      = ⟨"\\cvskill\x7b".data ++ ("X".data ++ ('\x7d' :: ('\x7b' :: ("150".data ++ ['\x7d']))))⟩
      from by decide,
    show ("<div class=\"oh-my-cv-skill\"><div class=\"oh-my-cv-skill-name\">X</div><div class=\"oh-my-cv-skill-level\" style=\"width: 150%;\"></div></div>" : String)
      = ⟨skillBuild "X".data "150".data⟩ from by decide]
  exact h

/-! ### C4: the Casing Normalizer (`MarkdownService.applyCasingRules`) -/

/-- JS regex word characters (`\w`, the set used by `\b`):
`[A-Za-z0-9_]`. -/
def isWordChar (c : Char) : Bool :=
  (97 ≤ c.toNat && c.toNat ≤ 122) || (65 ≤ c.toNat && c.toNat ≤ 90) ||
  (48 ≤ c.toNat && c.toNat ≤ 57) || c.toNat == 95

def wordOpt : Option Char → Bool
  | none => false
  | some c => isWordChar c

/-- JS `\b`: the two sides of the position differ in word-ness (a missing
side counts as non-word). -/
def bdy (l r : Option Char) : Bool := wordOpt l != wordOpt r

/-- Canonicalisation for the `i` flag (non-Unicode mode): ASCII lower-case
letters fold to upper case. Against the ASCII-only patterns of
CASING_RULES no other character can canonicalise onto a pattern character
(the spec forbids a code unit ≥ 128 canonicalising below 128), so every
other character compares as itself. -/
def jsCanon (c : Char) : Char :=
  if 97 ≤ c.toNat && c.toNat ≤ 122 then Char.ofNat (c.toNat - 32) else c

/-- One unit of a compiled CASING_RULES key: a case-insensitive literal,
or the `.` wildcard (any character but a line terminator). -/
inductive PChar
  | lit (c : Char)
  | any
  deriving DecidableEq

def pcharMatch : PChar → Char → Bool
  | .lit l, c => jsCanon l == jsCanon c
  | .any, c => !(isJsLineTerm c)

/-- The keys contain only `[a-z0-9]` and `.`, so `.` is the lone
metacharacter seen by `new RegExp`. -/
def keyPat (k : List Char) : List PChar :=
  k.map fun c => if c = '.' then PChar.any else PChar.lit c

/-- Fixed-length pointwise pattern match. -/
def ciMatches : List PChar → List Char → Bool
  | [], [] => true
  | p :: ps, c :: cs => pcharMatch p c && ciMatches ps cs
  | _, _ => false

/-- The engine's test at one position: `\b` against the previous
character, then the fixed-length pattern, then the trailing `\b`. -/
def scanCond (key : List PChar) (prev : Option Char) (s : List Char) : Bool :=
  match s with
  | [] => false
  | c :: _ => bdy prev (some c) && ciMatches key (s.take key.length)
      && bdy (s.take key.length).getLast? ((s.drop key.length).head?)

/-- `str.replace(/\bkey\b/gi, repl)`: scan left to right; on a match emit
the replacement and resume after it (the previous character for the next
`\b` is the last matched original character); otherwise emit one character
and advance. -/
def replaceWordGo (key : List PChar) (repl : List Char) :
    ℕ → Option Char → List Char → List Char
  | 0, _, s => s
  | _ + 1, _, [] => []
  | fuel + 1, prev, c :: cs =>
    if scanCond key prev (c :: cs) then
      repl ++ replaceWordGo key repl fuel
        (some (((c :: cs).take key.length).getLastD c)) ((c :: cs).drop key.length)
    else c :: replaceWordGo key repl fuel (some c) cs

def replaceWord (k repl s : List Char) : List Char :=
  replaceWordGo (keyPat k) repl s.length none s

/-- `MarkdownService.applyCasingRules`: each CASING_RULES entry applied as
a whole-word case-insensitive global replacement, in insertion order, over
the progressively modified string. -/
def MarkdownService.applyCasingRules (content : String) : String :=
  ⟨CASING_RULES.foldl (fun acc kv => replaceWord kv.1.data kv.2.data acc) content.data⟩

/-- The last original character before the current scan position: `prev`
when nothing has been consumed, else the last consumed character. -/
def lastOpt (prev : Option Char) : List Char → Option Char
  | [] => prev
  | c :: cs => lastOpt (some c) cs

/-- No positional whole-word match of `key` anywhere in `u` (with `prev`
before it) rewrites anything: every such match already reads `repl`. -/
def NoBad (key : List PChar) (repl : List Char) (prev : Option Char) (u : List Char) : Prop :=
  ∀ a m rest, u = a ++ (m ++ rest) → ciMatches key m = true →
    bdy (lastOpt prev a) m.head? = true → bdy m.getLast? rest.head? = true → m = repl

def pcharWordLit : PChar → Bool
  | .lit a => isWordChar a
  | .any => false

def keyWordEnds (key : List PChar) : Bool :=
  (match key.head? with | some p => pcharWordLit p | none => false) &&
  (match key.getLast? with | some p => pcharWordLit p | none => false)

def wordEnds (l : List Char) : Bool :=
  (match l.head? with | some c => isWordChar c | none => false) &&
  (match l.getLast? with | some c => isWordChar c | none => false)

theorem toNat_charOfNat (n : ℕ) (h : Nat.isValidChar n) : (Char.ofNat n).toNat = n := by
  unfold Char.ofNat Char.ofNatAux
  rw [dif_pos h]
  rfl

theorem isWordChar_jsCanon (c : Char) : isWordChar (jsCanon c) = isWordChar c := by
  rw [jsCanon]
  by_cases h : (97 ≤ c.toNat && c.toNat ≤ 122) = true
  · rw [if_pos h]
    simp only [Bool.and_eq_true, decide_eq_true_eq] at h
    have hv : Nat.isValidChar (c.toNat - 32) := Or.inl (by omega)
    have ht := toNat_charOfNat (c.toNat - 32) hv
    rw [isWordChar, isWordChar, ht]
    rw [Bool.eq_iff_iff]
    simp only [Bool.or_eq_true, Bool.and_eq_true, decide_eq_true_eq, beq_iff_eq]
    omega
  · rw [if_neg h]

theorem pcharMatch_lit_word (l c : Char) (h : pcharMatch (.lit l) c = true) :
    isWordChar c = isWordChar l := by
  have he : jsCanon l = jsCanon c := by simpa [pcharMatch] using h
  rw [← isWordChar_jsCanon c, ← he, isWordChar_jsCanon]

theorem ciMatches_length (key : List PChar) (m : List Char) (h : ciMatches key m = true) :
    m.length = key.length := by
  induction key generalizing m with
  | nil =>
    cases m with
    | nil => rfl
    | cons c cs => simp [ciMatches] at h
  | cons p ps ih =>
    cases m with
    | nil => simp [ciMatches] at h
    | cons c cs =>
      rw [ciMatches, Bool.and_eq_true] at h
      simp [ih cs h.2]

theorem ciMatches_ne_nil (key : List PChar) (m : List Char) (hk : key ≠ [])
    (h : ciMatches key m = true) : m ≠ [] := by
  intro hm
  subst hm
  have := ciMatches_length key [] h
  cases key with
  | nil => exact hk rfl
  | cons p ps => simp at this

theorem ciMatches_head_word (key : List PChar) (m : List Char)
    (hke : keyWordEnds key = true) (h : ciMatches key m = true) :
    wordOpt m.head? = true := by
  cases key with
  | nil => simp [keyWordEnds] at hke
  | cons p ps =>
    cases m with
    | nil => simp [ciMatches] at h
    | cons c cs =>
      rw [ciMatches, Bool.and_eq_true] at h
      rw [keyWordEnds, Bool.and_eq_true] at hke
      have hp : pcharWordLit p = true := by simpa using hke.1
      cases p with
      | any => simp [pcharWordLit] at hp
      | lit a =>
        have hwc := pcharMatch_lit_word a c h.1
        rw [List.head?_cons]
        show isWordChar c = true
        rw [hwc]
        simpa [pcharWordLit] using hp

theorem ciMatches_last_word_aux (key : List PChar) (m : List Char)
    (hlast : (match key.getLast? with | some p => pcharWordLit p | none => false) = true)
    (h : ciMatches key m = true) : wordOpt m.getLast? = true := by
  induction key generalizing m with
  | nil => simp at hlast
  | cons p ps ih =>
    cases m with
    | nil => simp [ciMatches] at h
    | cons c cs =>
      rw [ciMatches, Bool.and_eq_true] at h
      cases ps with
      | nil =>
        cases cs with
        | cons d ds => simp [ciMatches] at h
        | nil =>
          simp only [List.getLast?_singleton] at hlast
          cases p with
          | any => simp [pcharWordLit] at hlast
          | lit a =>
            have hwc := pcharMatch_lit_word a c h.1
            simp only [List.getLast?_singleton]
            show isWordChar c = true
            rw [hwc]
            simpa [pcharWordLit] using hlast
      | cons q qs =>
        cases cs with
        | nil => simp [ciMatches] at h
        | cons d ds =>
          rw [List.getLast?_cons_cons]
          exact ih (d :: ds) (by rwa [List.getLast?_cons_cons] at hlast) h.2

theorem ciMatches_last_word (key : List PChar) (m : List Char)
    (hke : keyWordEnds key = true) (h : ciMatches key m = true) :
    wordOpt m.getLast? = true := by
  rw [keyWordEnds, Bool.and_eq_true] at hke
  exact ciMatches_last_word_aux key m hke.2 h

theorem lastOpt_append (prev : Option Char) (a b : List Char) :
    lastOpt prev (a ++ b) = lastOpt (lastOpt prev a) b := by
  induction a generalizing prev with
  | nil => rfl
  | cons c a ih => exact ih (some c)

theorem lastOpt_getLastD (c : Char) (m : List Char) :
    lastOpt (some c) m = some (m.getLastD c) := by
  induction m generalizing c with
  | nil => rfl
  | cons d m ih => rw [lastOpt, ih, List.getLastD_cons]

theorem wordOpt_lastOpt_of_all_word (prev : Option Char) (w : List Char) (hne : w ≠ [])
    (hw : ∀ c ∈ w, isWordChar c = true) : wordOpt (lastOpt prev w) = true := by
  induction w generalizing prev with
  | nil => exact absurd rfl hne
  | cons c w ih =>
    cases w with
    | nil => exact hw c (List.mem_cons_self c [])
    | cons d w' =>
      exact ih (some c) (by simp) (by intro x hx; exact hw x (List.mem_cons_of_mem c hx))

theorem noBad_cons (key : List PChar) (repl : List Char) (prev : Option Char) (c : Char)
    (u : List Char) (h : NoBad key repl prev (c :: u)) : NoBad key repl (some c) u := by
  intro a m rest hdecomp hci hs he
  exact h (c :: a) m rest (by rw [hdecomp]; rfl) hci hs he

theorem noBad_append (key : List PChar) (repl : List Char) (prev : Option Char)
    (x u : List Char) (h : NoBad key repl prev (x ++ u)) :
    NoBad key repl (lastOpt prev x) u := by
  induction x generalizing prev with
  | nil => exact h
  | cons c x ih => exact ih (some c) (noBad_cons key repl prev c (x ++ u) h)

theorem scanCond_true_facts (key : List PChar) (prev : Option Char)
    (c : Char) (cs : List Char) (hk : key ≠ [])
    (h : scanCond key prev (c :: cs) = true) :
    ciMatches key ((c :: cs).take key.length) = true ∧
    bdy prev ((c :: cs).take key.length).head? = true ∧
    bdy ((c :: cs).take key.length).getLast? (((c :: cs).drop key.length).head?) = true := by
  rw [scanCond] at h
  rw [Bool.and_eq_true, Bool.and_eq_true] at h
  obtain ⟨⟨h1, h2⟩, h3⟩ := h
  refine ⟨h2, ?_, h3⟩
  rcases key with _ | ⟨p, ps⟩
  · exact absurd rfl hk
  · rw [List.length_cons, List.take_succ_cons, List.head?_cons]
    exact h1

theorem replaceWordGo_eq_self (key : List PChar) (repl : List Char) (hk : key ≠ [])
    (fuel : ℕ) (prev : Option Char) (u : List Char)
    (h : NoBad key repl prev u) : replaceWordGo key repl fuel prev u = u := by
  induction fuel generalizing prev u with
  | zero => rfl
  | succ fuel ih =>
    cases u with
    | nil => rfl
    | cons c cs =>
      rw [replaceWordGo]
      by_cases hc : scanCond key prev (c :: cs) = true
      · rw [if_pos hc]
        obtain ⟨hci, hs, he⟩ := scanCond_true_facts key prev c cs hk hc
        have hdecomp : c :: cs = (c :: cs).take key.length ++ (c :: cs).drop key.length :=
          (List.take_append_drop _ _).symm
        have hm : (c :: cs).take key.length = repl :=
          h [] _ _ (by rw [List.nil_append]; exact hdecomp) hci hs he
        have hprev : some (((c :: cs).take key.length).getLastD c)
            = lastOpt prev ((c :: cs).take key.length) := by
          rcases key with _ | ⟨p, ps⟩
          · exact absurd rfl hk
          · rw [List.length_cons, List.take_succ_cons, List.getLastD_cons, lastOpt,
              lastOpt_getLastD]
        have hrest : NoBad key repl (some (((c :: cs).take key.length).getLastD c))
            ((c :: cs).drop key.length) := by
          rw [hprev]
          exact noBad_append key repl prev _ _ (by rw [← hdecomp]; exact h)
        rw [ih _ _ hrest, ← hm]
        exact hdecomp.symm
      · rw [if_neg hc, ih _ _ (noBad_cons key repl prev c cs h)]

/-- The scan relation realised by `replaceWordGo`: at each position either
the engine's test fails and the character is kept, or it succeeds and the
matched slice is replaced. -/
inductive Rw (key : List PChar) (repl : List Char) : Option Char → List Char → List Char → Prop
  | nil (prev) : Rw key repl prev [] []
  | keep (prev c u v) : scanCond key prev (c :: u) = false →
      Rw key repl (some c) u v → Rw key repl prev (c :: u) (c :: v)
  | step (prev c u v) : scanCond key prev (c :: u) = true →
      Rw key repl (some (((c :: u).take key.length).getLastD c)) ((c :: u).drop key.length) v →
      Rw key repl prev (c :: u) (repl ++ v)

theorem rw_replaceWordGo (key : List PChar) (repl : List Char) (hk : key ≠ [])
    (fuel : ℕ) (prev : Option Char) (u : List Char) (hfuel : u.length ≤ fuel) :
    Rw key repl prev u (replaceWordGo key repl fuel prev u) := by
  induction fuel generalizing prev u with
  | zero =>
    cases u with
    | nil => exact Rw.nil prev
    | cons c cs => simp at hfuel
  | succ fuel ih =>
    cases u with
    | nil => exact Rw.nil prev
    | cons c cs =>
      rw [replaceWordGo]
      by_cases hc : scanCond key prev (c :: cs) = true
      · rw [if_pos hc]
        refine Rw.step prev c cs _ hc (ih _ _ ?_)
        rcases key with _ | ⟨p, ps⟩
        · exact absurd rfl hk
        · rw [List.length_cons, List.drop_succ_cons, List.length_drop]
          rw [List.length_cons] at hfuel
          omega
      · rw [if_neg hc]
        refine Rw.keep prev c cs _ (by simpa using hc) (ih _ _ ?_)
        rw [List.length_cons] at hfuel
        omega

theorem scanCond_head_word (key : List PChar) (prev : Option Char) (c : Char) (cs : List Char)
    (hk : key ≠ []) (hke : keyWordEnds key = true)
    (h : scanCond key prev (c :: cs) = true) : isWordChar c = true := by
  obtain ⟨hci, hs, he⟩ := scanCond_true_facts key prev c cs hk h
  have hw := ciMatches_head_word key _ hke hci
  rcases key with _ | ⟨p, ps⟩
  · exact absurd rfl hk
  · rw [List.length_cons, List.take_succ_cons, List.head?_cons] at hw
    exact hw

theorem scanCond_prev_nonword (key : List PChar) (prev : Option Char) (c : Char)
    (cs : List Char) (hk : key ≠ []) (hke : keyWordEnds key = true)
    (h : scanCond key prev (c :: cs) = true) : wordOpt prev = false := by
  have hw := scanCond_head_word key prev c cs hk hke h
  rw [scanCond, Bool.and_eq_true, Bool.and_eq_true] at h
  have h1 := h.1.1
  rw [bdy] at h1
  have hsc : wordOpt (some c) = true := hw
  rw [hsc] at h1
  simpa using h1

theorem rw_head_word_eq (key : List PChar) (repl : List Char) (hk : key ≠ [])
    (hke : keyWordEnds key = true) (hre : wordEnds repl = true)
    (prev : Option Char) (u v : List Char) (d : Rw key repl prev u v) :
    wordOpt v.head? = wordOpt u.head? := by
  cases d with
  | nil => rfl
  | keep _ c u' v' hc hd => rfl
  | step _ c u' v' hc hd =>
    rcases repl with _ | ⟨r0, rt⟩
    · simp [wordEnds] at hre
    · rw [List.cons_append, List.head?_cons, List.head?_cons]
      show isWordChar r0 = isWordChar c
      rw [scanCond_head_word key prev c u' hk hke hc]
      rw [wordEnds, Bool.and_eq_true] at hre
      simpa using hre.1

theorem rw_head_eq_of_prev_word (key : List PChar) (repl : List Char) (hk : key ≠ [])
    (hke : keyWordEnds key = true) (prev : Option Char) (u v : List Char)
    (hp : wordOpt prev = true) (d : Rw key repl prev u v) : v.head? = u.head? := by
  cases d with
  | nil => rfl
  | keep _ c u' v' hc hd => rfl
  | step _ c u' v' hc hd =>
    exact absurd (scanCond_prev_nonword key prev c u' hk hke hc) (by rw [hp]; simp)


theorem bdy_right_false (l r : Option Char) (h : bdy l r = true)
    (hl : wordOpt l = true) : wordOpt r = false := by
  rw [bdy, hl] at h
  simpa using h

theorem bdy_right_true (l r : Option Char) (h : bdy l r = true)
    (hl : wordOpt l = false) : wordOpt r = true := by
  rw [bdy, hl] at h
  simpa using h

theorem bdy_left_false (l r : Option Char) (h : bdy l r = true)
    (hr : wordOpt r = true) : wordOpt l = false := by
  rw [bdy, hr] at h
  simpa using h

theorem bdy_left_true (l r : Option Char) (h : bdy l r = true)
    (hr : wordOpt r = false) : wordOpt l = true := by
  rw [bdy, hr] at h
  simpa using h

theorem match_last_word (key : List PChar) (m : List Char) (d : Char)
    (hke : keyWordEnds key = true) (hci : ciMatches key m = true) (hk : key ≠ []) :
    isWordChar (m.getLastD d) = true := by
  have hlast := ciMatches_last_word key m hke hci
  have hne := ciMatches_ne_nil key m hk hci
  rcases hgl : m.getLast? with _ | x
  · rw [List.getLast?_eq_none_iff] at hgl
    exact absurd hgl hne
  · rw [hgl] at hlast
    rw [List.getLastD_eq_getLast?, hgl]
    exact hlast

/-- An all-word span at the current scan position of the output either
passes wholly through kept characters, or begins exactly at an engine
match, in which case it is a prefix of the emitted replacement. -/
theorem rw_word_span (key : List PChar) (repl : List Char) (hk : key ≠ [])
    (hke : keyWordEnds key = true) :
    ∀ (w : List Char) (prev : Option Char) (u v t : List Char), Rw key repl prev u v →
    v = w ++ t → (∀ c ∈ w, isWordChar c = true) →
    (∃ u₂, u = w ++ u₂ ∧ Rw key repl (lastOpt prev w) u₂ t ∧
      (w = [] ∨ scanCond key prev u = false))
    ∨ (w ≠ [] ∧ ∃ c u₁ v₂, u = c :: u₁ ∧ scanCond key prev (c :: u₁) = true ∧
        v = repl ++ v₂ ∧ w <+: repl ∧
        Rw key repl (some (((c :: u₁).take key.length).getLastD c))
          ((c :: u₁).drop key.length) v₂) := by
  intro w
  induction w with
  | nil =>
    intro prev u v t d hv hw
    rw [List.nil_append] at hv
    subst hv
    exact Or.inl ⟨u, rfl, d, Or.inl rfl⟩
  | cons c w' ih =>
    intro prev u v t d hv hw
    cases d with
    | nil => exact absurd hv (by simp)
    | keep _ c₀ u' v' hc hd =>
      rw [List.cons_append] at hv
      injection hv with h1 h2
      subst h1
      rcases ih (some c₀) u' v' t hd h2
          (fun x hx => hw x (List.mem_cons_of_mem _ hx)) with
        ⟨u₂, hu₂, hrw, _⟩ | ⟨_, c₁, u₁, v₂, hu₁, hcond, hv', hpre, hd₂⟩
      · left
        refine ⟨u₂, by rw [hu₂]; rfl, hrw, Or.inr (by simpa using hc)⟩
      · exfalso
        have hnw := scanCond_prev_nonword key (some c₀) c₁ u₁ hk hke hcond
        have hcw : isWordChar c₀ = true := hw c₀ (List.mem_cons_self _ _)
        simp [wordOpt, hcw] at hnw
    | step _ c₀ u' v' hc hd =>
      rcases List.append_eq_append_iff.mp hv with ⟨k, hk1, hk2⟩ | ⟨k, hk1, hk2⟩
      · cases k with
        | nil =>
          right
          refine ⟨by simp, c₀, u', v', rfl, hc, rfl, ⟨[], ?_⟩, hd⟩
          rw [List.append_nil] at hk1 ⊢
          exact hk1
        | cons k₀ k₁ =>
          exfalso
          obtain ⟨hci, hs, he⟩ := scanCond_true_facts key prev c₀ u' hk hc
          have hlw : isWordChar (((c₀ :: u').take key.length).getLastD c₀) = true :=
            match_last_word key _ c₀ hke hci hk
          have hdh : wordOpt (((c₀ :: u').drop key.length).head?) = false :=
            bdy_right_false _ _ he (ciMatches_last_word key _ hke hci)
          have hvh := rw_head_eq_of_prev_word key repl hk hke _ _ _
            (by simpa [wordOpt] using hlw) hd
          rw [hk2, List.cons_append, List.head?_cons] at hvh
          have hk₀w : isWordChar k₀ = true := by
            refine hw k₀ ?_
            rw [hk1]
            exact List.mem_append_right _ (List.mem_cons_self _ _)
          rw [← hvh] at hdh
          simp [wordOpt, hk₀w] at hdh
      · right
        exact ⟨by simp, c₀, u', v', rfl, hc, rfl, ⟨k, hk1.symm⟩, hd⟩

theorem char_eq_iff_toNat (a b : Char) : a = b ↔ a.toNat = b.toNat :=
  ⟨fun h => congrArg _ h, fun h => Char.ext (UInt32.ext h)⟩

theorem isJsLineTerm_jsCanon (c : Char) : isJsLineTerm (jsCanon c) = isJsLineTerm c := by
  rw [jsCanon]
  by_cases h : (97 ≤ c.toNat && c.toNat ≤ 122) = true
  · rw [if_pos h]
    simp only [Bool.and_eq_true, decide_eq_true_eq] at h
    have hv : Nat.isValidChar (c.toNat - 32) := Or.inl (by omega)
    have ht := toNat_charOfNat (c.toNat - 32) hv
    rw [isJsLineTerm, isJsLineTerm, Bool.eq_iff_iff]
    simp only [Bool.or_eq_true, decide_eq_true_eq, char_eq_iff_toNat, ht]
    have e1 : ('\n' : Char).toNat = 10 := by decide
    have e2 : ('\r' : Char).toNat = 13 := by decide
    have e3 : ('\u2028' : Char).toNat = 8232 := by decide
    have e4 : ('\u2029' : Char).toNat = 8233 := by decide
    rw [e1, e2, e3, e4]
    omega
  · rw [if_neg h]

theorem pcharMatch_canon_congr (p : PChar) (a b : Char) (h : jsCanon a = jsCanon b) :
    pcharMatch p a = pcharMatch p b := by
  cases p with
  | lit l => simp [pcharMatch, h]
  | any =>
    rw [pcharMatch, pcharMatch, ← isJsLineTerm_jsCanon a, ← isJsLineTerm_jsCanon b, h]

def canonEqL (x y : List Char) : Prop :=
  List.Forall₂ (fun a b => jsCanon a = jsCanon b) x y

theorem ciMatches_of_canonEq (T : List PChar) (x y : List Char) (hci : ciMatches T x = true)
    (hc : canonEqL x y) : ciMatches T y = true := by
  induction hc generalizing T with
  | nil => exact hci
  | cons hab hrest ih =>
    cases T with
    | nil => simp [ciMatches] at hci
    | cons p ps =>
      rw [ciMatches, Bool.and_eq_true] at hci ⊢
      exact ⟨by rw [← pcharMatch_canon_congr p _ _ hab]; exact hci.1, ih ps hci.2⟩

theorem canonEq_of_allLit (key : List PChar) (x y : List Char)
    (hall : key.all pcharWordLit = true)
    (hx : ciMatches key x = true) (hy : ciMatches key y = true) : canonEqL x y := by
  induction key generalizing x y with
  | nil =>
    cases x with
    | cons c cs => simp [ciMatches] at hx
    | nil =>
      cases y with
      | cons c cs => simp [ciMatches] at hy
      | nil => exact List.Forall₂.nil
  | cons p ps ih =>
    cases x with
    | nil => simp [ciMatches] at hx
    | cons a xs =>
      cases y with
      | nil => simp [ciMatches] at hy
      | cons b ys =>
        rw [ciMatches, Bool.and_eq_true] at hx hy
        rw [List.all_cons, Bool.and_eq_true] at hall
        cases p with
        | any => simp [pcharWordLit] at hall
        | lit l =>
          refine List.Forall₂.cons ?_ (ih xs ys hall.2 hx.2 hy.2)
          have h1 : jsCanon l = jsCanon a := by simpa [pcharMatch] using hx.1
          have h2 : jsCanon l = jsCanon b := by simpa [pcharMatch] using hy.1
          rw [← h1, h2]

theorem ciMatches_append_iff (K1 K2 : List PChar) (m : List Char) :
    ciMatches (K1 ++ K2) m = true ↔
    ∃ m1 m2, m = m1 ++ m2 ∧ ciMatches K1 m1 = true ∧ ciMatches K2 m2 = true := by
  induction K1 generalizing m with
  | nil =>
    constructor
    · intro h
      exact ⟨[], m, rfl, rfl, by simpa using h⟩
    · rintro ⟨m1, m2, rfl, h1, h2⟩
      cases m1 with
      | nil => simpa using h2
      | cons c cs => simp [ciMatches] at h1
  | cons p ps ih =>
    cases m with
    | nil =>
      constructor
      · intro h
        simp [ciMatches] at h
      · rintro ⟨m1, m2, hm, h1, h2⟩
        cases m1 with
        | nil =>
          cases m2 with
          | nil => simp [ciMatches] at h1
          | cons c cs => simp at hm
        | cons c cs => simp at hm
    | cons c cs =>
      rw [List.cons_append, ciMatches, Bool.and_eq_true, ih cs]
      constructor
      · rintro ⟨hp, m1, m2, hm, h1, h2⟩
        exact ⟨c :: m1, m2, by rw [hm]; rfl,
          by rw [ciMatches, Bool.and_eq_true]; exact ⟨hp, h1⟩, h2⟩
      · rintro ⟨m1, m2, hm, h1, h2⟩
        cases m1 with
        | nil =>
          cases m2 with
          | nil => simp at hm
          | cons d ds =>
            rw [List.nil_append] at hm
            injection hm with hcd htail
            subst hcd
            simp [ciMatches] at h1
        | cons d ds =>
          rw [List.cons_append] at hm
          injection hm with hcd htail
          subst hcd
          rw [ciMatches, Bool.and_eq_true] at h1
          exact ⟨h1.1, ds, m2, htail, h1.2, h2⟩

theorem ciMatches_any_cons_iff (B : List PChar) (m : List Char) :
    ciMatches (PChar.any :: B) m = true ↔
    ∃ g mB, m = g :: mB ∧ isJsLineTerm g = false ∧ ciMatches B mB = true := by
  cases m with
  | nil =>
    constructor
    · intro h
      simp [ciMatches] at h
    · rintro ⟨g, mB, hm, _, _⟩
      simp at hm
  | cons g mB =>
    rw [ciMatches, Bool.and_eq_true]
    constructor
    · rintro ⟨h1, h2⟩
      exact ⟨g, mB, rfl, by simpa [pcharMatch] using h1, h2⟩
    · rintro ⟨g', mB', hm, h1, h2⟩
      injection hm with hg hmB
      subst hg
      subst hmB
      exact ⟨by simpa [pcharMatch] using h1, h2⟩

theorem ciMatches_all_word (key : List PChar) (m : List Char)
    (hall : key.all pcharWordLit = true) (h : ciMatches key m = true) :
    ∀ c ∈ m, isWordChar c = true := by
  induction key generalizing m with
  | nil =>
    cases m with
    | nil => intro c hc; simp at hc
    | cons c cs => simp [ciMatches] at h
  | cons p ps ih =>
    cases m with
    | nil => simp [ciMatches] at h
    | cons c cs =>
      rw [ciMatches, Bool.and_eq_true] at h
      rw [List.all_cons, Bool.and_eq_true] at hall
      intro x hx
      rcases List.mem_cons.mp hx with rfl | hx'
      · cases p with
        | any => simp [pcharWordLit] at hall
        | lit l =>
          rw [pcharMatch_lit_word l x h.1]
          simpa [pcharWordLit] using hall.1
      · exact ih cs hall.2 h.2 x hx'

theorem ciMatches_take (key : List PChar) (m : List Char) (n : ℕ)
    (h : ciMatches key m = true) : ciMatches (key.take n) (m.take n) = true := by
  induction key generalizing m n with
  | nil =>
    cases m with
    | nil => simp [ciMatches]
    | cons c cs => simp [ciMatches] at h
  | cons p ps ih =>
    cases m with
    | nil => simp [ciMatches] at h
    | cons c cs =>
      rw [ciMatches, Bool.and_eq_true] at h
      cases n with
      | zero => simp [ciMatches]
      | succ n =>
        rw [List.take_succ_cons, List.take_succ_cons, ciMatches, Bool.and_eq_true]
        exact ⟨h.1, ih cs n h.2⟩

theorem rw_inv_prev_word (key : List PChar) (repl : List Char) (hk : key ≠ [])
    (hke : keyWordEnds key = true) (prev : Option Char) (u v : List Char)
    (hp : wordOpt prev = true) (d : Rw key repl prev u v) :
    (u = [] ∧ v = []) ∨ ∃ c u₃ v₃, u = c :: u₃ ∧ v = c :: v₃ ∧
      scanCond key prev (c :: u₃) = false ∧ Rw key repl (some c) u₃ v₃ := by
  cases d with
  | nil => exact Or.inl ⟨rfl, rfl⟩
  | keep _ c u₃ v₃ hc hd => exact Or.inr ⟨c, u₃, v₃, rfl, rfl, hc, hd⟩
  | step _ c u₃ v₃ hc hd =>
    exact absurd (scanCond_prev_nonword key prev c u₃ hk hke hc) (by rw [hp]; simp)

theorem scanCond_intro (key : List PChar) (prev : Option Char) (m rest : List Char)
    (hm : m ≠ []) (hlen : m.length = key.length) (hci : ciMatches key m = true)
    (hs : bdy prev m.head? = true) (he : bdy m.getLast? rest.head? = true) :
    scanCond key prev (m ++ rest) = true := by
  rcases m with _ | ⟨c, ms⟩
  · exact absurd rfl hm
  · rw [List.cons_append, scanCond]
    have htake : ((c :: ms) ++ rest).take key.length = c :: ms := by
      rw [← hlen]
      exact List.take_left _ _
    have hdrop : ((c :: ms) ++ rest).drop key.length = rest := by
      rw [← hlen]
      exact List.drop_left _ _
    rw [show ((c :: ms : List Char) ++ rest) = c :: (ms ++ rest) from rfl] at htake hdrop
    rw [htake, hdrop]
    rw [Bool.and_eq_true, Bool.and_eq_true]
    exact ⟨⟨hs, hci⟩, he⟩

theorem bdy_congr_right (a : Option Char) (b b' : Option Char)
    (h : wordOpt b = wordOpt b') : bdy a b = bdy a b' := by
  rw [bdy, bdy, h]

def bdyAfterTake (x : List Char) (n : ℕ) : Bool :=
  bdy (x.take n).getLast? (x.drop n).head?

/-- Feasible whole-word matches of the target key that sit at the head of
the replacement must read exactly the target replacement. -/
def chkHead (key2 : List PChar) (repl2 : List Char) (repl : List Char) : Bool :=
  if ciMatches key2 (repl.take key2.length) then
    if key2.length < repl.length then
      (if bdyAfterTake repl key2.length then decide (repl.take key2.length = repl2) else true)
    else decide (repl.take key2.length = repl2)
  else true

/-- A target match overrunning the replacement must hit a literal at the
junction, or satisfy the cross-out correspondence conditions. -/
def chkJunction (key2 : List PChar) (repl2 : List Char) (key : List PChar)
    (repl : List Char) : Bool :=
  match key2.get? repl.length with
  | some (.lit _) => true
  | none => true
  | some .any =>
    if ciMatches (key2.take repl.length) repl then
      key.all pcharWordLit && ciMatches key repl && decide (repl2.take repl.length = repl)
    else true

/-- Feasible target matches starting strictly inside the replacement must
read the target replacement (or be refuted at the junction). -/
def chkRestart (key2 : List PChar) (repl2 : List Char) (repl : List Char) : Bool :=
  (List.range repl.length).all fun o =>
    if o = 0 then true
    else
      if bdy (repl.take o).getLast? ((repl.drop o).head?) then
        if key2.length ≤ repl.length - o then
          (if ciMatches key2 ((repl.drop o).take key2.length) then
            (if key2.length < repl.length - o then
              (if bdyAfterTake (repl.drop o) key2.length then
                decide ((repl.drop o).take key2.length = repl2)
              else true)
            else decide (repl.drop o = repl2))
          else true)
        else
          (match key2.get? (repl.length - o) with
          | some (.lit _) => true
          | _ => !(ciMatches (key2.take (repl.length - o)) (repl.drop o)))
      else true

/-- A wildcard tail of the target key entering a replacement from outside
must be infeasible. -/
def chkCrossin (key2 : List PChar) (repl : List Char) : Bool :=
  (List.range key2.length).all fun n =>
    match key2.get? n with
    | some .any =>
      (if (key2.drop (n + 1)).length ≤ repl.length then
        (if ciMatches (key2.drop (n + 1)) (repl.take (key2.drop (n + 1)).length) then
          (if (key2.drop (n + 1)).length < repl.length then
            !(bdyAfterTake repl (key2.drop (n + 1)).length)
          else false)
        else true)
      else true)
    | _ => true

def pairOK (key2 : List PChar) (repl2 : List Char) (key : List PChar)
    (repl : List Char) : Bool :=
  chkHead key2 repl2 repl && chkJunction key2 repl2 key repl &&
  chkRestart key2 repl2 repl && chkCrossin key2 repl

theorem lastOpt_eq_getLast? (p : Option Char) (a : List Char) (h : a ≠ []) :
    lastOpt p a = a.getLast? := by
  cases a with
  | nil => exact absurd rfl h
  | cons x a' => rw [lastOpt, lastOpt_getLastD, List.getLast?_cons, List.getLastD_eq_getLast?]

theorem lastOpt_congr (p q : Option Char) (a : List Char) (h : a ≠ []) :
    lastOpt p a = lastOpt q a := by
  rw [lastOpt_eq_getLast? p a h, lastOpt_eq_getLast? q a h]

theorem bdy_congr_left (a a' b : Option Char) (h : wordOpt a = wordOpt a') :
    bdy a b = bdy a' b := by
  rw [bdy, bdy, h]

theorem keeps_conclude (key : List PChar) (repl : List Char) (key2 : List PChar)
    (repl2 : List Char) (hk : key ≠ []) (hke : keyWordEnds key = true)
    (hre : wordEnds repl = true) (hk2 : key2 ≠ [])
    (prev : Option Char) (m2 u₂ rest2 : List Char)
    (hmode : NoBad key2 repl2 prev (m2 ++ u₂) ∨ (key2 = key ∧ repl2 = repl))
    (hfail : scanCond key prev (m2 ++ u₂) = false)
    (hrw2 : Rw key repl (lastOpt prev m2) u₂ rest2)
    (hci : ciMatches key2 m2 = true) (hs : bdy prev m2.head? = true)
    (he : bdy m2.getLast? rest2.head? = true) : m2 = repl2 := by
  have hm2ne : m2 ≠ [] := ciMatches_ne_nil key2 m2 hk2 hci
  have hwe : wordOpt rest2.head? = wordOpt u₂.head? :=
    rw_head_word_eq key repl hk hke hre _ _ _ hrw2
  rw [bdy_congr_right m2.getLast? rest2.head? u₂.head? hwe] at he
  rcases hmode with hnb | ⟨rfl, rfl⟩
  · exact hnb [] m2 u₂ rfl hci hs he
  · exfalso
    have hT := scanCond_intro key2 prev m2 u₂ hm2ne (ciMatches_length key2 m2 hci) hci hs he
    rw [hfail] at hT
    simp at hT

theorem step_after_facts (key : List PChar) (repl : List Char) (hk : key ≠ [])
    (hke : keyWordEnds key = true) (prev : Option Char) (c : Char) (u' v' : List Char)
    (hc : scanCond key prev (c :: u') = true)
    (hd : Rw key repl (some (((c :: u').take key.length).getLastD c))
      ((c :: u').drop key.length) v') :
    v'.head? = ((c :: u').drop key.length).head? ∧ wordOpt v'.head? = false := by
  obtain ⟨hci, hs, he⟩ := scanCond_true_facts key prev c u' hk hc
  have hlw : isWordChar (((c :: u').take key.length).getLastD c) = true :=
    match_last_word key _ c hke hci hk
  have hh := rw_head_eq_of_prev_word key repl hk hke _ _ _
    (by simpa [wordOpt] using hlw) hd
  refine ⟨hh, ?_⟩
  rw [hh]
  exact bdy_right_false _ _ he (ciMatches_last_word key _ hke hci)

theorem chkCrossin_at (key2 : List PChar) (repl : List Char) (n : ℕ)
    (hchk : chkCrossin key2 repl = true) (hget : key2.get? n = some .any) :
    (if (key2.drop (n + 1)).length ≤ repl.length then
      (if ciMatches (key2.drop (n + 1)) (repl.take (key2.drop (n + 1)).length) then
        (if (key2.drop (n + 1)).length < repl.length then
          !(bdyAfterTake repl (key2.drop (n + 1)).length)
        else false)
      else true)
    else true) = true := by
  have hn : n < key2.length := by
    by_contra hcon
    rw [List.get?_eq_none.mpr (by omega)] at hget
    cases hget
  have := List.all_eq_true.mp hchk n (List.mem_range.mpr hn)
  rw [hget] at this
  exact this

theorem crossin_refute (key2 : List PChar) (repl : List Char) (B : List PChar) (n : ℕ)
    (hget : key2.get? n = some .any) (hBdef : key2.drop (n + 1) = B)
    (hchk : chkCrossin key2 repl = true)
    (mB rest2 v₅ : List Char) (hciB : ciMatches B mB = true) (hpre : mB <+: repl)
    (hveq : mB ++ rest2 = repl ++ v₅) (hbe : bdy mB.getLast? rest2.head? = true) : False := by
  have hlen : mB.length = B.length := ciMatches_length B mB hciB
  have hlenle : B.length ≤ repl.length := by
    have := hpre.length_le
    omega
  have hmBtake : mB = repl.take B.length := by
    have := (List.prefix_iff_eq_take).mp hpre
    rw [hlen] at this
    exact this
  have hx := chkCrossin_at key2 repl n hchk hget
  rw [hBdef] at hx
  rw [if_pos hlenle, if_pos (by rw [← hmBtake]; exact hciB)] at hx
  by_cases hlt : B.length < repl.length
  · rw [if_pos hlt] at hx
    have hrest : rest2 = repl.drop B.length ++ v₅ := by
      have h2 : repl.take B.length ++ rest2 = repl.take B.length ++ (repl.drop B.length ++ v₅) := by
        rw [← List.append_assoc, List.take_append_drop]
        rw [← hmBtake] at *
        exact hveq
      exact List.append_cancel_left h2
    have hdropne : repl.drop B.length ≠ [] := by
      intro hcon
      have := congrArg List.length hcon
      rw [List.length_drop] at this
      simp at this
      omega
    have hbeR : bdyAfterTake repl B.length = true := by
      rw [bdyAfterTake, ← hmBtake]
      rw [hrest] at hbe
      rwa [List.head?_append_of_ne_nil _ hdropne] at hbe
    rw [hbeR] at hx
    simp at hx
  · rw [if_neg hlt] at hx
    simp at hx

theorem ciMatches_split (K : List PChar) (x y : List Char)
    (h : ciMatches K (x ++ y) = true) :
    ciMatches (K.take x.length) x = true ∧ ciMatches (K.drop x.length) y = true := by
  induction x generalizing K with
  | nil => exact ⟨rfl, by simpa using h⟩
  | cons c cs ih =>
    cases K with
    | nil => simp [ciMatches] at h
    | cons p ps =>
      rw [List.cons_append, ciMatches, Bool.and_eq_true] at h
      obtain ⟨h1, h2⟩ := h
      obtain ⟨ha, hb⟩ := ih ps h2
      constructor
      · rw [List.length_cons, List.take_succ_cons, ciMatches, Bool.and_eq_true]
        exact ⟨h1, ha⟩
      · rw [List.length_cons, List.drop_succ_cons]
        exact hb

theorem getLast?_cons_ne (k₀ : Char) (k₁ : List Char) (h : k₁ ≠ []) :
    (k₀ :: k₁).getLast? = k₁.getLast? := by
  rw [show (k₀ :: k₁ : List Char) = [k₀] ++ k₁ from rfl]
  exact List.getLast?_append_of_ne_nil _ h

theorem shape_lit_word (key2 : List PChar)
    (hshape : key2.all pcharWordLit = true ∨
      ∃ A B, key2 = A ++ .any :: B ∧ A.all pcharWordLit = true ∧ B.all pcharWordLit = true ∧
        A ≠ [] ∧ B ≠ []) (n : ℕ) (l : Char) (hget : key2.get? n = some (.lit l)) :
    isWordChar l = true := by
  have hmem : PChar.lit l ∈ key2 := List.get?_mem hget
  rcases hshape with hall | ⟨A, B, hk2, hA, hB, _, _⟩
  · have := List.all_eq_true.mp hall _ hmem
    simpa [pcharWordLit] using this
  · rw [hk2] at hmem
    rcases List.mem_append.mp hmem with hm | hm
    · have := List.all_eq_true.mp hA _ hm
      simpa [pcharWordLit] using this
    · rcases List.mem_cons.mp hm with he | hm2
      · simp at he
      · have := List.all_eq_true.mp hB _ hm2
        simpa [pcharWordLit] using this

theorem take_head_some (key : List PChar) (hk : key ≠ []) (c : Char) (u' : List Char) :
    ((c :: u').take key.length).head? = some c := by
  rcases key with _ | ⟨p, ps⟩
  · exact absurd rfl hk
  · rw [List.length_cons, List.take_succ_cons, List.head?_cons]

theorem shape_any_unique (A B : List PChar) (hA : A.all pcharWordLit = true)
    (hB : B.all pcharWordLit = true) (n : ℕ)
    (hget : (A ++ .any :: B).get? n = some .any) : n = A.length := by
  by_contra hne
  rcases Nat.lt_or_ge n A.length with hlt | hge
  · rw [List.get?_append hlt] at hget
    have hm := List.get?_mem hget
    have := List.all_eq_true.mp hA _ hm
    simp [pcharWordLit] at this
  · rw [List.get?_append_right hge] at hget
    rcases hna : n - A.length with _ | k
    · omega
    · rw [hna] at hget
      rw [List.get?_cons_succ] at hget
      have hm := List.get?_mem hget
      have := List.all_eq_true.mp hB _ hm
      simp [pcharWordLit] at this

theorem shape_any_get (A B : List PChar) : (A ++ .any :: B).get? A.length = some .any := by
  rw [List.get?_append_right (le_refl _)]
  simp

theorem shape_drop (A B : List PChar) : (A ++ .any :: B).drop (A.length + 1) = B := by
  rw [show A ++ .any :: B = (A ++ [.any]) ++ B from by simp]
  exact List.drop_left' (by simp)

theorem append_overlap (x y z w : List Char) (h : x ++ y = z ++ w)
    (hl : x.length ≤ z.length) :
    x = z.take x.length ∧ y = z.drop x.length ++ w := by
  have h2 : x ++ y = z.take x.length ++ (z.drop x.length ++ w) := by
    rw [← List.append_assoc, List.take_append_drop]
    exact h
  have hlen : x.length = (z.take x.length).length := by
    rw [List.length_take]
    omega
  exact List.append_inj h2 hlen

theorem canonEqL_head_wordOpt (x y : List Char) (h : canonEqL x y) :
    wordOpt x.head? = wordOpt y.head? := by
  cases h with
  | nil => rfl
  | cons hab hrest =>
    rw [List.head?_cons, List.head?_cons]
    show isWordChar _ = isWordChar _
    rw [← isWordChar_jsCanon, hab, isWordChar_jsCanon]

theorem wordEnds_ne_nil (l : List Char) (h : wordEnds l = true) : l ≠ [] := by
  intro hcon
  subst hcon
  simp [wordEnds] at h

theorem wordEnds_last (l : List Char) (h : wordEnds l = true) :
    wordOpt l.getLast? = true := by
  rw [wordEnds, Bool.and_eq_true] at h
  have h2 := h.2
  rcases hgl : l.getLast? with _ | x
  · rw [hgl] at h2
    simp at h2
  · rw [hgl] at h2
    exact h2

theorem getLast?_append_cons (mA : List Char) (g : Char) (mB : List Char) (h : mB ≠ []) :
    (mA ++ g :: mB).getLast? = mB.getLast? := by
  rw [List.getLast?_append_of_ne_nil _ (show (g :: mB : List Char) ≠ [] by simp)]
  exact getLast?_cons_ne g mB h

/-- Extraction of `chkHead`: a target match that is a prefix of the source
replacement with a real boundary after it reads the target replacement. -/
theorem head_prefix_conclude (key2 : List PChar) (repl2 repl : List Char)
    (hchk : chkHead key2 repl2 repl = true)
    (m2 rest2 v₂ : List Char) (hci : ciMatches key2 m2 = true)
    (hpre : m2 <+: repl) (hveq : m2 ++ rest2 = repl ++ v₂)
    (he : bdy m2.getLast? rest2.head? = true) : m2 = repl2 := by
  have hlen : m2.length = key2.length := ciMatches_length key2 m2 hci
  have hm2take : m2 = repl.take key2.length := by
    have := List.prefix_iff_eq_take.mp hpre
    rw [hlen] at this
    exact this
  have hcit : ciMatches key2 (repl.take key2.length) = true := by
    rw [← hm2take]
    exact hci
  rw [chkHead, if_pos hcit] at hchk
  by_cases hlt : key2.length < repl.length
  · rw [if_pos hlt] at hchk
    have hrest : rest2 = repl.drop key2.length ++ v₂ := by
      have h2 : repl.take key2.length ++ rest2
          = repl.take key2.length ++ (repl.drop key2.length ++ v₂) := by
        rw [← List.append_assoc, List.take_append_drop, ← hm2take]
        exact hveq
      exact List.append_cancel_left h2
    have hdropne : repl.drop key2.length ≠ [] := by
      intro hcon
      have := congrArg List.length hcon
      rw [List.length_drop] at this
      simp at this
      omega
    have hbat : bdyAfterTake repl key2.length = true := by
      rw [hrest, List.head?_append_of_ne_nil _ hdropne] at he
      rw [bdyAfterTake, ← hm2take]
      exact he
    rw [if_pos hbat] at hchk
    rw [hm2take]
    exact of_decide_eq_true hchk
  · rw [if_neg hlt] at hchk
    rw [hm2take]
    exact of_decide_eq_true hchk

/-- Extraction of `chkJunction` at a wildcard junction. -/
theorem junction_any_extract (key2 : List PChar) (repl2 : List Char) (key : List PChar)
    (repl : List Char) (hchk : chkJunction key2 repl2 key repl = true)
    (hget : key2.get? repl.length = some .any)
    (hcit : ciMatches (key2.take repl.length) repl = true) :
    key.all pcharWordLit = true ∧ ciMatches key repl = true ∧
      repl2.take repl.length = repl := by
  unfold chkJunction at hchk
  rw [hget] at hchk
  have hchk2 : (if ciMatches (key2.take repl.length) repl
      then key.all pcharWordLit && ciMatches key repl &&
        decide (repl2.take repl.length = repl)
      else true) = true := hchk
  rw [if_pos hcit] at hchk2
  rw [Bool.and_eq_true, Bool.and_eq_true] at hchk2
  exact ⟨hchk2.1.1, hchk2.1.2, of_decide_eq_true hchk2.2⟩

theorem ciMatches_drop_head_lit (key2 : List PChar) (n : ℕ) (l : Char) (m : List Char)
    (hget : key2.get? n = some (.lit l))
    (hci : ciMatches (key2.drop n) m = true) :
    ∃ c cs, m = c :: cs ∧ isWordChar c = isWordChar l := by
  have hh : (key2.drop n).head? = some (.lit l) := by
    rw [List.head?_drop, ← List.get?_eq_getElem?]
    exact hget
  rcases hK : key2.drop n with _ | ⟨p, K2⟩
  · rw [hK] at hh
    cases hh
  · rw [hK] at hh hci
    rw [List.head?_cons] at hh
    injection hh with hp
    subst hp
    rcases m with _ | ⟨c, cs⟩
    · simp [ciMatches] at hci
    · rw [ciMatches, Bool.and_eq_true] at hci
      exact ⟨c, cs, rfl, pcharMatch_lit_word l c hci.1⟩

theorem shape_match_decomp (A B : List PChar) (m : List Char)
    (hci : ciMatches (A ++ .any :: B) m = true) :
    ∃ mA g mB, m = mA ++ g :: mB ∧ ciMatches A mA = true ∧
      isJsLineTerm g = false ∧ ciMatches B mB = true ∧
      mA.length = A.length ∧ mB.length = B.length := by
  rcases (ciMatches_append_iff A (.any :: B) m).mp hci with ⟨mA, mX, hm, hA2, hX⟩
  rcases (ciMatches_any_cons_iff B mX).mp hX with ⟨g, mB, hmX, hg, hB2⟩
  exact ⟨mA, g, mB, by rw [hm, hmX], hA2, hg, hB2,
    ciMatches_length A mA hA2, ciMatches_length B mB hB2⟩

/-- Head-match analysis: under the decidable pair checks, a whole-word
match of the target pattern starting at the current scan position of the
engine's output reads the target replacement. -/
theorem rw_head_match (key : List PChar) (repl : List Char) (key2 : List PChar)
    (repl2 : List Char) (hk : key ≠ []) (hke : keyWordEnds key = true)
    (hre : wordEnds repl = true) (hk2 : key2 ≠ [])
    (hshape : key2.all pcharWordLit = true ∨
      ∃ A B, key2 = A ++ .any :: B ∧ A.all pcharWordLit = true ∧
        B.all pcharWordLit = true ∧ A ≠ [] ∧ B ≠ [])
    (hpair : pairOK key2 repl2 key repl = true)
    (prev : Option Char) (u v : List Char) (d : Rw key repl prev u v)
    (hmode : NoBad key2 repl2 prev u ∨ (key2 = key ∧ repl2 = repl))
    (m2 rest2 : List Char) (hveq : v = m2 ++ rest2)
    (hci : ciMatches key2 m2 = true)
    (hs : bdy prev m2.head? = true)
    (he : bdy m2.getLast? rest2.head? = true) : m2 = repl2 := by
  rw [pairOK, Bool.and_eq_true, Bool.and_eq_true, Bool.and_eq_true] at hpair
  obtain ⟨⟨⟨hchkH, hchkJ⟩, hchkR⟩, hchkC⟩ := hpair
  have hm2ne : m2 ≠ [] := ciMatches_ne_nil key2 m2 hk2 hci
  rcases hshape with hall2 | ⟨A, B, hk2eq, hA, hB, hAne, hBne⟩
  · -- all-literal target: the whole match is a word span
    have hwall : ∀ c ∈ m2, isWordChar c = true := ciMatches_all_word key2 m2 hall2 hci
    rcases rw_word_span key repl hk hke m2 prev u v rest2 d hveq hwall with
      ⟨u₂, hu, hrw, hor⟩ | ⟨_, c₁, u₁, v₂, huA, hcond, hveqR, hpre, hd₂⟩
    · rcases hor with hnil | hfail
      · exact absurd hnil hm2ne
      · rw [hu] at hfail hmode
        exact keeps_conclude key repl key2 repl2 hk hke hre hk2 prev m2 u₂ rest2
          hmode hfail hrw hci hs he
    · have hveq3 : m2 ++ rest2 = repl ++ v₂ := by
        rw [← hveq]
        exact hveqR
      exact head_prefix_conclude key2 repl2 repl hchkH m2 rest2 v₂ hci hpre hveq3 he
  · -- wildcard target key
    have hciW : ciMatches (A ++ PChar.any :: B) m2 = true := by
      rw [← hk2eq]
      exact hci
    obtain ⟨mA, g, mB, hm2eq, hciA, hgterm, hciB, hlenA, hlenB⟩ :=
      shape_match_decomp A B m2 hciW
    have hwA : ∀ c ∈ mA, isWordChar c = true := ciMatches_all_word A mA hA hciA
    have hwB : ∀ c ∈ mB, isWordChar c = true := ciMatches_all_word B mB hB hciB
    have hmAne : mA ≠ [] := by
      intro hcon
      rw [hcon] at hlenA
      exact hAne (List.length_eq_zero.mp (by simpa using hlenA.symm))
    have hmBne : mB ≠ [] := by
      intro hcon
      rw [hcon] at hlenB
      exact hBne (List.length_eq_zero.mp (by simpa using hlenB.symm))
    have hm2head : m2.head? = mA.head? := by
      rw [hm2eq]
      exact List.head?_append_of_ne_nil _ hmAne
    have hm2last : m2.getLast? = mB.getLast? := by
      rw [hm2eq]
      exact getLast?_append_cons mA g mB hmBne
    have hveqA : v = mA ++ (g :: (mB ++ rest2)) := by
      rw [hveq, hm2eq]
      simp
    rcases rw_word_span key repl hk hke mA prev u v (g :: (mB ++ rest2)) d hveqA hwA with
      ⟨u₂, huA, hrw₁, horA⟩ | ⟨_, c₁, u₁, v₂, huA, hcond, hveqR, hpreA, hd₂⟩
    · -- the word part before the wildcard passes through kept characters
      rcases horA with hnilA | hfail₁
      · exact absurd hnilA hmAne
      · have hprev₂ : wordOpt (lastOpt prev mA) = true :=
          wordOpt_lastOpt_of_all_word prev mA hmAne hwA
        rcases rw_inv_prev_word key repl hk hke (lastOpt prev mA) u₂
            (g :: (mB ++ rest2)) hprev₂ hrw₁ with
          ⟨_, hvnil⟩ | ⟨g', u₃, v₃, hu₂eq, hveq₃, _, hrwX⟩
        · exact absurd hvnil (List.cons_ne_nil _ _)
        · injection hveq₃ with hgg hv₃
          subst hgg
          subst hv₃
          rcases rw_word_span key repl hk hke mB (some g) u₃ (mB ++ rest2) rest2
              hrwX rfl hwB with
            ⟨u₄, hu₃eq, hrwY, _⟩ | ⟨_, c₃, u₅, v₅, hu₃eq2, hcond₃, hout, hpreB, hd₃⟩
          · have hueq : u = m2 ++ u₄ := by
              rw [huA, hu₂eq, hu₃eq, hm2eq]
              simp
            have hlastm2 : lastOpt prev m2 = lastOpt (some g) mB := by
              rw [hm2eq, lastOpt_append, lastOpt]
            rw [hueq] at hfail₁ hmode
            have hrw2 : Rw key repl (lastOpt prev m2) u₄ rest2 := by
              rw [hlastm2]
              exact hrwY
            exact keeps_conclude key repl key2 repl2 hk hke hre hk2 prev m2 u₄ rest2
              hmode hfail₁ hrw2 hci hs he
          · have hbe : bdy mB.getLast? rest2.head? = true := by
              rw [← hm2last]
              exact he
            exact (crossin_refute key2 repl B A.length
              (by rw [hk2eq]; exact shape_any_get A B)
              (by rw [hk2eq]; exact shape_drop A B) hchkC mB rest2 v₅
              hciB hpreB hout hbe).elim
    · -- the match starts where the engine itself matched
      have hveq3 : m2 ++ rest2 = repl ++ v₂ := by
        rw [← hveq]
        exact hveqR
      obtain ⟨_, hv₂nw⟩ := step_after_facts key repl hk hke prev c₁ u₁ v₂ hcond hd₂
      rcases le_or_lt m2.length repl.length with hle | hgt
      · obtain ⟨h1, _⟩ := append_overlap m2 rest2 repl v₂ hveq3 hle
        exact head_prefix_conclude key2 repl2 repl hchkH m2 rest2 v₂ hci
          (List.prefix_iff_eq_take.mpr h1) hveq3 he
      · obtain ⟨h0a, h0b⟩ := append_overlap repl v₂ m2 rest2 hveq3.symm (le_of_lt hgt)
        have hm2teq : m2 = repl ++ m2.drop repl.length := by
          conv_lhs => rw [← List.take_append_drop repl.length m2]
          rw [← h0a]
        have hlenm2 : m2.length = key2.length := ciMatches_length key2 m2 hci
        obtain ⟨hciT, hciD⟩ :=
          ciMatches_split key2 repl (m2.drop repl.length) (by rw [← hm2teq]; exact hci)
        rcases hgetp : key2.get? repl.length with _ | p
        · rw [List.get?_eq_none] at hgetp
          omega
        · cases p with
          | lit l =>
            exfalso
            obtain ⟨c₂, cs₂, hmd, hcw⟩ :=
              ciMatches_drop_head_lit key2 repl.length l (m2.drop repl.length) hgetp hciD
            have hlword : isWordChar l = true :=
              shape_lit_word key2 (Or.inr ⟨A, B, hk2eq, hA, hB, hAne, hBne⟩)
                repl.length l hgetp
            have hv₂cons : v₂.head? = some c₂ := by
              rw [h0b, hmd, List.cons_append, List.head?_cons]
            rw [hv₂cons] at hv₂nw
            have hfalse : isWordChar c₂ = false := hv₂nw
            rw [hcw, hlword] at hfalse
            exact Bool.noConfusion hfalse
          | any =>
            have hnA : repl.length = A.length :=
              shape_any_unique A B hA hB repl.length (by rw [← hk2eq]; exact hgetp)
            obtain ⟨hkeyall, hkeyrepl, hr2take⟩ :=
              junction_any_extract key2 repl2 key repl hchkJ hgetp hciT
            rcases hmode with hnb | ⟨hkk, hrr⟩
            · -- origin correspondence through the source match
              have hx : mA ++ ((g :: mB) ++ rest2) = repl ++ v₂ := by
                rw [← List.append_assoc, ← hm2eq]
                exact hveq3
              have hlA : mA.length ≤ repl.length := le_of_eq (by rw [hlenA, ← hnA])
              obtain ⟨h1A, _⟩ := append_overlap mA ((g :: mB) ++ rest2) repl v₂ hx hlA
              have hmAeq : mA = repl := by
                have htl : repl.take mA.length = repl := by
                  rw [hlenA, ← hnA, List.take_length]
                rw [htl] at h1A
                exact h1A
              obtain ⟨hciO, hsO, heO⟩ := scanCond_true_facts key prev c₁ u₁ hk hcond
              have hlenO : ((c₁ :: u₁).take key.length).length = key.length :=
                ciMatches_length key _ hciO
              have hlenR : repl.length = key.length := ciMatches_length key repl hkeyrepl
              have hcanon : canonEqL repl ((c₁ :: u₁).take key.length) :=
                canonEq_of_allLit key repl _ hkeyall hkeyrepl hciO
              have hciAmO : ciMatches A ((c₁ :: u₁).take key.length) = true :=
                ciMatches_of_canonEq A repl _ (by rw [← hmAeq]; exact hciA) hcanon
              have hprevO : wordOpt (some (((c₁ :: u₁).take key.length).getLastD c₁))
                  = true := by
                simpa [wordOpt] using match_last_word key _ c₁ hke hciO hk
              have hdropm2 : m2.drop repl.length = g :: mB := by
                have hm2' : m2 = repl ++ (g :: mB) := by rw [hm2eq, hmAeq]
                rw [hm2', List.drop_left]
              have hv₂eq : v₂ = (g :: mB) ++ rest2 := by rw [h0b, hdropm2]
              rcases rw_inv_prev_word key repl hk hke _ _ v₂ hprevO hd₂ with
                ⟨_, hvnil⟩ | ⟨g', u₃, v₃, hineq, hveq₄, _, hrwX⟩
              · rw [hv₂eq] at hvnil
                simp at hvnil
              · rw [hv₂eq, List.cons_append] at hveq₄
                injection hveq₄ with hgg hv₃
                subst hgg
                subst hv₃
                rcases rw_word_span key repl hk hke mB (some g) u₃ (mB ++ rest2) rest2
                    hrwX rfl hwB with
                  ⟨u₄, hu₃eq, hrwY, _⟩ | ⟨_, c₃, u₅, v₅, hu₃eq2, hcond₃, hout, hpreB, hd₃⟩
                · have hueq : u = ((c₁ :: u₁).take key.length ++ g :: mB) ++ u₄ := by
                    rw [huA]
                    conv_lhs => rw [← List.take_append_drop key.length (c₁ :: u₁)]
                    rw [hineq, hu₃eq]
                    simp
                  have hM : ciMatches key2 ((c₁ :: u₁).take key.length ++ g :: mB)
                      = true := by
                    rw [hk2eq]
                    exact (ciMatches_append_iff A (.any :: B) _).mpr
                      ⟨_, g :: mB, rfl, hciAmO,
                        (ciMatches_any_cons_iff B _).mpr ⟨g, mB, rfl, hgterm, hciB⟩⟩
                  have hmOne : (c₁ :: u₁).take key.length ≠ [] := by
                    intro hcon
                    rw [hcon] at hlenO
                    exact hk (List.length_eq_zero.mp (by simpa using hlenO.symm))
                  have hsM : bdy prev ((c₁ :: u₁).take key.length ++ g :: mB).head?
                      = true := by
                    rw [List.head?_append_of_ne_nil _ hmOne]
                    have h1 : bdy prev mA.head? = true := by
                      rw [← hm2head]
                      exact hs
                    rw [hmAeq] at h1
                    rw [bdy_congr_right prev repl.head? ((c₁ :: u₁).take key.length).head?
                      (canonEqL_head_wordOpt repl _ hcanon)] at h1
                    exact h1
                  have heM : bdy ((c₁ :: u₁).take key.length ++ g :: mB).getLast?
                      u₄.head? = true := by
                    rw [getLast?_append_cons _ g mB hmBne]
                    have hword4 : wordOpt rest2.head? = wordOpt u₄.head? :=
                      rw_head_word_eq key repl hk hke hre _ _ _ hrwY
                    have he2 : bdy mB.getLast? rest2.head? = true := by
                      rw [← hm2last]
                      exact he
                    rw [bdy_congr_right _ _ _ hword4] at he2
                    exact he2
                  have hR2 : (c₁ :: u₁).take key.length ++ g :: mB = repl2 :=
                    hnb [] _ u₄ (by rw [hueq, List.nil_append]) hM hsM heM
                  have htk : repl2.take repl.length = (c₁ :: u₁).take key.length := by
                    rw [← hR2]
                    have hlen2 : repl.length = ((c₁ :: u₁).take key.length).length := by
                      rw [hlenO, hlenR]
                    rw [hlen2]
                    exact List.take_left _ _
                  have hreplO : repl = (c₁ :: u₁).take key.length := by
                    rw [← hr2take]
                    exact htk
                  rw [← hR2, hm2eq, hmAeq, hreplO]
                · have hbe : bdy mB.getLast? rest2.head? = true := by
                    rw [← hm2last]
                    exact he
                  exact (crossin_refute key2 repl B A.length
                    (by rw [hk2eq]; exact shape_any_get A B)
                    (by rw [hk2eq]; exact shape_drop A B) hchkC mB rest2 v₅
                    hciB hpreB hout hbe).elim
            · exfalso
              have hmem : PChar.any ∈ key2 := List.get?_mem hgetp
              rw [hkk] at hmem
              have hx2 := List.all_eq_true.mp hkeyall _ hmem
              simp [pcharWordLit] at hx2

theorem chkRestart_at (key2 : List PChar) (repl2 repl : List Char) (o : ℕ)
    (hchk : chkRestart key2 repl2 repl = true) (ho : o < repl.length) (ho0 : o ≠ 0) :
    (if bdy (repl.take o).getLast? ((repl.drop o).head?) then
        if key2.length ≤ repl.length - o then
          (if ciMatches key2 ((repl.drop o).take key2.length) then
            (if key2.length < repl.length - o then
              (if bdyAfterTake (repl.drop o) key2.length then
                decide ((repl.drop o).take key2.length = repl2)
              else true)
            else decide (repl.drop o = repl2))
          else true)
        else
          (match key2.get? (repl.length - o) with
          | some (.lit _) => true
          | _ => !(ciMatches (key2.take (repl.length - o)) (repl.drop o)))
      else true) = true := by
  have h1 := List.all_eq_true.mp hchk o (List.mem_range.mpr ho)
  rw [if_neg ho0] at h1
  exact h1

/-- Interior restarts: a whole-word target match starting strictly inside
the just-emitted replacement reads the target replacement (overruns past
the replacement's end are refuted). -/
theorem restart_conclude (key2 : List PChar) (repl2 : List Char) (repl : List Char)
    (hchkR : chkRestart key2 repl2 repl = true)
    (hshape : key2.all pcharWordLit = true ∨
      ∃ A B, key2 = A ++ .any :: B ∧ A.all pcharWordLit = true ∧
        B.all pcharWordLit = true ∧ A ≠ [] ∧ B ≠ [])
    (a k : List Char) (hrepl : repl = a ++ k) (hane : a ≠ []) (hkne : k ≠ [])
    (m2 rest2 v2 : List Char) (hmr : m2 ++ rest2 = k ++ v2)
    (hci : ciMatches key2 m2 = true) (hk2 : key2 ≠ [])
    (hs : bdy a.getLast? m2.head? = true)
    (he : bdy m2.getLast? rest2.head? = true)
    (hvnw : wordOpt v2.head? = false) : m2 = repl2 := by
  have hapos : 0 < a.length := List.length_pos.mpr hane
  have hkpos : 0 < k.length := List.length_pos.mpr hkne
  have ho : a.length < repl.length := by
    rw [hrepl, List.length_append]
    omega
  have ho0 : a.length ≠ 0 := by omega
  have htake : repl.take a.length = a := by
    rw [hrepl]
    exact List.take_left _ _
  have hdrop : repl.drop a.length = k := by
    rw [hrepl]
    exact List.drop_left _ _
  have hko : repl.length - a.length = k.length := by
    rw [hrepl, List.length_append]
    omega
  have hbr := chkRestart_at key2 repl2 repl a.length hchkR ho ho0
  rw [htake, hdrop, hko] at hbr
  have hm2ne : m2 ≠ [] := ciMatches_ne_nil key2 m2 hk2 hci
  have hhead : m2.head? = k.head? := by
    have h1 : (m2 ++ rest2).head? = m2.head? := List.head?_append_of_ne_nil _ hm2ne
    have h2 : (k ++ v2).head? = k.head? := List.head?_append_of_ne_nil _ hkne
    rw [← h1, hmr, h2]
  have hb0 : bdy a.getLast? k.head? = true := by
    rw [← hhead]
    exact hs
  rw [if_pos hb0] at hbr
  have hlenm2 : m2.length = key2.length := ciMatches_length key2 m2 hci
  by_cases hc1 : key2.length ≤ k.length
  · rw [if_pos hc1] at hbr
    obtain ⟨hm2take, hrest⟩ := append_overlap m2 rest2 k v2 hmr (by omega)
    rw [hlenm2] at hm2take hrest
    have hcit : ciMatches key2 (k.take key2.length) = true := by
      rw [← hm2take]
      exact hci
    rw [if_pos hcit] at hbr
    by_cases hc2 : key2.length < k.length
    · rw [if_pos hc2] at hbr
      have hdropne : k.drop key2.length ≠ [] := by
        intro hcon
        have := congrArg List.length hcon
        rw [List.length_drop] at this
        simp at this
        omega
      have hbat : bdyAfterTake k key2.length = true := by
        rw [hrest, List.head?_append_of_ne_nil _ hdropne] at he
        rw [bdyAfterTake, ← hm2take]
        exact he
      rw [if_pos hbat] at hbr
      rw [hm2take]
      exact of_decide_eq_true hbr
    · rw [if_neg hc2] at hbr
      have hm2k : m2 = k := by
        rw [hm2take, show key2.length = k.length by omega, List.take_length]
      rw [hm2k]
      exact of_decide_eq_true hbr
  · rw [if_neg hc1] at hbr
    have hklt : k.length < m2.length := by omega
    obtain ⟨hktake, hveq2⟩ := append_overlap k v2 m2 rest2 hmr.symm (le_of_lt hklt)
    have hm2keq : m2 = k ++ m2.drop k.length := by
      conv_lhs => rw [← List.take_append_drop k.length m2]
      rw [← hktake]
    obtain ⟨hciT, hciD⟩ :=
      ciMatches_split key2 k (m2.drop k.length) (by rw [← hm2keq]; exact hci)
    rcases hgetp : key2.get? k.length with _ | p
    · rw [List.get?_eq_none] at hgetp
      omega
    · cases p with
      | lit l =>
        exfalso
        obtain ⟨c₂, cs₂, hmd, hcw⟩ :=
          ciMatches_drop_head_lit key2 k.length l (m2.drop k.length) hgetp hciD
        have hlword : isWordChar l = true := shape_lit_word key2 hshape k.length l hgetp
        have hvh : v2.head? = some c₂ := by
          rw [hveq2, hmd, List.cons_append, List.head?_cons]
        rw [hvh] at hvnw
        have hff : isWordChar c₂ = false := hvnw
        rw [hcw, hlword] at hff
        exact Bool.noConfusion hff
      | any =>
        exfalso
        rw [hgetp] at hbr
        have hbr2 : (!(ciMatches (key2.take k.length) k)) = true := hbr
        rw [hciT] at hbr2
        simp at hbr2

/-- The scan invariant: if every whole-word target match of the input
already reads the target replacement (or the target pair is the pair just
applied), the same holds of the output. -/
theorem rw_noBad_transfer (key : List PChar) (repl : List Char) (key2 : List PChar)
    (repl2 : List Char) (hk : key ≠ []) (hke : keyWordEnds key = true)
    (hre : wordEnds repl = true) (hk2 : key2 ≠ [])
    (hshape : key2.all pcharWordLit = true ∨
      ∃ A B, key2 = A ++ .any :: B ∧ A.all pcharWordLit = true ∧
        B.all pcharWordLit = true ∧ A ≠ [] ∧ B ≠ [])
    (hpair : pairOK key2 repl2 key repl = true) :
    ∀ prev u v, Rw key repl prev u v →
      (NoBad key2 repl2 prev u ∨ (key2 = key ∧ repl2 = repl)) →
      NoBad key2 repl2 prev v := by
  have hchkR : chkRestart key2 repl2 repl = true := by
    have hp := hpair
    rw [pairOK, Bool.and_eq_true, Bool.and_eq_true, Bool.and_eq_true] at hp
    exact hp.1.2
  intro prev u v d
  induction d with
  | nil prev =>
    intro _ a m rest hdec hcim hsm hem
    exfalso
    rcases List.append_eq_nil.mp hdec.symm with ⟨-, hmr⟩
    rcases List.append_eq_nil.mp hmr with ⟨hm, -⟩
    exact ciMatches_ne_nil key2 m hk2 hcim hm
  | keep prev c u' v' hc hd ih =>
    intro hmode a m rest hdec hcim hsm hem
    cases a with
    | nil =>
      rw [List.nil_append] at hdec
      exact rw_head_match key repl key2 repl2 hk hke hre hk2 hshape hpair prev
        (c :: u') (c :: v') (Rw.keep prev c u' v' hc hd) hmode m rest hdec hcim hsm hem
    | cons a₀ a' =>
      rw [List.cons_append] at hdec
      injection hdec with h1 h2
      subst h1
      have hmode' : NoBad key2 repl2 (some c) u' ∨ (key2 = key ∧ repl2 = repl) := by
        rcases hmode with hnb | hid
        · exact Or.inl (noBad_cons key2 repl2 prev c u' hnb)
        · exact Or.inr hid
      exact ih hmode' a' m rest h2 hcim hsm hem
  | step prev c u' v' hc hd ih =>
    intro hmode a m rest hdec hcim hsm hem
    have hmode' : NoBad key2 repl2 (some (((c :: u').take key.length).getLastD c))
        ((c :: u').drop key.length) ∨ (key2 = key ∧ repl2 = repl) := by
      rcases hmode with hnb | hid
      · left
        have hdecomp : c :: u' = (c :: u').take key.length ++ (c :: u').drop key.length :=
          (List.take_append_drop _ _).symm
        have h2 := noBad_append key2 repl2 prev ((c :: u').take key.length)
          ((c :: u').drop key.length) (by rw [← hdecomp]; exact hnb)
        have hcast : lastOpt prev ((c :: u').take key.length)
            = some (((c :: u').take key.length).getLastD c) := by
          rcases key with _ | ⟨p, ps⟩
          · exact absurd rfl hk
          · rw [List.length_cons, List.take_succ_cons, lastOpt, lastOpt_getLastD,
              List.getLastD_cons]
        rw [hcast] at h2
        exact h2
      · exact Or.inr hid
    have hnb2 := ih hmode'
    have hw1 : wordOpt (lastOpt prev repl) = true := by
      rw [lastOpt_eq_getLast? prev repl (wordEnds_ne_nil repl hre)]
      exact wordEnds_last repl hre
    have hw2 : wordOpt (some (((c :: u').take key.length).getLastD c)) = true := by
      obtain ⟨hciO, -, -⟩ := scanCond_true_facts key prev c u' hk hc
      simpa [wordOpt] using match_last_word key ((c :: u').take key.length) c hke hciO hk
    cases a with
    | nil =>
      rw [List.nil_append] at hdec
      exact rw_head_match key repl key2 repl2 hk hke hre hk2 hshape hpair prev
        (c :: u') (repl ++ v') (Rw.step prev c u' v' hc hd) hmode m rest hdec hcim hsm hem
    | cons a₀ a' =>
      rcases List.append_eq_append_iff.mp hdec with ⟨w, hax, hvx⟩ | ⟨w, hax, hmrx⟩
      · have hsm2 : bdy (lastOpt (lastOpt prev repl) w) m.head? = true := by
          rw [← lastOpt_append, ← hax]
          exact hsm
        have hsfin : bdy (lastOpt (some (((c :: u').take key.length).getLastD c)) w)
            m.head? = true := by
          cases w with
          | nil =>
            have hsm3 : bdy (lastOpt prev repl) m.head? = true := hsm2
            rw [bdy_congr_left (lastOpt prev repl)
              (some (((c :: u').take key.length).getLastD c)) m.head?
              (hw1.trans hw2.symm)] at hsm3
            exact hsm3
          | cons w₀ w' =>
            rw [lastOpt_congr (lastOpt prev repl)
              (some (((c :: u').take key.length).getLastD c)) (w₀ :: w')
              (List.cons_ne_nil _ _)] at hsm2
            exact hsm2
        exact hnb2 w m rest hvx hcim hsfin hem
      · by_cases hwnil : w = []
        · subst hwnil
          rw [List.append_nil] at hax
          rw [List.nil_append] at hmrx
          have hsm3 : bdy (lastOpt prev repl) m.head? = true := by
            rw [hax]
            exact hsm
          rw [bdy_congr_left (lastOpt prev repl)
            (some (((c :: u').take key.length).getLastD c)) m.head?
            (hw1.trans hw2.symm)] at hsm3
          exact hnb2 [] m rest (by rw [List.nil_append]; exact hmrx.symm) hcim hsm3 hem
        · obtain ⟨-, hvnw⟩ := step_after_facts key repl hk hke prev c u' v' hc hd
          have hsg : bdy (a₀ :: a').getLast? m.head? = true := by
            rw [← lastOpt_eq_getLast? prev (a₀ :: a') (List.cons_ne_nil _ _)]
            exact hsm
          exact restart_conclude key2 repl2 repl hchkR hshape (a₀ :: a') w hax
            (List.cons_ne_nil _ _) hwnil m rest v' hmrx hcim hk2 hsg hem hvnw

theorem keyWordEnds_ne_nil (key : List PChar) (h : keyWordEnds key = true) : key ≠ [] := by
  intro hcon
  subst hcon
  simp [keyWordEnds] at h

/-- Decidable shape condition on a compiled key: all word literals, or word
literals around a single interior wildcard. -/
def shapeB (key2 : List PChar) : Bool :=
  key2.all pcharWordLit ||
  (match key2.dropWhile pcharWordLit with
   | .any :: B => !(key2.takeWhile pcharWordLit).isEmpty && !B.isEmpty &&
       B.all pcharWordLit
   | _ => false)

theorem shapeB_spec (key2 : List PChar) (h : shapeB key2 = true) :
    key2.all pcharWordLit = true ∨
      ∃ A B, key2 = A ++ .any :: B ∧ A.all pcharWordLit = true ∧
        B.all pcharWordLit = true ∧ A ≠ [] ∧ B ≠ [] := by
  rw [shapeB, Bool.or_eq_true] at h
  rcases h with h | h
  · exact Or.inl h
  · right
    rcases hdw : key2.dropWhile pcharWordLit with _ | ⟨p, B⟩
    · rw [hdw] at h
      simp at h
    · rw [hdw] at h
      cases p with
      | lit l => simp at h
      | any =>
        have h2 : (!(key2.takeWhile pcharWordLit).isEmpty && !B.isEmpty
            && B.all pcharWordLit) = true := h
        rw [Bool.and_eq_true, Bool.and_eq_true] at h2
        obtain ⟨⟨hA1, hB1⟩, hB2⟩ := h2
        refine ⟨key2.takeWhile pcharWordLit, B, ?_, ?_, hB2, ?_, ?_⟩
        · rw [← hdw]
          exact (List.takeWhile_append_dropWhile pcharWordLit key2).symm
        · rw [List.all_eq_true]
          intro x hx
          exact List.mem_takeWhile_imp hx
        · intro hcon
          rw [hcon] at hA1
          simp at hA1
        · intro hcon
          rw [hcon] at hB1
          simp at hB1

/-- Well-formedness of one casing rule: word characters at both ends of
the compiled key and of the replacement. -/
def ruleWF (kv : String × String) : Bool :=
  keyWordEnds (keyPat kv.1.data) && wordEnds kv.2.data

/-- The pair checks for every rule against itself and against every later
rule of the list. -/
def tailsOK : List (String × String) → Bool
  | [] => true
  | kv :: rest =>
    pairOK (keyPat kv.1.data) kv.2.data (keyPat kv.1.data) kv.2.data &&
    rest.all (fun kv2 => pairOK (keyPat kv.1.data) kv.2.data
      (keyPat kv2.1.data) kv2.2.data) &&
    tailsOK rest

theorem foldl_eq_self (rules : List (String × String)) (u : List Char)
    (h : ∀ kv ∈ rules, keyPat kv.1.data ≠ [] ∧
      NoBad (keyPat kv.1.data) kv.2.data none u) :
    rules.foldl (fun acc kv => replaceWord kv.1.data kv.2.data acc) u = u := by
  induction rules with
  | nil => rfl
  | cons kv rest ih =>
    rw [List.foldl_cons]
    have h1 := h kv (List.mem_cons_self _ _)
    have hid : replaceWord kv.1.data kv.2.data u = u := by
      rw [replaceWord]
      exact replaceWordGo_eq_self _ _ h1.1 _ _ _ h1.2
    rw [hid]
    exact ih (fun kv2 hm => h kv2 (List.mem_cons_of_mem _ hm))

theorem foldl_preserve (key2 : List PChar) (repl2 : List Char) (hk2 : key2 ≠ [])
    (hshape : key2.all pcharWordLit = true ∨
      ∃ A B, key2 = A ++ .any :: B ∧ A.all pcharWordLit = true ∧
        B.all pcharWordLit = true ∧ A ≠ [] ∧ B ≠ []) :
    ∀ rules : List (String × String),
    (∀ kv ∈ rules, ruleWF kv = true ∧
      pairOK key2 repl2 (keyPat kv.1.data) kv.2.data = true) →
    ∀ u : List Char, NoBad key2 repl2 none u →
    NoBad key2 repl2 none
      (rules.foldl (fun acc kv => replaceWord kv.1.data kv.2.data acc) u) := by
  intro rules
  induction rules with
  | nil =>
    intro _ u h
    exact h
  | cons kv rest ih =>
    intro hc u h
    rw [List.foldl_cons]
    refine ih (fun kv2 hm => hc kv2 (List.mem_cons_of_mem _ hm)) _ ?_
    obtain ⟨hwf, hp⟩ := hc kv (List.mem_cons_self _ _)
    rw [ruleWF, Bool.and_eq_true] at hwf
    have hkne : keyPat kv.1.data ≠ [] := keyWordEnds_ne_nil _ hwf.1
    have hd := rw_replaceWordGo (keyPat kv.1.data) kv.2.data hkne u.length none u le_rfl
    exact rw_noBad_transfer (keyPat kv.1.data) kv.2.data key2 repl2 hkne hwf.1 hwf.2
      hk2 hshape hp none u _ hd (Or.inl h)

theorem foldl_establish :
    ∀ rules : List (String × String),
    (∀ kv ∈ rules, (ruleWF kv && shapeB (keyPat kv.1.data)) = true) →
    tailsOK rules = true →
    ∀ (u : List Char) (kv : String × String), kv ∈ rules →
    NoBad (keyPat kv.1.data) kv.2.data none
      (rules.foldl (fun acc kv => replaceWord kv.1.data kv.2.data acc) u) := by
  intro rules
  induction rules with
  | nil =>
    intro _ _ u kv hm
    simp at hm
  | cons kv0 rest ih =>
    intro hall htails u kv hm
    rw [tailsOK, Bool.and_eq_true, Bool.and_eq_true] at htails
    obtain ⟨⟨hself, hpairs⟩, hrest⟩ := htails
    rw [List.foldl_cons]
    obtain ⟨hwf0, hshape0b⟩ : ruleWF kv0 = true ∧ shapeB (keyPat kv0.1.data) = true := by
      have h1 := hall kv0 (List.mem_cons_self _ _)
      rw [Bool.and_eq_true] at h1
      exact h1
    rcases List.mem_cons.mp hm with rfl | hm2
    · rw [ruleWF, Bool.and_eq_true] at hwf0
      have hkne : keyPat kv.1.data ≠ [] := keyWordEnds_ne_nil _ hwf0.1
      have hshape := shapeB_spec _ hshape0b
      have hd := rw_replaceWordGo (keyPat kv.1.data) kv.2.data hkne u.length none u le_rfl
      have hbase : NoBad (keyPat kv.1.data) kv.2.data none
          (replaceWord kv.1.data kv.2.data u) :=
        rw_noBad_transfer (keyPat kv.1.data) kv.2.data (keyPat kv.1.data) kv.2.data
          hkne hwf0.1 hwf0.2 hkne hshape hself none u _ hd (Or.inr ⟨rfl, rfl⟩)
      refine foldl_preserve (keyPat kv.1.data) kv.2.data hkne hshape rest ?_ _ hbase
      intro kv2 hm2
      refine ⟨?_, List.all_eq_true.mp hpairs kv2 hm2⟩
      have h1 := hall kv2 (List.mem_cons_of_mem _ hm2)
      rw [Bool.and_eq_true] at h1
      exact h1.1
    · exact ih (fun kv2 hm3 => hall kv2 (List.mem_cons_of_mem _ hm3)) hrest
        (replaceWord kv0.1.data kv0.2.data u) kv hm2

theorem casing_fold_idem (rules : List (String × String))
    (hall : ∀ kv ∈ rules, (ruleWF kv && shapeB (keyPat kv.1.data)) = true)
    (htails : tailsOK rules = true) (u : List Char) :
    rules.foldl (fun acc kv => replaceWord kv.1.data kv.2.data acc)
      (rules.foldl (fun acc kv => replaceWord kv.1.data kv.2.data acc) u)
      = rules.foldl (fun acc kv => replaceWord kv.1.data kv.2.data acc) u := by
  refine foldl_eq_self rules _ (fun kv hm => ⟨?_, foldl_establish rules hall htails u kv hm⟩)
  have h1 := hall kv hm
  rw [Bool.and_eq_true, ruleWF, Bool.and_eq_true] at h1
  exact keyWordEnds_ne_nil _ h1.1.1

set_option maxRecDepth 100000 in
theorem casing_rules_wf :
    CASING_RULES.all (fun kv => ruleWF kv && shapeB (keyPat kv.1.data)) = true := by
  decide

set_option maxRecDepth 1000000 in
theorem casing_rules_pairs : tailsOK CASING_RULES = true := by
  decide

/-- C4: The Casing Normalizer is idempotent: for every input string `s`,
`applyCasingRules (applyCasingRules s) = applyCasingRules s`, where
`applyCasingRules` applies each CASING_RULES entry as a whole-word
case-insensitive replacement, in fixed entry order, over the progressively
modified string. -/
theorem applyCasingRules_idempotent (s : String) :
    MarkdownService.applyCasingRules (MarkdownService.applyCasingRules s)
      = MarkdownService.applyCasingRules s := by
  have hall := List.all_eq_true.mp casing_rules_wf
  have e : ∀ t : String, (MarkdownService.applyCasingRules t).data
      = CASING_RULES.foldl (fun acc kv => replaceWord kv.1.data kv.2.data acc) t.data := by
    intro t
    rw [MarkdownService.applyCasingRules]
  apply String.ext
  rw [e (MarkdownService.applyCasingRules s), e s]
  exact casing_fold_idem CASING_RULES (fun kv hm => hall kv hm) casing_rules_pairs s.data

end OhMyCV
